import Mathlib

/-!
# A verification development for the PNG encoder/decoder (`png.c`, `deflate.c`)

The C code is embedded shallowly.

* A byte is a `Nat` (below 256 for data that really lives in a `char` buffer).
* `unsigned int` values are `Nat`s below `2^32`; every place where the C code
  truncates or wraps is written with an explicit `%`.
* C `int` sizes and indices are unbounded `Int`s: signed overflow (undefined in C)
  is outside the model.
* A `FILE *` opened for reading is the list of bytes of the file plus a position.
* A `char *` the filter code indexes is the function from signed offsets to bytes.
* zlib is external to the program: its `deflate`/`inflate` step functions are
  parameters of the model.
-/

namespace PNG

/-! ## CRC-32 (`pngcrc`, `pngcrc2`, `init_table`) -/

/-- The body of the inner loop of `init_table`:
`c = (c & 1 ? 0xedb88320 : 0) ^ (c >> 1)`. -/
def crcStep (c : Nat) : Nat :=
  (if c &&& 1 ≠ 0 then 0xedb88320 else 0) ^^^ (c >>> 1)

/-- The table `init_table` fills: entry `i` is `i` after 8 rounds of `crcStep`. -/
def init_table : List Nat :=
  (List.range 256).map (fun i => crcStep^[8] i)

/-- The loop shared by `pngcrc` and `pngcrc2`:
`for (i = 0; i < length; i++) c = table[(c ^ d[i]) & 0xff] ^ (c >> 8);` -/
def crcLoop (table : List Nat) (c : Nat) (d : List Nat) : Nat :=
  d.foldl (fun c b => table.getD ((c ^^^ b) &&& 0xff) 0 ^^^ (c >>> 8)) c

/-- Translation of `pngcrc`. -/
def pngcrc (data : List Nat) : Nat :=
  crcLoop init_table 0xffffffff data ^^^ 0xffffffff

/-- Translation of `pngcrc2`: continue from an already finished checksum `c`. -/
def pngcrc2 (c : Nat) (data : List Nat) : Nat :=
  crcLoop init_table (c ^^^ 0xffffffff) data ^^^ 0xffffffff

/-- The reference CRC-32, bit by bit (follows the words of the specification):
the byte is XORed into the low 8 bits of the register, then 8 times the register
is shifted right by one and `0xEDB88320` is XORed in when the bit shifted out is 1. -/
def crc32BitStep (c : Nat) : Nat :=
  if c % 2 = 1 then (c / 2) ^^^ 0xEDB88320 else c / 2

/-- Reference: one input byte absorbed by the register. -/
def crc32Byte (c b : Nat) : Nat :=
  crc32BitStep^[8] (c ^^^ b)

/-- Reference: register initialised to `0xFFFFFFFF`, final XOR with `0xFFFFFFFF`. -/
def crc32Reference (d : List Nat) : Nat :=
  d.foldl crc32Byte 0xFFFFFFFF ^^^ 0xFFFFFFFF

/-- Every element of the list is a byte. -/
def IsBytes (l : List Nat) : Prop := ∀ b ∈ l, b < 256

instance (l : List Nat) : Decidable (IsBytes l) := by
  unfold IsBytes; infer_instance

/-! ## Byte order -/

/-- The four bytes `fwrite(&n, sizeof(int), 1, o)` stores after `n = htonl(x)`:
`x` truncated to 32 bits, most significant byte first. -/
def be32 (x : Nat) : List Nat :=
  [x / 2 ^ 24 % 256, x / 2 ^ 16 % 256, x / 2 ^ 8 % 256, x % 256]

/-- The value `ntohl(n)` when the four bytes `b` were read into `n`. -/
def ntohl (b : List Nat) : Nat :=
  b.getD 0 0 % 256 * 2 ^ 24 + b.getD 1 0 % 256 * 2 ^ 16 + b.getD 2 0 % 256 * 2 ^ 8
    + b.getD 3 0 % 256

/-! ## Streams -/

/-- A stream opened for reading: the bytes of the file and the read position. -/
structure FILE where
  data : List Nat
  pos : Nat
deriving DecidableEq, Repr

/-- The outcome of `fread(ptr, size, nmemb, f)`: the bytes stored at `ptr` (a partial
last item included), the returned number of complete items, and the stream
advanced by the bytes read. -/
def fread (size nmemb : Nat) (f : FILE) : List Nat × Nat × FILE :=
  let got := (f.data.drop f.pos).take (size * nmemb)
  (got, got.length / size, { f with pos := f.pos + got.length })

/-- The call `fseek(f, off, SEEK_CUR)` with a non-negative offset (seeking past the
end is allowed; a later read then returns nothing). -/
def fseek_cur (f : FILE) (off : Nat) : FILE :=
  { f with pos := f.pos + off }

/-- The bytes of a C string: everything before the first NUL. -/
def cstr (s : List Nat) : List Nat := s.takeWhile (fun b => b != 0)

/-- Whether `strcmp(a, b) == 0`. -/
def strcmp_eq (a b : List Nat) : Bool := cstr a == cstr b

/-! ## Signature and chunks (`write_pngheader`, `read_pngheader`,
`write_pngsection`, `read_pngsection`)

A stream opened for writing is the list of bytes written so far. -/

/-- Translation of `write_pngheader`. -/
def write_pngheader (o : List Nat) : List Nat :=
  o ++ [0x89, 80, 78, 71, 13, 10, 0x1A, 10]

/-- Translation of `read_pngheader`: the returned truth value and the stream. -/
def read_pngheader (f : FILE) : Bool × FILE :=
  let r := fread 1 8 f
  let dat := r.1
  if r.2.1 < 8 then (false, r.2.2)
  else
    (dat.getD 0 0 == 0x89 &&
     dat.getD 1 0 == 80 &&
     dat.getD 2 0 == 78 &&
     dat.getD 3 0 == 71 &&
     dat.getD 4 0 == 13 &&
     dat.getD 5 0 == 10 &&
     dat.getD 6 0 == 0x1A &&
     dat.getD 7 0 == 10, r.2.2)

/-- Translation of `write_pngsection(o, name, data, length)`; `data` is the list of
the `length` bytes at the pointer (empty for `NULL, 0`), `name` the characters of
the C string. -/
def write_pngsection (o : List Nat) (name : List Nat) (data : List Nat) : List Nat :=
  let length := data.length
  let o := o ++ be32 (length % 2 ^ 32)
  let o := o ++ cstr name
  let o := if length ≠ 0 then o ++ data else o
  let n := pngcrc (cstr name)
  let n := pngcrc2 n data
  o ++ be32 n

/-- The result of `read_pngsection`: the return value, `*data` (`none` for `NULL`),
`*length`, and the stream. -/
structure Section where
  ret : Int
  data : Option (List Nat)
  length : Nat
  f : FILE
deriving DecidableEq, Repr

/-- The `while (1)` loop of `read_pngsection`: `none` when the function returns 0
from inside the loop, otherwise the length `l` at the `break`; with the stream.
Every iteration that continues has consumed 8 bytes, so `fuel` above the number of
remaining bytes is never exhausted. -/
def read_pngsection_scan (name : List Nat) : Nat → FILE → Option Nat × FILE
  | 0, f => (none, f)
  | fuel + 1, f =>
    let r := fread 4 1 f
    if r.2.1 < 1 then (none, r.2.2)
    else
      let l := ntohl r.1
      let r2 := fread 1 4 r.2.2
      if r2.2.1 < 4 then (none, r2.2.2)
      else if strcmp_eq (r2.1 ++ [0]) name then (some l, r2.2.2)
      else read_pngsection_scan name fuel (fseek_cur r2.2.2 ((l + 4) % 2 ^ 32))

/-- Translation of `read_pngsection`. `malloc(l)` is taken to succeed; the bytes of
the fresh block that `fread` does not fill keep their unknown content `junk`. -/
def read_pngsection (junk : Nat → Nat) (f : FILE) (name : List Nat) : Section :=
  match read_pngsection_scan name (f.data.length + 1) f with
  | (none, f1) => { ret := 0, data := none, length := 0, f := f1 }
  | (some l, f1) =>
    let r := fread 1 l f1
    let buf := r.1 ++ (List.range (l - r.1.length)).map (fun k => junk (r.1.length + k) % 256)
    let r2 := fread 4 1 r.2.2
    { ret := 1, data := some buf, length := l, f := r2.2.2 }

/-- A sequence of chunks `(type, payload)` as `write_pngsection` writes them one
after the other. -/
def writeChunks (o : List Nat) (cs : List (List Nat × List Nat)) : List Nat :=
  cs.foldl (fun o c => write_pngsection o c.1 c.2) o

/-- A chunk as the claims take it: a type of 4 non-NUL characters and a payload of
fewer than `2^32 - 4` bytes. -/
def WellFormedChunk (c : List Nat × List Nat) : Prop :=
  c.1.length = 4 ∧ (∀ b ∈ c.1, b ≠ 0) ∧ c.2.length < 2 ^ 32 - 4

/-! ## The zlib interface (`deflate.c`)

zlib is not part of the program. One call of `deflate(z, flush)` or `inflate(z, flush)`
is a function of zlib's internal state, the bytes at `next_in`, `avail_out` and
`flush`; it returns a code, the new internal state, by how much `next_in` advanced and
the bytes it stored at `next_out`. -/

def Z_OK : Int := 0
def Z_STREAM_END : Int := 1
def Z_BUF_ERROR : Int := -5
def Z_DATA_ERROR : Int := -3
def Z_NO_FLUSH : Int := 0
def Z_FINISH : Int := 4
def BUFFER_SIZE : Nat := 65536

/-- The outcome of one call of `deflate` or `inflate`. -/
structure ZStep (σ : Type) where
  code : Int
  state : σ
  consumed : Nat
  produced : List Nat

/-- The external codec. `deflateInit`/`inflateInit` are `none` when the
initialisation does not return `Z_OK`. -/
structure Zlib where
  DState : Type
  IState : Type
  deflateInit : Option DState
  deflate : DState → List Nat → Nat → Int → ZStep DState
  inflateInit : Option IState
  inflate : IState → List Nat → Nat → Int → ZStep IState

/-- The fields of a `z_stream` the wrappers use: the `avail_in` bytes at `next_in`,
the bytes stored so far from where `next_out` was bound, `avail_out`, and zlib's
internal state. -/
structure z_stream (σ : Type) where
  next_in : List Nat
  out : List Nat
  avail_out : Nat
  state : σ

/-- The effect of one codec call on the `z_stream`. -/
def z_stream.after {σ : Type} (z : z_stream σ) (r : ZStep σ) : z_stream σ :=
  { next_in := z.next_in.drop r.consumed
    out := z.out ++ r.produced
    avail_out := z.avail_out - r.produced.length
    state := r.state }

/-- Translation of `bufstr_write`: the accumulated bytes after appending `data`. -/
def bufstr_write (b : List Nat) (data : List Nat) : List Nat := b ++ data

/-- The `do ... while(1)` loop of `zl_deflate` and the statement after it. `z.out` is
the content of the page `buf`, `dat` the growable buffer. `none`: the function
returned without setting `*ret` (codec error), or the loop did not end within `fuel`
calls. -/
def zl_deflate_loop (zl : Zlib) : Nat → z_stream zl.DState → List Nat → Option (List Nat)
  | 0, _, _ => none
  | fuel + 1, z, dat =>
    let r := zl.deflate z.state z.next_in z.avail_out Z_FINISH
    let z := z.after r
    if r.code = Z_STREAM_END then
      some (bufstr_write dat (z.out.take (BUFFER_SIZE - z.avail_out)))
    else if r.code ≠ Z_OK then none
    else if z.avail_out = 0 then
      zl_deflate_loop zl fuel { z with out := [], avail_out := BUFFER_SIZE }
        (bufstr_write dat (z.out.take BUFFER_SIZE))
    else zl_deflate_loop zl fuel z dat

/-- Translation of `zl_deflate`: the bytes `(*ret, *ret_len)`, when it sets them. -/
def zl_deflate (zl : Zlib) (fuel : Nat) (data : List Nat) : Option (List Nat) :=
  match zl.deflateInit with
  | none => none
  | some s =>
    zl_deflate_loop zl fuel
      { next_in := data, out := [], avail_out := BUFFER_SIZE, state := s } []

/-- Translation of `zl_initInflate(out, outlen)`; `none` is the `NULL` return. -/
def zl_initInflate (zl : Zlib) (outlen : Nat) : Option (z_stream zl.IState) :=
  match zl.inflateInit with
  | none => none
  | some s => some { next_in := [], out := [], avail_out := outlen % 2 ^ 32, state := s }

/-- The loop of `zl_inflatePart`; `none` when it does not end within `fuel` calls. -/
def zl_inflatePart_loop (zl : Zlib) : Nat → z_stream zl.IState → Option (Int × z_stream zl.IState)
  | 0, _ => none
  | fuel + 1, z =>
    let r := zl.inflate z.state z.next_in z.avail_out Z_NO_FLUSH
    let z := z.after r
    if r.code = Z_STREAM_END then some (1, z)
    else if r.code ≠ Z_OK then some (0, z)
    else if z.next_in.length = 0 then some (1, z)
    else if z.avail_out = 0 then some (0, z)
    else zl_inflatePart_loop zl fuel z

/-- Translation of `zl_inflatePart(z, in, inlen)`. -/
def zl_inflatePart (zl : Zlib) (fuel : Nat) (z : z_stream zl.IState) (inp : List Nat) :
    Option (Int × z_stream zl.IState) :=
  zl_inflatePart_loop zl fuel { z with next_in := inp }

/-- Translation of `zl_inflateFinish`; `none` when it does not end within `fuel`
calls. -/
def zl_inflateFinish (zl : Zlib) : Nat → z_stream zl.IState → Option (Int × z_stream zl.IState)
  | 0, _ => none
  | fuel + 1, z =>
    let r := zl.inflate z.state z.next_in z.avail_out Z_FINISH
    let z := z.after r
    if r.code = Z_STREAM_END then some (1, z)
    else if r.code ≠ Z_OK then some (0, z)
    else if z.avail_out = 0 then some (0, z)
    else zl_inflateFinish zl fuel z

/-! ## Scanline filters (`filterAverage`, `paethPredictor`, `pngTrueColorAlpha`,
`pngTrueColor`)

A `char *` is the function from signed offsets to the byte stored there. Offsets
outside the allocated block denote the memory next to it, whose content the program
does not control. -/

/-- Memory seen through a pointer. -/
abbrev Mem := Int → Nat

/-- Store one byte. -/
def Mem.write (m : Mem) (i : Int) (v : Nat) : Mem := fun k => if k = i then v else m k

/-- The two buffers the filter code works on. -/
structure Bufs where
  imgbuf : Mem
  buf : Mem

/-- The statement `imgbuf[x] = buf[y];`. -/
def Bufs.copy (s : Bufs) (x y : Int) : Bufs :=
  { s with imgbuf := s.imgbuf.write x (s.buf y) }

/-- The statement `imgbuf[x] = v;`. -/
def Bufs.put (s : Bufs) (x : Int) (v : Nat) : Bufs :=
  { s with imgbuf := s.imgbuf.write x v }

/-- The statement `imgbuf[x] = buf[y] += c;` (`char` arithmetic wraps modulo 256). -/
def Bufs.addTo (s : Bufs) (x y : Int) (c : Nat) : Bufs :=
  let v := (s.buf y + c) % 256
  { imgbuf := s.imgbuf.write x v, buf := s.buf.write y v }

/-- The loop `for (i = a; i < b; i++) body`. -/
def forLoop {α : Type} (a b : Int) (body : Int → α → α) (s : α) : α :=
  (List.range (b - a).toNat).foldl (fun (s : α) (k : Nat) => body (a + (k : Int)) s) s

/-- Translation of `filterAverage`. -/
def filterAverage (left up : Nat) : Nat :=
  let a := left % 256
  let b := up % 256
  ((a + b) / 2) % 256

/-- The conversion of an `int` value to `int16_t`. -/
def toInt16 (x : Int) : Int := (x + 2 ^ 15) % 2 ^ 16 - 2 ^ 15

/-- Translation of `paethPredictor`. The parameters are `uint8_t`, `a`, `b`, `c` are
`uint16_t`, and `p`, `pa`, `pb`, `pc` are `int16_t` holding the value of an `int`
expression. -/
def paethPredictor (left up upLeft : Nat) : Nat :=
  let a : Int := ((left % 256 : Nat) : Int) % 2 ^ 16
  let b : Int := ((up % 256 : Nat) : Int) % 2 ^ 16
  let c : Int := ((upLeft % 256 : Nat) : Int) % 2 ^ 16
  let p : Int := toInt16 (a + b - c)
  let pa : Int := toInt16 (if p < a then a - p else p - a)
  let pb : Int := toInt16 (if p < b then b - p else p - b)
  let pc : Int := toInt16 (if p < c then c - p else p - c)
  if pa ≤ pb ∧ pa ≤ pc then left % 256
  else if pb ≤ pc then up % 256
  else upLeft % 256

/-- The body of the row loop of `pngTrueColorAlpha`: the `switch` on the tag byte of
scanline `j`. -/
def pngTrueColorAlpha_row (w h j : Int) (s : Bufs) : Bufs :=
  let tag := s.buf (j * (w * 4 + 1))
  if tag = 0 then
    forLoop 0 (w * 4) (fun k s =>
      s.copy ((h-1-j) * w * 4 + k) (j * (w * 4 + 1) + 1 + k)) s
  else if tag = 1 then
    let s := s.copy ((h-1-j) * w * 4) (j * (w * 4 + 1) + 1)
    let s := s.copy ((h-1-j) * w * 4 + 1) (j * (w * 4 + 1) + 2)
    let s := s.copy ((h-1-j) * w * 4 + 2) (j * (w * 4 + 1) + 3)
    let s := s.copy ((h-1-j) * w * 4 + 3) (j * (w * 4 + 1) + 4)
    forLoop 1 w (fun i s =>
      let s := s.addTo ((h-1-j)*w*4+i*4+0) (j * (w*4+1) + 1 + i*4) (s.buf (j * (w*4+1) - 3 + i*4))
      let s := s.addTo ((h-1-j)*w*4+i*4+1) (j * (w*4+1) + 2 + i*4) (s.buf (j * (w*4+1) - 2 + i*4))
      let s := s.addTo ((h-1-j)*w*4+i*4+2) (j * (w*4+1) + 3 + i*4) (s.buf (j * (w*4+1) - 1 + i*4))
      s.addTo ((h-1-j)*w*4+i*4+3) (j * (w*4+1) + 4 + i*4) (s.buf (j * (w*4+1) - 0 + i*4))) s
  else if tag = 2 then
    forLoop 0 w (fun i s =>
      let s := s.addTo ((h-1-j)*w*4+i*4+0) (j * (w*4+1) + 1 + i*4) (s.buf ((j-1) * (w*4+1) + i*4 + 1))
      let s := s.addTo ((h-1-j)*w*4+i*4+1) (j * (w*4+1) + 2 + i*4) (s.buf ((j-1) * (w*4+1) + i*4 + 2))
      let s := s.addTo ((h-1-j)*w*4+i*4+2) (j * (w*4+1) + 3 + i*4) (s.buf ((j-1) * (w*4+1) + i*4 + 3))
      s.addTo ((h-1-j)*w*4+i*4+3) (j * (w*4+1) + 4 + i*4) (s.buf ((j-1) * (w*4+1) + i*4 + 4))) s
  else if tag = 3 then
    let c := filterAverage 0 (s.buf ((j-1) * (w*4+1) + 1))
    let s := s.addTo ((h-1-j)*w*4+0) (j * (w*4+1) + 1) c
    let c := filterAverage 0 (s.buf ((j-1) * (w*4+1) + 2))
    let s := s.addTo ((h-1-j)*w*4+1) (j * (w*4+1) + 2) c
    let c := filterAverage 0 (s.buf ((j-1) * (w*4+1) + 3))
    let s := s.addTo ((h-1-j)*w*4+2) (j * (w*4+1) + 3) c
    let c := filterAverage 0 (s.buf ((j-1) * (w*4+1) + 4))
    let s := s.addTo ((h-1-j)*w*4+3) (j * (w*4+1) + 4) c
    forLoop 1 w (fun i s =>
      let c := filterAverage (s.buf ((j-0) * (w*4+1) + (i-1)*4 + 1))
                             (s.buf ((j-1) * (w*4+1) + (i-0)*4 + 1))
      let s := s.addTo ((h-1-j)*w*4+i*4+0) (j * (w*4+1) + 1 + i*4) c
      let c := filterAverage (s.buf ((j-0) * (w*4+1) + (i-1)*4 + 2))
                             (s.buf ((j-1) * (w*4+1) + (i-0)*4 + 2))
      let s := s.addTo ((h-1-j)*w*4+i*4+1) (j * (w*4+1) + 2 + i*4) c
      let c := filterAverage (s.buf ((j-0) * (w*4+1) + (i-1)*4 + 3))
                             (s.buf ((j-1) * (w*4+1) + (i-0)*4 + 3))
      let s := s.addTo ((h-1-j)*w*4+i*4+2) (j * (w*4+1) + 3 + i*4) c
      let c := filterAverage (s.buf ((j-0) * (w*4+1) + (i-1)*4 + 4))
                             (s.buf ((j-1) * (w*4+1) + (i-0)*4 + 4))
      s.addTo ((h-1-j)*w*4+i*4+3) (j * (w*4+1) + 4 + i*4) c) s
  else if tag = 4 then
    let c := paethPredictor 0 (s.buf ((j-1) * (w*4+1) + 1)) 0
    let s := s.addTo ((h-1-j)*w*4+0) (j * (w*4+1) + 1) c
    let c := paethPredictor 0 (s.buf ((j-1) * (w*4+1) + 2)) 0
    let s := s.addTo ((h-1-j)*w*4+1) (j * (w*4+1) + 2) c
    let c := paethPredictor 0 (s.buf ((j-1) * (w*4+1) + 3)) 0
    let s := s.addTo ((h-1-j)*w*4+2) (j * (w*4+1) + 3) c
    let c := paethPredictor 0 (s.buf ((j-1) * (w*4+1) + 4)) 0
    let s := s.addTo ((h-1-j)*w*4+3) (j * (w*4+1) + 4) c
    forLoop 1 w (fun i s =>
      let c := paethPredictor (s.buf ((j-0) * (w*4+1) + (i-1)*4 + 1))
                              (s.buf ((j-1) * (w*4+1) + (i-0)*4 + 1))
                              (s.buf ((j-1) * (w*4+1) + (i-1)*4 + 1))
      let s := s.addTo ((h-1-j)*w*4+i*4+0) (j * (w*4+1) + 1 + i*4) c
      let c := paethPredictor (s.buf ((j-0) * (w*4+1) + (i-1)*4 + 2))
                              (s.buf ((j-1) * (w*4+1) + (i-0)*4 + 2))
                              (s.buf ((j-1) * (w*4+1) + (i-1)*4 + 2))
      let s := s.addTo ((h-1-j)*w*4+i*4+1) (j * (w*4+1) + 2 + i*4) c
      let c := paethPredictor (s.buf ((j-0) * (w*4+1) + (i-1)*4 + 3))
                              (s.buf ((j-1) * (w*4+1) + (i-0)*4 + 3))
                              (s.buf ((j-1) * (w*4+1) + (i-1)*4 + 3))
      let s := s.addTo ((h-1-j)*w*4+i*4+2) (j * (w*4+1) + 3 + i*4) c
      let c := paethPredictor (s.buf ((j-0) * (w*4+1) + (i-1)*4 + 4))
                              (s.buf ((j-1) * (w*4+1) + (i-0)*4 + 4))
                              (s.buf ((j-1) * (w*4+1) + (i-1)*4 + 4))
      s.addTo ((h-1-j)*w*4+i*4+3) (j * (w*4+1) + 4 + i*4) c) s
  else s

/-- Translation of `pngTrueColorAlpha`: the return value and the two buffers. -/
def pngTrueColorAlpha (imgbuf buf : Mem) (w h : Int) : Int × Bufs :=
  (0, forLoop 0 h (fun j s => pngTrueColorAlpha_row w h j s) ⟨imgbuf, buf⟩)

/-- The body of the row loop of `pngTrueColor`: the `switch` on the tag byte of
scanline `j`. -/
def pngTrueColor_row (w h j : Int) (s : Bufs) : Bufs :=
  let tag := s.buf (j * (w * 3 + 1))
  if tag = 0 then
    forLoop 0 w (fun i s =>
      let s := s.copy ((h-1-j)*w*4+i*4+0) (j * (w*3+1) + 1 + i*3)
      let s := s.copy ((h-1-j)*w*4+i*4+1) (j * (w*3+1) + 2 + i*3)
      let s := s.copy ((h-1-j)*w*4+i*4+2) (j * (w*3+1) + 3 + i*3)
      s.put ((h-1-j)*w*4+i*4+3) 0xff) s
  else if tag = 1 then
    let s := s.copy ((h-1-j) * w * 4) (j * (w * 3 + 1) + 1)
    let s := s.copy ((h-1-j) * w * 4 + 1) (j * (w * 3 + 1) + 2)
    let s := s.copy ((h-1-j) * w * 4 + 2) (j * (w * 3 + 1) + 3)
    let s := s.put ((h-1-j) * w * 4 + 3) 0xff
    forLoop 1 w (fun i s =>
      let s := s.addTo ((h-1-j)*w*4+i*4+0) (j * (w*3+1) + 1 + i*3) (s.buf (j * (w*3+1) + (i-1)*3 + 1))
      let s := s.addTo ((h-1-j)*w*4+i*4+1) (j * (w*3+1) + 2 + i*3) (s.buf (j * (w*3+1) + (i-1)*3 + 2))
      let s := s.addTo ((h-1-j)*w*4+i*4+2) (j * (w*3+1) + 3 + i*3) (s.buf (j * (w*3+1) + (i-1)*3 + 3))
      s.put ((h-1-j)*w*4+i*4+3) 0xff) s
  else if tag = 2 then
    forLoop 0 w (fun i s =>
      let s := s.addTo ((h-1-j)*w*4+i*4+0) (j * (w*3+1) + 1 + i*3) (s.buf ((j-1) * (w*3+1) + i*3 + 1))
      let s := s.addTo ((h-1-j)*w*4+i*4+1) (j * (w*3+1) + 2 + i*3) (s.buf ((j-1) * (w*3+1) + i*3 + 2))
      let s := s.addTo ((h-1-j)*w*4+i*4+2) (j * (w*3+1) + 3 + i*3) (s.buf ((j-1) * (w*3+1) + i*3 + 3))
      s.put ((h-1-j)*w*4+i*4+3) 0xff) s
  else if tag = 3 then
    let c := filterAverage 0 (s.buf ((j-1) * (w*3+1) + 1))
    let s := s.addTo ((h-1-j)*w*4+0) (j * (w*3+1) + 1) c
    let c := filterAverage 0 (s.buf ((j-1) * (w*3+1) + 2))
    let s := s.addTo ((h-1-j)*w*4+1) (j * (w*3+1) + 2) c
    let c := filterAverage 0 (s.buf ((j-1) * (w*3+1) + 3))
    let s := s.addTo ((h-1-j)*w*4+2) (j * (w*3+1) + 3) c
    let s := s.put ((h-1-j)*w*4+3) 0xff
    forLoop 1 w (fun i s =>
      let c := filterAverage (s.buf ((j-0) * (w*3+1) + (i-1)*3 + 1))
                             (s.buf ((j-1) * (w*3+1) + (i-0)*3 + 1))
      let s := s.addTo ((h-1-j)*w*4+i*4+0) (j * (w*3+1) + 1 + i*3) c
      let c := filterAverage (s.buf ((j-0) * (w*3+1) + (i-1)*3 + 2))
                             (s.buf ((j-1) * (w*3+1) + (i-0)*3 + 2))
      let s := s.addTo ((h-1-j)*w*4+i*4+1) (j * (w*3+1) + 2 + i*3) c
      let c := filterAverage (s.buf ((j-0) * (w*3+1) + (i-1)*3 + 3))
                             (s.buf ((j-1) * (w*3+1) + (i-0)*3 + 3))
      let s := s.addTo ((h-1-j)*w*4+i*4+2) (j * (w*3+1) + 3 + i*3) c
      s.put ((h-1-j)*w*4+i*4+3) 0xff) s
  else if tag = 4 then
    let c := paethPredictor 0 (s.buf ((j-1) * (w*3+1) + 1)) 0
    let s := s.addTo ((h-1-j)*w*4+0) (j * (w*3+1) + 1) c
    let c := paethPredictor 0 (s.buf ((j-1) * (w*3+1) + 2)) 0
    let s := s.addTo ((h-1-j)*w*4+1) (j * (w*3+1) + 2) c
    let c := paethPredictor 0 (s.buf ((j-1) * (w*3+1) + 3)) 0
    let s := s.addTo ((h-1-j)*w*4+2) (j * (w*3+1) + 3) c
    let s := s.put ((h-1-j)*w*4+3) 0xff
    forLoop 1 w (fun i s =>
      let c := paethPredictor (s.buf ((j-0) * (w*3+1) + (i-1)*3 + 1))
                              (s.buf ((j-1) * (w*3+1) + (i-0)*3 + 1))
                              (s.buf ((j-1) * (w*3+1) + (i-1)*3 + 1))
      let s := s.addTo ((h-1-j)*w*4+i*4+0) (j * (w*3+1) + 1 + i*3) c
      let c := paethPredictor (s.buf ((j-0) * (w*3+1) + (i-1)*3 + 2))
                              (s.buf ((j-1) * (w*3+1) + (i-0)*3 + 2))
                              (s.buf ((j-1) * (w*3+1) + (i-1)*3 + 2))
      let s := s.addTo ((h-1-j)*w*4+i*4+1) (j * (w*3+1) + 2 + i*3) c
      let c := paethPredictor (s.buf ((j-0) * (w*3+1) + (i-1)*3 + 3))
                              (s.buf ((j-1) * (w*3+1) + (i-0)*3 + 3))
                              (s.buf ((j-1) * (w*3+1) + (i-1)*3 + 3))
      let s := s.addTo ((h-1-j)*w*4+i*4+2) (j * (w*3+1) + 3 + i*3) c
      s.put ((h-1-j)*w*4+i*4+3) 0xff) s
  else s

/-- Translation of `pngTrueColor`: the return value and the two buffers. -/
def pngTrueColor (imgbuf buf : Mem) (w h : Int) : Int × Bufs :=
  (0, forLoop 0 h (fun j s => pngTrueColor_row w h j s) ⟨imgbuf, buf⟩)

/-! ## Saving and loading (`saveAsPNG`, `getFromPNG`) -/

/-- The struct `pngimage`; `data = none` is the `NULL` pointer, otherwise the bytes
of the block `data` points to. -/
structure pngimage where
  w : Int
  h : Int
  data : Option (List Nat)
deriving DecidableEq, Repr

def IHDR : List Nat := [73, 72, 68, 82]
def IDAT : List Nat := [73, 68, 65, 84]
def IEND : List Nat := [73, 69, 78, 68]

/-- The call `memcpy(dst + off, src, n)` on a block given as a list, `src` being the
`n` source bytes. -/
def memcpy_at (dst : List Nat) (off : Nat) (src : List Nat) : List Nat :=
  dst.take off ++ src ++ dst.drop (off + src.length)

/-- The scanline buffer `saveAsPNG` hands to the compressor: `(w*4+1)*h` zero bytes,
then for each `j` the raster row `j` copied to scanline `h-1-j`, after its tag. -/
def saveAsPNG_buf (w h : Nat) (data : List Nat) : List Nat :=
  (List.range h).foldl
    (fun buf j => memcpy_at buf ((h - 1 - j) * (w * 4 + 1) + 1)
      ((data.drop (j * w * 4)).take (w * 4)))
    (List.replicate ((w * 4 + 1) * h) 0)

/-- Translation of `saveAsPNG`. `canOpen` says whether `fopen` succeeds. The result
is the return value and the bytes written to the file (`none`: no file). The
function has no result (`none`) when `zl_deflate` leaves `p` and `l` unset. -/
def saveAsPNG (zl : Zlib) (fuel : Nat) (canOpen : Bool) (img : pngimage) :
    Option (Int × Option (List Nat)) :=
  if canOpen = false then some (1, none)
  else
    let f := write_pngheader []
    let info := List.replicate 16 0
    let w := img.w
    let h := img.h
    let info := memcpy_at info 0 (be32 (w % 2 ^ 32).toNat)
    let info := memcpy_at info 4 (be32 (h % 2 ^ 32).toNat)
    let info := info.set 8 8
    let info := info.set 9 6
    let f := write_pngsection f IHDR (info.take 13)
    let buf := saveAsPNG_buf w.toNat h.toNat (img.data.getD [])
    match zl_deflate zl fuel buf with
    | none => none
    | some p =>
      let f := write_pngsection f IDAT p
      let f := write_pngsection f IEND []
      some (0, some f)

/-- The conversion of a 32-bit unsigned value to `int`. -/
def toInt32 (n : Nat) : Int :=
  if n % 2 ^ 32 < 2 ^ 31 then ((n % 2 ^ 32 : Nat) : Int) else ((n % 2 ^ 32 : Nat) : Int) - 2 ^ 32

/-- The loop `while (read_pngsection(f, "IDAT", &p, &l))` of `getFromPNG`.
`some (true, z)`: the loop ended; `some (false, z)`: `zl_inflatePart` returned 0
(`goto FAIL2`); `none`: a codec loop did not end. Each round consumes at least 8
bytes of the file, so a count above the file length is never exhausted. -/
def getFromPNG_idat (zl : Zlib) (fuel : Nat) (junk : Nat → Nat) :
    Nat → FILE → z_stream zl.IState → Option (Bool × z_stream zl.IState)
  | 0, _, z => some (true, z)
  | n + 1, f, z =>
    let r := read_pngsection junk f IDAT
    if r.ret = 0 then some (true, z)
    else
      match zl_inflatePart zl fuel z (r.data.getD []) with
      | none => none
      | some (ok, z) =>
        if ok = 0 then some (false, z)
        else getFromPNG_idat zl fuel junk n r.f z

/-- The scanline buffer `buf` of `getFromPNG` after decompression, seen through the
pointer: `size` bytes, zeroed by `memset` and then filled from offset 0 with the
bytes the codec stored; `heap` is the memory around the block. -/
def getFromPNG_buf (heap : Int → Nat) (size : Int) (out : List Nat) : Mem :=
  fun i => if 0 ≤ i ∧ i < size then out.getD i.toNat 0 else heap i

/-- The last step of `getFromPNG`, after `zl_inflateFinish` succeeded: the call of
`pngTrueColorAlpha` or `pngTrueColor` on the zero-filled `imgbuf` and the scanline
buffer holding the bytes `out` the codec stored; the result is the `w * h * 4` bytes
of `imgbuf`. -/
def getFromPNG_pixels (heap : Int → Nat) (w h bpp : Int) (out : List Nat) : List Nat :=
  let buf := getFromPNG_buf heap ((w * bpp + 1) * h) out
  let imgbuf : Mem := fun _ => 0
  let res :=
    if bpp = 4 then (pngTrueColorAlpha imgbuf buf w h).2
    else if bpp = 3 then (pngTrueColor imgbuf buf w h).2
    else ⟨imgbuf, buf⟩
  (List.range (w * h * 4).toNat).map (fun (k : Nat) => res.imgbuf (k : Int))

/-- The part of `getFromPNG` from `buf = malloc((w * bpp + 1) * h)` to the end, for
the dimensions and `bpp` read from IHDR; `f` is the stream after the IHDR chunk and
`n` bounds the rounds of the IDAT loop. `malloc` fails exactly for a negative size. -/
def getFromPNG_decode (zl : Zlib) (fuel : Nat) (junk : Nat → Nat) (heap : Int → Nat)
    (n : Nat) (f : FILE) (w h bpp : Int) : Option pngimage :=
  let img : pngimage := { w := 0, h := 0, data := none }
  if (w * bpp + 1) * h < 0 then some img
  else
    match zl_initInflate zl ((w * bpp + 1) * h).toNat with
    | none => some img
    | some z =>
      if w * h * 4 < 0 then some img
      else
        match getFromPNG_idat zl fuel junk n f z with
        | none => none
        | some (false, _) => some img
        | some (true, z) =>
          match zl_inflateFinish zl fuel z with
          | none => none
          | some (ok, z) =>
            if ok = 0 then some img
            else some { w := w, h := h, data := some (getFromPNG_pixels heap w h bpp z.out) }

/-- Translation of `getFromPNG`. `file` is the content of the file, `none` when
`fopen` fails. The result is `none` when a codec loop does not end within `fuel`
calls. -/
def getFromPNG (zl : Zlib) (fuel : Nat) (junk : Nat → Nat) (heap : Int → Nat)
    (file : Option (List Nat)) : Option pngimage :=
  let img : pngimage := { w := 0, h := 0, data := none }
  match file with
  | none => some img
  | some bytes =>
    let hd := read_pngheader ⟨bytes, 0⟩
    if hd.1 = false then some img
    else
      let r := read_pngsection junk hd.2 IHDR
      match r.data with
      | none => some img
      | some info =>
        if r.length < 13 then some img
        else
          let w := toInt32 (ntohl (info.take 4))
          let h := toInt32 (ntohl ((info.drop 4).take 4))
          if info.getD 8 0 ≠ 8 then some img
          else if info.getD 9 0 = 6 then
            getFromPNG_decode zl fuel junk heap (bytes.length + 1) r.f w h 4
          else if info.getD 9 0 = 2 then
            getFromPNG_decode zl fuel junk heap (bytes.length + 1) r.f w h 3
          else some img

/-! ## A small codec for examples

Every byte `b` of the input is sent as `1, b`; a single `0` ends the stream. -/

/-- The compressed form of `x` in the example codec. -/
def toyCompress : List Nat → List Nat
  | [] => [0]
  | b :: x => 1 :: b :: toyCompress x

/-- Decoding in the example codec: `st` is 0 before a flag byte, 1 before a data
byte, 2 after the end of the stream. Returns the state, the number of bytes consumed
and the bytes produced, and whether the input was malformed. -/
def toyDecode : List Nat → Nat → Nat → Nat × Nat × List Nat × Bool
  | [], st, _ => (st, 0, [], false)
  | b :: inp, st, avail =>
    if st = 2 then (2, 0, [], false)
    else if st = 0 then
      if b = 0 then (2, 1, [], false)
      else if b = 1 then
        let r := toyDecode inp 1 avail
        (r.1, r.2.1 + 1, r.2.2.1, r.2.2.2)
      else (0, 0, [], true)
    else
      match avail with
      | 0 => (1, 0, [], false)
      | a + 1 =>
        let r := toyDecode inp 0 a
        (r.1, r.2.1 + 1, b :: r.2.2.1, r.2.2.2)

/-- The example codec as an instance of the zlib interface. The deflate state is the
output still to be emitted (`none` before the first call). -/
def toyZlib : Zlib where
  DState := Option (List Nat)
  IState := Nat
  deflateInit := some none
  deflate := fun s inp avail _ =>
    let pending := match s with
      | none => toyCompress inp
      | some p => p
    { code := if pending.length ≤ avail then Z_STREAM_END else Z_OK
      state := some (pending.drop avail)
      consumed := inp.length
      produced := pending.take avail }
  inflateInit := some 0
  inflate := fun st inp avail flush =>
    let r := toyDecode inp st avail
    { code :=
        if r.2.2.2 then Z_DATA_ERROR
        else if r.1 = 2 then Z_STREAM_END
        else if (r.2.1 = 0 ∧ r.2.2.1.length = 0) ∨ flush = Z_FINISH then Z_BUF_ERROR
        else Z_OK
      state := r.1
      consumed := r.2.1
      produced := r.2.2.1 }

/-! ## Reference layouts (written after the specification) -/

/-- Row `k` of a raster of width `w`: its `4w` bytes. -/
def rasterRow (w : Nat) (data : List Nat) (k : Nat) : List Nat :=
  (data.drop (k * w * 4)).take (w * 4)

/-- The scanline buffer in the words of the specification: `h` rows, row `r` being
the tag byte 0 followed by the `4w` bytes of raster row `h-1-r`. -/
def scanlinesSpec (w h : Nat) (data : List Nat) : List Nat :=
  (List.range h).flatMap (fun r => 0 :: rasterRow w data (h - 1 - r))

/-- A chunk in the words of the specification:
`uint32_be length | type | payload | uint32_be crc32(type ++ payload)`. -/
def chunkSpec (ty payload : List Nat) : List Nat :=
  be32 payload.length ++ ty ++ payload ++ be32 (pngcrc (ty ++ payload))

/-- The 8-byte signature. -/
def pngSignature : List Nat := [0x89, 0x50, 0x4E, 0x47, 0x0D, 0x0A, 0x1A, 0x0A]

/-! ## Where the filter code puts the bytes of a row -/

/-- The state `s` of the filter code inside scanline `j`, whose output row starts at
offset `X` of `imgbuf` and whose pixel bytes start at offset `Y` of `buf`, after the
pixels before `n`: every output byte of those pixels equals the byte of `buf` it
comes from, for `b = 3` their fourth byte is `0xFF`, and compared with the state
`s0` at the start of the row nothing outside the row was written. -/
def RowInv (b X Y w n : Int) (s0 s : Bufs) : Prop :=
  (∀ i k : Int, 0 ≤ i → i < n → 0 ≤ k → k < b →
      s.imgbuf (X + i * 4 + k) = s.buf (Y + i * b + k))
  ∧ (b = 3 → ∀ i : Int, 0 ≤ i → i < n → s.imgbuf (X + i * 4 + 3) = 255)
  ∧ (∀ x : Int, (x < X ∨ X + w * 4 ≤ x) → s.imgbuf x = s0.imgbuf x)
  ∧ (∀ y : Int, (y < Y ∨ Y + w * b ≤ y) → s.buf y = s0.buf y)

/-- The state `s` of the filter code after the scanlines before `m`, for `b` bytes
per pixel: every output byte of those scanlines, at the flipped row, equals the byte
of `buf` it comes from; for `b = 3` the fourth byte of every such pixel is `0xFF`;
`buf` is as at the start (`buf0`) from scanline `m` on. -/
def ImgInv (b w h : Int) (buf0 : Mem) (m : Int) (s : Bufs) : Prop :=
  (∀ j i k : Int, 0 ≤ j → j < m → 0 ≤ i → i < w → 0 ≤ k → k < b →
      s.imgbuf ((h-1-j) * w * 4 + i * 4 + k) = s.buf (j * (w * b + 1) + 1 + i * b + k))
  ∧ (b = 3 → ∀ j i : Int, 0 ≤ j → j < m → 0 ≤ i → i < w →
      s.imgbuf ((h-1-j) * w * 4 + i * 4 + 3) = 255)
  ∧ (∀ y : Int, m * (w * b + 1) ≤ y → s.buf y = buf0 y)

/-- A one-pixel RGBA scanline buffer `tag, 10, 20, 30, 40` seen through its pointer,
every byte of the memory in front of the block being `pre`. -/
def onePixelBuf (tag pre : Nat) : Mem :=
  fun i => if i < 0 then pre else [tag, 10, 20, 30, 40].getD i.toNat 0

/-! ## What the round trip needs from the codec -/

/-- The contract `inflate (deflate x) = x` of the external codec, in terms of single
calls, for a compression function `compress`:
* `deflateInit` succeeds, and `deflate` with `Z_FINISH` on the whole input returns
  `Z_STREAM_END` having stored `compress x` when the output window can hold it;
* the compressed form of at most `(4*64+1)*64` bytes fits one page of `BUFFER_SIZE`;
* `inflateInit` succeeds, and `inflate` on `compress x` with a window that can hold
  `x` returns `Z_STREAM_END` having stored `x`; after the end of the stream every
  further call returns `Z_STREAM_END` and stores nothing. -/
structure CodecRoundTrip (zl : Zlib) (compress : List Nat → List Nat) : Prop where
  deflate_ok : ∃ s, zl.deflateInit = some s ∧
    ∀ x avail, IsBytes x → (compress x).length ≤ avail →
      (zl.deflate s x avail Z_FINISH).code = Z_STREAM_END
        ∧ (zl.deflate s x avail Z_FINISH).produced = compress x
  bound : ∀ x, IsBytes x → x.length ≤ (4 * 64 + 1) * 64 → (compress x).length ≤ BUFFER_SIZE
  inflate_ok : ∃ s, zl.inflateInit = some s ∧
    ∀ x avail, IsBytes x → x.length ≤ avail →
      (zl.inflate s (compress x) avail Z_NO_FLUSH).code = Z_STREAM_END
        ∧ (zl.inflate s (compress x) avail Z_NO_FLUSH).produced = x
        ∧ ∀ inp avail2 flush,
            (zl.inflate (zl.inflate s (compress x) avail Z_NO_FLUSH).state inp avail2 flush).code
              = Z_STREAM_END
            ∧ (zl.inflate (zl.inflate s (compress x) avail Z_NO_FLUSH).state inp avail2
                flush).produced = []

/-- The Paeth predictor in the words of the specification: with `p = a + b - c` over
the integers, whichever of left `a`, up `b`, upper-left `c` is nearest to `p`, ties
broken in the order left, up, upper-left. -/
def paethSpec (a b c : Nat) : Nat :=
  let p : Int := (a : Int) + (b : Int) - (c : Int)
  if (p - a).natAbs ≤ (p - b).natAbs ∧ (p - a).natAbs ≤ (p - c).natAbs then a
  else if (p - b).natAbs ≤ (p - c).natAbs then b
  else c

/-! ## The values the filter code reconstructs -/

/-- The byte to the left in the row whose pixel bytes start at offset `Y`: the byte of
the same channel `k` of pixel `i-1`, and 0 for pixel 0. -/
def leftOf (b Y i k : Int) (m : Mem) : Nat :=
  if i = 0 then 0 else m (Y + (i - 1) * b + k)

/-- The state `t` of the filter code inside a scanline whose pixel bytes start at
offset `Y` (those of the scanline before at `Yp`), after the pixels before `n`, for a
predictor `g` of the left, upper and upper-left bytes: `buf` is as at the start of
the row (`s`) outside those pixels, and every byte of those pixels is the stored byte
plus the prediction from the bytes now in `buf`, modulo 256. -/
def RowVal (g : Nat → Nat → Nat → Nat) (b Y Yp n : Int) (s t : Bufs) : Prop :=
  (∀ y : Int, (y < Y ∨ Y + n * b ≤ y) → t.buf y = s.buf y)
  ∧ (∀ i k : Int, 0 ≤ i → i < n → 0 ≤ k → k < b →
      t.buf (Y + i * b + k)
        = (s.buf (Y + i * b + k)
            + g (leftOf b Y i k t.buf) (s.buf (Yp + i * b + k)) (leftOf b Yp i k s.buf)) % 256)

/-- Every location of `buf` holds a byte. -/
def BufBytes (s : Bufs) : Prop := ∀ y : Int, s.buf y < 256


/-- A memory that holds the bytes of `l` at offsets `0 ..` (and `0` past its end). -/
def memOf (l : List Nat) : Mem := fun i => l.getD i.toNat 0

/-! ## Chunk streams with arbitrary CRC fields -/

/-- A chunk `(type, payload, crc)` as it lies in a stream: the big-endian payload
length, the type, the payload and the 4 bytes of the CRC field, whatever they are. -/
def rawChunk (c : List Nat × List Nat × List Nat) : List Nat :=
  be32 c.2.1.length ++ c.1 ++ c.2.1 ++ c.2.2

/-- A sequence of chunks one after the other. -/
def rawChunks (cs : List (List Nat × List Nat × List Nat)) : List Nat :=
  cs.flatMap rawChunk

/-- Two chunks that differ at most in their CRC fields: the same 4-byte type and the
same payload (of fewer than `2^32 - 4` bytes), each with a CRC field of 4 bytes. -/
def CrcVariant (c d : List Nat × List Nat × List Nat) : Prop :=
  c.1 = d.1 ∧ c.2.1 = d.2.1 ∧ c.1.length = 4 ∧ c.2.1.length < 2 ^ 32 - 4
    ∧ c.2.2.length = 4 ∧ d.2.2.length = 4

/-! ## What the overrun check needs from the codec -/

/-- The concatenated payloads of the IDAT chunks of a chunk sequence, in file order:
the compressed stream the file carries. -/
def idatStream (cs : List (List Nat × List Nat × List Nat)) : List Nat :=
  (cs.filter (fun c => c.1 = IDAT)).flatMap (fun c => c.2.1)

/-- A contract for `inflate`, relative to `decoded c`, the decompressed data of the
stream that starts `c` (if there is one). `Inv s cin cout` relates a codec state to
the bytes consumed and produced since `inflateInit`.
* every call consumes at most the input it is given and stores at most `avail_out`
  bytes;
* when a call returns `Z_STREAM_END`, what has been produced since `inflateInit` is
  the decompressed data of what has been consumed, whatever bytes follow;
* a call that returns `Z_OK` has consumed or produced at least one byte. -/
structure InflateContract (zl : Zlib) (decoded : List Nat → Option (List Nat))
    (Inv : zl.IState → List Nat → List Nat → Prop) : Prop where
  init : ∀ s, zl.inflateInit = some s → Inv s [] []
  bounds : ∀ s inp avail flush,
    (zl.inflate s inp avail flush).consumed ≤ inp.length
    ∧ (zl.inflate s inp avail flush).produced.length ≤ avail
  step : ∀ s cin cout inp avail flush, Inv s cin cout →
    Inv (zl.inflate s inp avail flush).state
      (cin ++ inp.take (zl.inflate s inp avail flush).consumed)
      (cout ++ (zl.inflate s inp avail flush).produced)
  stream_end : ∀ s cin cout inp avail flush, Inv s cin cout →
    (zl.inflate s inp avail flush).code = Z_STREAM_END →
    ∀ t, decoded (cin ++ inp.take (zl.inflate s inp avail flush).consumed ++ t)
      = some (cout ++ (zl.inflate s inp avail flush).produced)
  progress : ∀ s inp avail flush, (zl.inflate s inp avail flush).code = Z_OK →
    0 < (zl.inflate s inp avail flush).consumed
      + (zl.inflate s inp avail flush).produced.length

/-- A chunk `(type, payload, crc)` with a 4-byte type, a payload of fewer than
`2^32 - 4` bytes and a 4-byte CRC field. -/
def WellFormedRaw (c : List Nat × List Nat × List Nat) : Prop :=
  c.1.length = 4 ∧ c.2.1.length < 2 ^ 32 - 4 ∧ c.2.2.length = 4

/-- The data a byte sequence stands for in the example codec, read from decoder state
`st` (0 before a flag byte, 1 before a data byte); `none` when the sequence is
malformed or has no end marker. -/
def toyParse : List Nat → Nat → Option (List Nat)
  | [], _ => none
  | b :: t, 0 => if b = 0 then some [] else if b = 1 then toyParse t 1 else none
  | b :: t, _ + 1 => (toyParse t 0).map (fun x => b :: x)

/-- The decompressed data of a stream of the example codec. -/
def toyDecoded (c : List Nat) : Option (List Nat) := toyParse c 0

/-- The invariant of the example codec: in state 2 the consumed bytes are a complete
stream standing for the produced bytes; in states 0 and 1 the consumed bytes followed
by `t` stand for the produced bytes followed by what `t` stands for. -/
def toyInv (s : Nat) (cin cout : List Nat) : Prop :=
  (s = 2 ∧ ∀ t, toyParse (cin ++ t) 0 = some cout)
  ∨ (s < 2 ∧ ∀ t, toyParse (cin ++ t) 0 = (toyParse t s).map (fun x => cout ++ x))

/-! ## What saving needs from the codec -/

/-- A contract for `deflate` called with `Z_FINISH` until it reports the end, relative
to `compress X`, the compressed stream of the input `X`. `Inv s inp cout X` relates a
codec state to the input still to be consumed, the bytes produced since `deflateInit`
and the whole input. For a call with a non-empty output window:
* it stores at most `avail_out` bytes;
* when it returns `Z_STREAM_END`, what has been produced since `deflateInit` is
  `compress X`;
* otherwise it returns `Z_OK`, has stored at least one byte, and what has been
  produced so far is shorter than `compress X`. -/
structure DeflateContract (zl : Zlib) (compress : List Nat → List Nat)
    (Inv : zl.DState → List Nat → List Nat → List Nat → Prop) : Prop where
  init : ∃ s, zl.deflateInit = some s ∧ ∀ x, Inv s x [] x
  step : ∀ s inp cout X avail, Inv s inp cout X → 0 < avail →
    (zl.deflate s inp avail Z_FINISH).produced.length ≤ avail
    ∧ Inv (zl.deflate s inp avail Z_FINISH).state
        (inp.drop (zl.deflate s inp avail Z_FINISH).consumed)
        (cout ++ (zl.deflate s inp avail Z_FINISH).produced) X
    ∧ ((zl.deflate s inp avail Z_FINISH).code = Z_STREAM_END →
        cout ++ (zl.deflate s inp avail Z_FINISH).produced = compress X)
    ∧ ((zl.deflate s inp avail Z_FINISH).code ≠ Z_STREAM_END →
        (zl.deflate s inp avail Z_FINISH).code = Z_OK
        ∧ 0 < (zl.deflate s inp avail Z_FINISH).produced.length
        ∧ (cout ++ (zl.deflate s inp avail Z_FINISH).produced).length < (compress X).length)

/-- The invariant of the example codec's `deflate`: before the first call nothing has
been produced and the whole input is still to come; afterwards the bytes produced
followed by the pending ones are the compressed stream. -/
def toyDInv (s : Option (List Nat)) (inp cout X : List Nat) : Prop :=
  (s = none ∧ inp = X ∧ cout = []) ∨ (∃ p, s = some p ∧ cout ++ p = toyCompress X)
/-! # Theorems -/

/-! ### Lemmas on the CRC -/

theorem crcStep_eq_bitStep (c : Nat) : crcStep c = crc32BitStep c := by
  unfold crcStep crc32BitStep
  rw [Nat.and_one_is_mod, Nat.shiftRight_one]
  rcases Nat.mod_two_eq_zero_or_one c with h | h
  · simp [h]
  · simp [h, Nat.xor_comm]

theorem nat_xor_left_comm (a b c : Nat) : a ^^^ (b ^^^ c) = b ^^^ (a ^^^ c) := by
  rw [← Nat.xor_assoc, Nat.xor_comm a b, Nat.xor_assoc]

theorem nat_xor_cancel_left (a b : Nat) : a ^^^ (a ^^^ b) = b := by
  rw [← Nat.xor_assoc, Nat.xor_self, Nat.zero_xor]

theorem nat_xor_cancel_right (a b : Nat) : (b ^^^ a) ^^^ a = b := by
  rw [Nat.xor_assoc, Nat.xor_self, Nat.xor_zero]

theorem crcStep_xor (u v : Nat) : crcStep (u ^^^ v) = crcStep u ^^^ crcStep v := by
  unfold crcStep
  simp only [Nat.and_one_is_mod, Nat.shiftRight_one, Nat.xor_div_two, Nat.xor_mod_two_eq]
  rcases Nat.mod_two_eq_zero_or_one u with hu | hu <;>
    rcases Nat.mod_two_eq_zero_or_one v with hv | hv <;>
    have huv : (u + v) % 2 = (u % 2 + v % 2) % 2 := Nat.add_mod u v 2 <;>
    rw [huv, hu, hv] <;>
    simp [Nat.xor_assoc, Nat.xor_comm, nat_xor_left_comm, nat_xor_cancel_left]

theorem crcStep_iter_xor (k u v : Nat) :
    crcStep^[k] (u ^^^ v) = crcStep^[k] u ^^^ crcStep^[k] v := by
  induction k generalizing u v with
  | zero => rfl
  | succ k ih => simp only [Function.iterate_succ_apply, crcStep_xor, ih]

theorem crcStep_shiftLeft_succ (h k : Nat) : crcStep (h <<< (k + 1)) = h <<< k := by
  unfold crcStep
  have h0 : (h <<< (k + 1)) &&& 1 = 0 := by
    rw [Nat.and_one_is_mod, Nat.shiftLeft_eq, pow_succ, ← Nat.mul_assoc]
    exact Nat.mul_mod_left _ 2
  have h1 : (h <<< (k + 1)) >>> 1 = h <<< k := by
    rw [Nat.shiftRight_one, Nat.shiftLeft_eq, Nat.shiftLeft_eq, pow_succ, ← Nat.mul_assoc]
    exact Nat.mul_div_cancel _ (by decide)
  simp [h0, h1]

theorem crcStep_iter_shiftLeft (k h : Nat) : crcStep^[k] (h <<< k) = h := by
  induction k with
  | zero => simp
  | succ k ih => rw [Function.iterate_succ_apply, crcStep_shiftLeft_succ, ih]

theorem split_low_byte (x : Nat) : x = (x &&& 0xff) ^^^ ((x >>> 8) <<< 8) := by
  apply Nat.eq_of_testBit_eq
  intro i
  have h255 : (0xff : Nat) = 2 ^ 8 - 1 := by decide
  rw [h255]
  simp only [Nat.testBit_xor, Nat.testBit_and, Nat.testBit_two_pow_sub_one,
    Nat.testBit_shiftLeft, Nat.testBit_shiftRight]
  by_cases hi : i < 8
  · have : ¬ (i ≥ 8) := by omega
    simp [hi, this]
  · have h8 : i ≥ 8 := by omega
    have : 8 + (i - 8) = i := by omega
    simp [hi, h8, this]

/-- One table-driven step is the same as eight bitwise steps on the whole register. -/
theorem table_step (x : Nat) :
    init_table.getD (x &&& 0xff) 0 ^^^ (x >>> 8) = crcStep^[8] x := by
  have hlt : x &&& 0xff < 256 := by
    have h255 : (0xff : Nat) = 2 ^ 8 - 1 := by decide
    rw [h255, Nat.and_pow_two_sub_one_eq_mod]
    exact Nat.mod_lt _ (by decide)
  have htab : init_table.getD (x &&& 0xff) 0 = crcStep^[8] (x &&& 0xff) := by
    unfold init_table
    rw [List.getD_eq_getElem?_getD, List.getElem?_map, List.getElem?_range hlt]
    rfl
  rw [htab]
  conv_rhs => rw [split_low_byte x]
  rw [crcStep_iter_xor, crcStep_iter_shiftLeft]

theorem xor_byte_shiftRight (c b : Nat) (hb : b < 256) : (c ^^^ b) >>> 8 = c >>> 8 := by
  apply Nat.eq_of_testBit_eq
  intro i
  simp only [Nat.testBit_shiftRight, Nat.testBit_xor]
  have : b.testBit (8 + i) = false := by
    apply Nat.testBit_lt_two_pow
    calc b < 256 := hb
      _ = 2 ^ 8 := by decide
      _ ≤ 2 ^ (8 + i) := Nat.pow_le_pow_right (by decide) (by omega)
  simp [this]

theorem crcLoop_eq_reference (c : Nat) (d : List Nat) (hd : IsBytes d) :
    crcLoop init_table c d = d.foldl crc32Byte c := by
  induction d generalizing c with
  | nil => rfl
  | cons b d ih =>
    have hb : b < 256 := hd b (List.mem_cons_self _ _)
    have hd2 : IsBytes d := fun x hx => hd x (List.mem_cons_of_mem _ hx)
    have hstep : init_table.getD ((c ^^^ b) &&& 0xff) 0 ^^^ (c >>> 8) = crc32Byte c b := by
      rw [← xor_byte_shiftRight c b hb, table_step]
      unfold crc32Byte
      congr 1
      funext y
      exact crcStep_eq_bitStep y
    unfold crcLoop at ih ⊢
    rw [List.foldl_cons, List.foldl_cons, hstep]
    exact ih _ hd2

theorem crcLoop_append (t : List Nat) (c : Nat) (a b : List Nat) :
    crcLoop t c (a ++ b) = crcLoop t (crcLoop t c a) b := by
  unfold crcLoop
  rw [List.foldl_append]

theorem cstr_of_nonzero (s : List Nat) (h : ∀ b ∈ s, b ≠ 0) : cstr s = s := by
  unfold cstr
  rw [List.takeWhile_eq_self_iff]
  intro b hb
  simpa using h b hb

theorem cstr_append_zero (s t : List Nat) (h : ∀ b ∈ s, b ≠ 0) : cstr (s ++ 0 :: t) = s := by
  unfold cstr
  induction s with
  | nil => simp [List.takeWhile]
  | cons a s ih =>
    have ha : a ≠ 0 := h a (List.mem_cons_self _ _)
    have hs : ∀ b ∈ s, b ≠ 0 := fun b hb => h b (List.mem_cons_of_mem _ hb)
    rw [List.cons_append, List.takeWhile_cons]
    simp [ha, ih hs]

theorem ntohl_be32 (n : Nat) (h : n < 2 ^ 32) : ntohl (be32 n) = n := by
  unfold ntohl be32
  simp only [List.getD_cons_zero, List.getD_cons_succ, Nat.mod_mod]
  omega

theorem be32_length (n : Nat) : (be32 n).length = 4 := rfl

theorem pngcrc2_pngcrc (a b : List Nat) : pngcrc2 (pngcrc a) b = pngcrc (a ++ b) := by
  unfold pngcrc2 pngcrc
  rw [nat_xor_cancel_right, crcLoop_append]

/-- Claim C5. For all byte sequences `a` and `b`, continuing the finished checksum of
`a` over `b` with `pngcrc2` gives the checksum of `a ++ b` taken as one input. -/
theorem C5_pngcrc2_continues (a b : List Nat) : pngcrc2 (pngcrc a) b = pngcrc (a ++ b) :=
  pngcrc2_pngcrc a b

theorem pngcrc_eq_reference (d : List Nat) (hd : IsBytes d) : pngcrc d = crc32Reference d := by
  unfold pngcrc crc32Reference
  rw [crcLoop_eq_reference _ _ hd]

theorem crc32BitStep_lt (c : Nat) (hc : c < 2 ^ 32) : crc32BitStep c < 2 ^ 32 := by
  unfold crc32BitStep
  split
  · exact Nat.xor_lt_two_pow (by omega) (by decide)
  · omega

theorem crc32Byte_lt (c b : Nat) (hc : c < 2 ^ 32) (hb : b < 256) : crc32Byte c b < 2 ^ 32 := by
  unfold crc32Byte
  have h0 : c ^^^ b < 2 ^ 32 := Nat.xor_lt_two_pow hc (by omega)
  have key : ∀ n : Nat, ∀ x, x < 2 ^ 32 → crc32BitStep^[n] x < 2 ^ 32 := by
    intro n
    induction n with
    | zero => intro x hx; simpa using hx
    | succ n ih =>
      intro x hx
      rw [Function.iterate_succ_apply]
      exact ih _ (crc32BitStep_lt x hx)
  exact key 8 _ h0

theorem crc32Reference_lt (d : List Nat) (hd : IsBytes d) : crc32Reference d < 2 ^ 32 := by
  unfold crc32Reference
  have key : ∀ (l : List Nat) (c : Nat), IsBytes l → c < 2 ^ 32 →
      l.foldl crc32Byte c < 2 ^ 32 := by
    intro l
    induction l with
    | nil => intro c _ hc; simpa using hc
    | cons b l ih =>
      intro c hl hc
      rw [List.foldl_cons]
      exact ih _ (fun x hx => hl x (List.mem_cons_of_mem _ hx))
        (crc32Byte_lt c b hc (hl b (List.mem_cons_self _ _)))
  exact Nat.xor_lt_two_pow (key d _ hd (by decide)) (by decide)

/-- Claim C3. For a 4-character chunk type and a payload of `n < 2^32` bytes,
`write_pngsection` appends exactly `n + 12` bytes: the big-endian 32-bit `n`, the
4 type bytes, the `n` payload bytes, and the big-endian 32-bit CRC-32 (the reference
`crc32Reference`) of `type ++ payload`; the code obtains that CRC as
`pngcrc2 (pngcrc type) payload`; the stored length decodes to `n` and the stored
trailer decodes to the CRC-32 of `type ++ payload`. -/
theorem C3_write_pngsection_layout (o name payload : List Nat)
    (hname : name.length = 4) (hnz : ∀ b ∈ name, b ≠ 0) (hbn : IsBytes name)
    (hbp : IsBytes payload) (hlen : payload.length < 2 ^ 32) :
    write_pngsection o name payload
        = o ++ be32 payload.length ++ name ++ payload
            ++ be32 (crc32Reference (name ++ payload))
      ∧ (write_pngsection o name payload).length = o.length + (payload.length + 12)
      ∧ ntohl (be32 payload.length) = payload.length
      ∧ pngcrc2 (pngcrc name) payload = crc32Reference (name ++ payload)
      ∧ ntohl (be32 (crc32Reference (name ++ payload))) = crc32Reference (name ++ payload) := by
  have hb : IsBytes (name ++ payload) := by
    intro b hb
    rcases List.mem_append.mp hb with h | h
    · exact hbn b h
    · exact hbp b h
  have hcrc : pngcrc2 (pngcrc name) payload = crc32Reference (name ++ payload) := by
    rw [pngcrc2_pngcrc, pngcrc_eq_reference _ hb]
  have hw : write_pngsection o name payload
        = o ++ be32 payload.length ++ name ++ payload
            ++ be32 (crc32Reference (name ++ payload)) := by
    rw [← hcrc]
    unfold write_pngsection
    simp only [cstr_of_nonzero name hnz, Nat.mod_eq_of_lt hlen]
    by_cases h0 : payload.length = 0
    · have : payload = [] := List.length_eq_zero.mp h0
      simp [this]
    · simp [h0]
  refine ⟨hw, ?_, ntohl_be32 _ hlen, hcrc, ntohl_be32 _ (crc32Reference_lt _ hb)⟩
  rw [hw]
  simp only [List.length_append, be32_length, hname]
  omega

/-- The IHDR chunk of a 1×1 RGBA image: 13 payload bytes, 25 bytes in all. -/
theorem C3_witness :
    write_pngsection [] [73, 72, 68, 82] [0, 0, 0, 1, 0, 0, 0, 1, 8, 6, 0, 0, 0]
        = [] ++ be32 [0, 0, 0, 1, 0, 0, 0, 1, 8, 6, 0, 0, 0].length ++ [73, 72, 68, 82]
            ++ [0, 0, 0, 1, 0, 0, 0, 1, 8, 6, 0, 0, 0]
            ++ be32 (crc32Reference ([73, 72, 68, 82] ++ [0, 0, 0, 1, 0, 0, 0, 1, 8, 6, 0, 0, 0]))
      ∧ (write_pngsection [] [73, 72, 68, 82] [0, 0, 0, 1, 0, 0, 0, 1, 8, 6, 0, 0, 0]).length
          = ([] : List Nat).length + ([0, 0, 0, 1, 0, 0, 0, 1, 8, 6, 0, 0, 0].length + 12)
      ∧ ntohl (be32 [0, 0, 0, 1, 0, 0, 0, 1, 8, 6, 0, 0, 0].length)
          = [0, 0, 0, 1, 0, 0, 0, 1, 8, 6, 0, 0, 0].length
      ∧ pngcrc2 (pngcrc [73, 72, 68, 82]) [0, 0, 0, 1, 0, 0, 0, 1, 8, 6, 0, 0, 0]
          = crc32Reference ([73, 72, 68, 82] ++ [0, 0, 0, 1, 0, 0, 0, 1, 8, 6, 0, 0, 0])
      ∧ ntohl (be32 (crc32Reference
            ([73, 72, 68, 82] ++ [0, 0, 0, 1, 0, 0, 0, 1, 8, 6, 0, 0, 0])))
          = crc32Reference ([73, 72, 68, 82] ++ [0, 0, 0, 1, 0, 0, 0, 1, 8, 6, 0, 0, 0]) :=
  C3_write_pngsection_layout [] [73, 72, 68, 82] [0, 0, 0, 1, 0, 0, 0, 1, 8, 6, 0, 0, 0]
    (by decide) (by decide) (by decide) (by decide) (by decide)

set_option maxRecDepth 100000 in
theorem pngcrc_test_vectors :
    pngcrc [] = 0 ∧ pngcrc [73, 69, 78, 68] = 0xAE426082
      ∧ pngcrc [49, 50, 51, 52, 53, 54, 55, 56, 57] = 0xCBF43926 := by
  refine ⟨by decide, by decide, by decide⟩

/-- Claim C4. On every byte sequence the table-driven `pngcrc` equals the standard
reflected CRC-32 computed bit by bit (register `0xFFFFFFFF`, byte XORed into the low
8 bits, 8 shift-right steps XORing `0xEDB88320` when the bit shifted out is 1, final
XOR with `0xFFFFFFFF`); `pngcrc` of the empty sequence is 0, of `"IEND"` is
`0xAE426082`, of `"123456789"` is `0xCBF43926`. -/
theorem C4_pngcrc_is_crc32 (d : List Nat) (hd : IsBytes d) :
    pngcrc d = crc32Reference d
      ∧ pngcrc [] = 0
      ∧ pngcrc [73, 69, 78, 68] = 0xAE426082
      ∧ pngcrc [49, 50, 51, 52, 53, 54, 55, 56, 57] = 0xCBF43926 := by
  refine ⟨?_, pngcrc_test_vectors⟩
  unfold pngcrc crc32Reference
  rw [crcLoop_eq_reference _ _ hd]

theorem C4_witness :
    IsBytes [73, 72, 68, 82] ∧ pngcrc [73, 72, 68, 82] = crc32Reference [73, 72, 68, 82] :=
  ⟨by decide, (C4_pngcrc_is_crc32 [73, 72, 68, 82] (by decide)).1⟩
/-- The 8-byte PNG signature. -/
theorem write_pngheader_eq (o : List Nat) :
    write_pngheader o = o ++ [0x89, 80, 78, 71, 13, 10, 0x1A, 10] := rfl

theorem read_pngheader_fst (f : FILE) :
    (read_pngheader f).1 = true ↔
      8 ≤ (f.data.drop f.pos).length ∧
        (f.data.drop f.pos).take 8 = [0x89, 80, 78, 71, 13, 10, 0x1A, 10] := by
  unfold read_pngheader fread
  generalize f.data.drop f.pos = r
  simp only [Nat.one_mul, Nat.div_one, List.length_take]
  by_cases hlen : 8 ≤ r.length
  · have h8 : ¬ (min 8 r.length < 8) := by omega
    simp only [h8, if_false, hlen, true_and]
    rcases r with _ | ⟨a0, _ | ⟨a1, _ | ⟨a2, _ | ⟨a3, _ | ⟨a4, _ | ⟨a5, _ | ⟨a6, _ | ⟨a7, t⟩⟩⟩⟩⟩⟩⟩⟩ <;>
      simp at hlen
    simp [List.take, and_assoc]
  · have h8 : min 8 r.length < 8 := by omega
    simp [h8, hlen]

theorem read_pngheader_pos (f : FILE) (h : 8 ≤ (f.data.drop f.pos).length) :
    (read_pngheader f).2 = { f with pos := f.pos + 8 } := by
  unfold read_pngheader fread
  simp only [Nat.one_mul, Nat.div_one, List.length_take]
  have h8 : ¬ (min 8 (f.data.drop f.pos).length < 8) := by omega
  have h9 : min 8 (f.data.drop f.pos).length = 8 := by omega
  rw [if_neg h8, h9]

/-- Claim C8. On every stream `read_pngheader` returns true exactly when at least
8 bytes remain and the next 8 bytes are `0x89,'P','N','G','\r','\n',0x1A,'\n'`; it
accepts the 8 bytes written by `write_pngheader` and consumes exactly those 8. -/
theorem C8_read_pngheader_exact (f : FILE) (rest : List Nat) :
    ((read_pngheader f).1 = true ↔
      8 ≤ (f.data.drop f.pos).length ∧
        (f.data.drop f.pos).take 8 = [0x89, 80, 78, 71, 13, 10, 0x1A, 10])
    ∧ read_pngheader ⟨write_pngheader [] ++ rest, 0⟩
        = (true, ⟨write_pngheader [] ++ rest, 8⟩) := by
  refine ⟨read_pngheader_fst f, ?_⟩
  have h1 := (read_pngheader_fst ⟨write_pngheader [] ++ rest, 0⟩).2
    (by simp [write_pngheader])
  have h2 := read_pngheader_pos ⟨write_pngheader [] ++ rest, 0⟩ (by simp [write_pngheader])
  exact Prod.ext h1 (by simpa using h2)
/-! ### Reading chunks -/

/-- The bytes one call of `write_pngsection` appends. -/
theorem write_pngsection_eq (o name payload : List Nat) :
    write_pngsection o name payload
      = o ++ (be32 (payload.length % 2 ^ 32) ++ cstr name ++ payload
          ++ be32 (pngcrc2 (pngcrc (cstr name)) payload)) := by
  unfold write_pngsection
  by_cases h0 : payload.length = 0
  · have : payload = [] := List.length_eq_zero.mp h0
    simp [this]
  · simp [h0]

theorem fread_at (f : FILE) (pre mid post : List Nat) (size n : Nat)
    (hdata : f.data = pre ++ mid ++ post) (hpos : f.pos = pre.length)
    (hsz : size * n = mid.length) (hs : 0 < size) :
    fread size n f = (mid, n, ⟨f.data, pre.length + mid.length⟩) := by
  unfold fread
  have hgot : (f.data.drop f.pos).take (size * n) = mid := by
    rw [hdata, hpos, List.append_assoc, List.drop_left, hsz, List.take_left]
  simp only [hgot]
  have hn : mid.length / size = n := by
    rw [← hsz]; exact Nat.mul_div_cancel_left n hs
  rw [hn, hpos]

theorem fread_eof (f : FILE) (size n : Nat) (h : f.data.length ≤ f.pos) :
    (fread size n f).2.1 = 0 := by
  unfold fread
  simp [List.drop_eq_nil_of_le h]

theorem cstr_length_le (s t : List Nat) : (cstr (s ++ 0 :: t)).length ≤ s.length := by
  unfold cstr
  induction s with
  | nil => simp [List.takeWhile_cons]
  | cons a s ih =>
    rw [List.cons_append, List.takeWhile_cons]
    split
    · simpa using ih
    · simp

theorem strcmp_eq_type (ty name : List Nat) (hty : ty.length = 4) (hname : name.length = 4)
    (hnz : ∀ b ∈ name, b ≠ 0) : strcmp_eq (ty ++ [0]) name = decide (ty = name) := by
  unfold strcmp_eq
  rw [cstr_of_nonzero name hnz]
  by_cases htz : ∀ b ∈ ty, b ≠ 0
  · rw [cstr_append_zero ty [] htz]
    by_cases h : ty = name <;> simp [h]
  · have hne : ty ≠ name := by
      intro h; subst h; exact htz hnz
    have hlen : (cstr (ty ++ [0])).length < 4 := by
      push_neg at htz
      obtain ⟨b, hb, hb0⟩ := htz
      subst hb0
      obtain ⟨s, t, hst⟩ := List.append_of_mem hb
      have hs : (cstr (ty ++ [0])).length ≤ s.length := by
        rw [hst, List.append_assoc, List.cons_append]
        exact cstr_length_le s (t ++ [0])
      have : s.length < 4 := by
        have := congrArg List.length hst
        simp at this
        omega
      omega
    have : cstr (ty ++ [0]) ≠ name := by
      intro h; rw [h] at hlen; omega
    simp [this, hne]
/-- What the scan loop does on one well-formed chunk at the read position. -/
theorem scan_one_chunk (name : List Nat) (fuel : Nat) (f : FILE)
    (pre ty payload post : List Nat)
    (hdata : f.data = pre ++ write_pngsection [] ty payload ++ post)
    (hpos : f.pos = pre.length)
    (hty : ty.length = 4) (htz : ∀ b ∈ ty, b ≠ 0)
    (hname : name.length = 4) (hnz : ∀ b ∈ name, b ≠ 0)
    (hlen : payload.length < 2 ^ 32 - 4) :
    read_pngsection_scan name (fuel + 1) f =
      if ty = name then (some payload.length, ⟨f.data, pre.length + 8⟩)
      else read_pngsection_scan name fuel
        ⟨f.data, pre.length + (write_pngsection [] ty payload).length⟩ := by
  have hl32 : payload.length < 2 ^ 32 := by omega
  rw [write_pngsection_eq, cstr_of_nonzero ty htz, Nat.mod_eq_of_lt hl32] at hdata
  simp only [List.nil_append] at hdata
  have h1 := fread_at f pre (be32 payload.length)
      (ty ++ payload ++ be32 (pngcrc2 (pngcrc ty) payload) ++ post) 4 1
      (by rw [hdata]; simp only [List.append_assoc]) hpos (by simp [be32_length]) (by decide)
  have h2 := fread_at ⟨f.data, pre.length + (be32 payload.length).length⟩
      (pre ++ be32 payload.length) ty
      (payload ++ be32 (pngcrc2 (pngcrc ty) payload) ++ post) 1 4
      (by simp only [hdata, List.append_assoc]) (by simp) (by simp [hty]) (by decide)
  rw [read_pngsection_scan]
  simp only [h1, h2, ntohl_be32 _ hl32, strcmp_eq_type ty name hty hname hnz]
  have hmod : (payload.length + 4) % 2 ^ 32 = payload.length + 4 :=
    Nat.mod_eq_of_lt (by omega)
  by_cases h : ty = name
  · simp [h, be32_length, hname]
  · simp only [h, decide_False, if_false, Nat.lt_irrefl, Nat.not_lt_zero, fseek_cur, hmod]
    simp only [write_pngsection_eq, cstr_of_nonzero ty htz, List.length_append, be32_length,
      List.nil_append, hty, List.length_nil]
    simp
    congr 2
    omega

theorem scan_at_eof (name : List Nat) (fuel : Nat) (f : FILE) (h : f.data.length ≤ f.pos) :
    (read_pngsection_scan name fuel f).1 = none := by
  cases fuel with
  | zero => rfl
  | succ n =>
    rw [read_pngsection_scan]
    have := fread_eof f 4 1 h
    simp [this]
theorem writeChunks_append_out (o : List Nat) (cs : List (List Nat × List Nat)) :
    writeChunks o cs = o ++ writeChunks [] cs := by
  induction cs generalizing o with
  | nil => simp [writeChunks]
  | cons c cs ih =>
    have h1 : writeChunks o (c :: cs) = writeChunks (write_pngsection o c.1 c.2) cs := rfl
    have h2 : writeChunks [] (c :: cs) = writeChunks (write_pngsection [] c.1 c.2) cs := rfl
    rw [h1, h2, ih (write_pngsection o c.1 c.2), ih (write_pngsection [] c.1 c.2),
      write_pngsection_eq o, write_pngsection_eq []]
    simp only [List.append_assoc, List.nil_append]

theorem writeChunks_cons (c : List Nat × List Nat) (cs : List (List Nat × List Nat)) :
    writeChunks [] (c :: cs) = write_pngsection [] c.1 c.2 ++ writeChunks [] cs := by
  have h2 : writeChunks [] (c :: cs) = writeChunks (write_pngsection [] c.1 c.2) cs := rfl
  rw [h2, writeChunks_append_out]

theorem writeChunks_append (cs ds : List (List Nat × List Nat)) :
    writeChunks [] (cs ++ ds) = writeChunks [] cs ++ writeChunks [] ds := by
  induction cs with
  | nil => simp [writeChunks]
  | cons c cs ih => rw [List.cons_append, writeChunks_cons, writeChunks_cons, ih,
      List.append_assoc]

theorem write_pngsection_length_ge (ty payload : List Nat) :
    12 ≤ (write_pngsection [] ty payload).length + (4 - (cstr ty).length) := by
  rw [write_pngsection_eq]
  simp only [List.nil_append, List.length_append, be32_length]
  omega

theorem writeChunks_length_ge (cs : List (List Nat × List Nat))
    (hwf : ∀ c ∈ cs, WellFormedChunk c) : cs.length ≤ (writeChunks [] cs).length := by
  induction cs with
  | nil => simp
  | cons c cs ih =>
    rw [writeChunks_cons, List.length_append, List.length_cons]
    have h1 := write_pngsection_length_ge c.1 c.2
    have h2 := ih (fun d hd => hwf d (List.mem_cons_of_mem _ hd))
    omega

theorem scan_chunks_hit (name : List Nat) (hname : name.length = 4) (hnz : ∀ b ∈ name, b ≠ 0)
    (before : List (List Nat × List Nat)) :
    ∀ (pre payload rest : List Nat) (fuel : Nat) (f : FILE),
      f.data = pre ++ writeChunks [] before ++ write_pngsection [] name payload ++ rest →
      f.pos = pre.length →
      (∀ c ∈ before, WellFormedChunk c ∧ c.1 ≠ name) →
      payload.length < 2 ^ 32 - 4 →
      before.length + 1 ≤ fuel →
      read_pngsection_scan name fuel f
        = (some payload.length, ⟨f.data, pre.length + (writeChunks [] before).length + 8⟩) := by
  induction before with
  | nil =>
    intro pre payload rest fuel f hdata hpos _ hlen hfuel
    obtain ⟨n, rfl⟩ : ∃ n, fuel = n + 1 := ⟨fuel - 1, by omega⟩
    have hd : f.data = pre ++ write_pngsection [] name payload ++ rest := by
      rw [hdata]; simp [writeChunks]
    rw [scan_one_chunk name n f pre name payload rest hd hpos hname hnz hname hnz hlen]
    simp [writeChunks]
  | cons c cs ih =>
    intro pre payload rest fuel f hdata hpos hbefore hlen hfuel
    obtain ⟨n, rfl⟩ : ∃ n, fuel = n + 1 := ⟨fuel - 1, by simp at hfuel; omega⟩
    obtain ⟨⟨hc4, hcz, hcl⟩, hcne⟩ := hbefore c (List.mem_cons_self _ _)
    have hd : f.data = pre ++ write_pngsection [] c.1 c.2
        ++ (writeChunks [] cs ++ write_pngsection [] name payload ++ rest) := by
      rw [hdata, writeChunks_cons]; simp only [List.append_assoc]
    rw [scan_one_chunk name n f pre c.1 c.2 _ hd hpos hc4 hcz hname hnz hcl, if_neg hcne]
    have := ih (pre ++ write_pngsection [] c.1 c.2) payload rest n
      ⟨f.data, pre.length + (write_pngsection [] c.1 c.2).length⟩
      (by simp only [hd, List.append_assoc]) (by simp)
      (fun d hd => hbefore d (List.mem_cons_of_mem _ hd)) hlen
      (by simp at hfuel; omega)
    rw [this, writeChunks_cons]
    simp only [List.length_append]
    congr 2
    omega

theorem scan_chunks_miss (name : List Nat) (hname : name.length = 4) (hnz : ∀ b ∈ name, b ≠ 0)
    (cs : List (List Nat × List Nat)) :
    ∀ (pre : List Nat) (fuel : Nat) (f : FILE),
      f.data = pre ++ writeChunks [] cs →
      f.pos = pre.length →
      (∀ c ∈ cs, WellFormedChunk c ∧ c.1 ≠ name) →
      (read_pngsection_scan name fuel f).1 = none := by
  induction cs with
  | nil =>
    intro pre fuel f hdata hpos _
    exact scan_at_eof name fuel f (by rw [hdata, hpos]; simp [writeChunks])
  | cons c cs ih =>
    intro pre fuel f hdata hpos hcs
    cases fuel with
    | zero => rfl
    | succ n =>
      obtain ⟨⟨hc4, hcz, hcl⟩, hcne⟩ := hcs c (List.mem_cons_self _ _)
      have hd : f.data = pre ++ write_pngsection [] c.1 c.2 ++ writeChunks [] cs := by
        rw [hdata, writeChunks_cons]; simp only [List.append_assoc]
      rw [scan_one_chunk name n f pre c.1 c.2 _ hd hpos hc4 hcz hname hnz hcl, if_neg hcne]
      exact ih (pre ++ write_pngsection [] c.1 c.2) n _
        (by simp only [hd, List.append_assoc]) (by simp)
        (fun d hd => hcs d (List.mem_cons_of_mem _ hd))
theorem read_pngsection_hit (junk : Nat → Nat) (name : List Nat) (hname : name.length = 4)
    (hnz : ∀ b ∈ name, b ≠ 0) (before : List (List Nat × List Nat))
    (pre payload rest : List Nat) (f : FILE)
    (hdata : f.data = pre ++ writeChunks [] before ++ write_pngsection [] name payload ++ rest)
    (hpos : f.pos = pre.length)
    (hbefore : ∀ c ∈ before, WellFormedChunk c ∧ c.1 ≠ name)
    (hlen : payload.length < 2 ^ 32 - 4) :
    read_pngsection junk f name =
      { ret := 1, data := some payload, length := payload.length,
        f := ⟨f.data, pre.length + (writeChunks [] before).length
                + (write_pngsection [] name payload).length⟩ } := by
  have hfuel : before.length + 1 ≤ f.data.length + 1 := by
    have := writeChunks_length_ge before (fun c hc => (hbefore c hc).1)
    rw [hdata]; simp only [List.length_append]; omega
  unfold read_pngsection
  rw [scan_chunks_hit name hname hnz before pre payload rest _ f hdata hpos hbefore hlen hfuel]
  have hl32 : payload.length < 2 ^ 32 := by omega
  have hd2 : f.data = (pre ++ writeChunks [] before ++ be32 payload.length ++ name) ++ payload
      ++ (be32 (pngcrc2 (pngcrc name) payload) ++ rest) := by
    rw [hdata, write_pngsection_eq, cstr_of_nonzero name hnz, Nat.mod_eq_of_lt hl32]
    simp only [List.append_assoc, List.nil_append]
  have h1 := fread_at ⟨f.data, pre.length + (writeChunks [] before).length + 8⟩
      (pre ++ writeChunks [] before ++ be32 payload.length ++ name) payload
      (be32 (pngcrc2 (pngcrc name) payload) ++ rest) 1 payload.length
      hd2 (by simp [be32_length, hname]; omega) (by simp) (by decide)
  have hd3 : f.data = (pre ++ writeChunks [] before ++ be32 payload.length ++ name ++ payload)
      ++ be32 (pngcrc2 (pngcrc name) payload) ++ rest := by
    rw [hd2]; simp only [List.append_assoc]
  have h2 := fread_at ⟨f.data, (pre ++ writeChunks [] before ++ be32 payload.length
        ++ name).length + payload.length⟩
      (pre ++ writeChunks [] before ++ be32 payload.length ++ name ++ payload)
      (be32 (pngcrc2 (pngcrc name) payload)) rest 4 1
      hd3 (by simp only [List.length_append]) (by simp [be32_length]) (by decide)
  simp only [h1, h2]
  simp only [Nat.sub_self, List.range_zero, List.map_nil, List.append_nil,
    write_pngsection_eq, cstr_of_nonzero name hnz, List.length_append, be32_length, hname,
    List.nil_append, List.length_nil]
  congr 2
  omega

theorem read_pngsection_miss (junk : Nat → Nat) (name : List Nat) (hname : name.length = 4)
    (hnz : ∀ b ∈ name, b ≠ 0) (cs : List (List Nat × List Nat))
    (pre : List Nat) (f : FILE)
    (hdata : f.data = pre ++ writeChunks [] cs)
    (hpos : f.pos = pre.length)
    (hcs : ∀ c ∈ cs, WellFormedChunk c ∧ c.1 ≠ name) :
    (read_pngsection junk f name).ret = 0 ∧ (read_pngsection junk f name).data = none
      ∧ (read_pngsection junk f name).length = 0 := by
  have h := scan_chunks_miss name hname hnz cs pre (f.data.length + 1) f hdata hpos hcs
  unfold read_pngsection
  rcases hs : read_pngsection_scan name (f.data.length + 1) f with ⟨r, f1⟩
  rw [hs] at h
  simp only at h
  subst h
  simp

/-- Claim C6. On the concatenation of chunks written by `write_pngsection` (4-letter
types, payloads shorter than `2^32 - 4`) and for a wanted 4-letter type:
`read_pngsection` returns 1 with the payload and length of the first chunk of that
type, every earlier chunk having been skipped, and leaves the stream just after that
chunk's CRC; when no chunk has the wanted type it returns 0 with `data = NULL` and
`length = 0`. -/
theorem C6_read_pngsection_scan (junk : Nat → Nat) (name : List Nat)
    (cs : List (List Nat × List Nat))
    (hname : name.length = 4) (hnz : ∀ b ∈ name, b ≠ 0)
    (hwf : ∀ c ∈ cs, WellFormedChunk c) :
    (∀ before payload after, cs = before ++ (name, payload) :: after →
      (∀ c ∈ before, c.1 ≠ name) →
      read_pngsection junk ⟨writeChunks [] cs, 0⟩ name =
        { ret := 1, data := some payload, length := payload.length,
          f := ⟨writeChunks [] cs, (writeChunks [] (before ++ [(name, payload)])).length⟩ })
    ∧ ((∀ c ∈ cs, c.1 ≠ name) →
      (read_pngsection junk ⟨writeChunks [] cs, 0⟩ name).ret = 0
        ∧ (read_pngsection junk ⟨writeChunks [] cs, 0⟩ name).data = none
        ∧ (read_pngsection junk ⟨writeChunks [] cs, 0⟩ name).length = 0) := by
  constructor
  · intro before payload after hcs hbefore
    have hb : ∀ c ∈ before, WellFormedChunk c ∧ c.1 ≠ name := fun c hc =>
      ⟨hwf c (by rw [hcs]; exact List.mem_append_left _ hc), hbefore c hc⟩
    have hp : payload.length < 2 ^ 32 - 4 :=
      (hwf (name, payload) (by rw [hcs]; simp)).2.2
    have := read_pngsection_hit junk name hname hnz before [] payload
      (writeChunks [] after) ⟨writeChunks [] cs, 0⟩
      (by simp only [hcs, writeChunks_append, writeChunks_cons, List.nil_append,
            List.append_assoc])
      rfl hb hp
    rw [this, writeChunks_append, writeChunks_cons]
    simp [writeChunks]
  · intro hne
    exact read_pngsection_miss junk name hname hnz cs [] ⟨writeChunks [] cs, 0⟩
      (by simp) rfl (fun c hc => ⟨hwf c hc, hne c hc⟩)

set_option maxRecDepth 100000 in
theorem C6_witness :
    read_pngsection (fun _ => 7)
        ⟨writeChunks [] [([73, 72, 68, 82], [1, 2, 3]), ([116, 69, 88, 116], [9]),
          ([73, 68, 65, 84], [5, 6]), ([73, 69, 78, 68], [])], 0⟩ [73, 68, 65, 84]
      = { ret := 1, data := some [5, 6], length := 2,
          f := ⟨writeChunks [] [([73, 72, 68, 82], [1, 2, 3]), ([116, 69, 88, 116], [9]),
            ([73, 68, 65, 84], [5, 6]), ([73, 69, 78, 68], [])],
            (writeChunks [] ([([73, 72, 68, 82], [1, 2, 3]), ([116, 69, 88, 116], [9])]
              ++ [([73, 68, 65, 84], [5, 6])])).length⟩ } :=
  (C6_read_pngsection_scan (fun _ => 7) [73, 68, 65, 84]
    [([73, 72, 68, 82], [1, 2, 3]), ([116, 69, 88, 116], [9]),
      ([73, 68, 65, 84], [5, 6]), ([73, 69, 78, 68], [])]
    (by decide) (by decide) (by unfold WellFormedChunk; decide)).1
    [([73, 72, 68, 82], [1, 2, 3]), ([116, 69, 88, 116], [9])] [5, 6] [([73, 69, 78, 68], [])]
    rfl (by decide)
/-! ### Saving -/

theorem be32_mod (x : Nat) : be32 (x % 2 ^ 32) = be32 x := by
  unfold be32
  have h1 : x % 2 ^ 32 / 2 ^ 24 % 256 = x / 2 ^ 24 % 256 := by omega
  have h2 : x % 2 ^ 32 / 2 ^ 16 % 256 = x / 2 ^ 16 % 256 := by omega
  have h3 : x % 2 ^ 32 / 2 ^ 8 % 256 = x / 2 ^ 8 % 256 := by omega
  have h4 : x % 2 ^ 32 % 256 = x % 256 := by omega
  rw [h1, h2, h3, h4]

theorem write_pngsection_spec (o ty payload : List Nat) (htz : ∀ b ∈ ty, b ≠ 0) :
    write_pngsection o ty payload = o ++ chunkSpec ty payload := by
  rw [write_pngsection_eq, cstr_of_nonzero ty htz, be32_mod, pngcrc2_pngcrc]
  rfl

/-- The rows already placed after `m` rounds of the copy loop of `saveAsPNG`. -/
theorem rasterRow_length (w h : Nat) (data : List Nat) (hdata : data.length = w * h * 4)
    (k : Nat) (hk : k < h) : (rasterRow w data k).length = w * 4 := by
  unfold rasterRow
  rw [List.length_take, List.length_drop, hdata]
  have : (k + 1) * w ≤ h * w := Nat.mul_le_mul_right w hk
  have e1 : (k + 1) * w = k * w + w := by ring
  have e2 : w * h = h * w := Nat.mul_comm _ _
  rw [e2]
  omega

theorem saveAsPNG_buf_loop (w h : Nat) (data : List Nat) (hdata : data.length = w * h * 4)
    (m : Nat) (hm : m ≤ h) :
    (List.range m).foldl
      (fun buf j => memcpy_at buf ((h - 1 - j) * (w * 4 + 1) + 1)
        ((data.drop (j * w * 4)).take (w * 4)))
      (List.replicate ((w * 4 + 1) * h) 0)
    = List.replicate ((h - m) * (w * 4 + 1)) 0
        ++ ((List.range m).reverse).flatMap (fun k => 0 :: rasterRow w data k) := by
  induction m with
  | zero => simp [Nat.mul_comm]
  | succ m ih =>
    have hm' : m ≤ h := by omega
    rw [List.range_succ, List.foldl_append, ih hm']
    simp only [List.foldl_cons, List.foldl_nil, List.reverse_append, List.reverse_singleton,
      List.singleton_append, List.flatMap_cons]
    have hrow : ((data.drop (m * w * 4)).take (w * 4)).length = w * 4 :=
      rasterRow_length w h data hdata m (by omega)
    have hrow' : (data.drop (m * w * 4)).take (w * 4) = rasterRow w data m := rfl
    unfold memcpy_at
    rw [hrow]
    have e1 : (h - m) * (w * 4 + 1) = ((h - 1 - m) * (w * 4 + 1) + 1) + w * 4 := by
      have : h - m = (h - 1 - m) + 1 := by omega
      rw [this]; ring
    have e2 : h - (m + 1) = h - 1 - m := by omega
    rw [e2, hrow']
    have htake : List.take ((h - 1 - m) * (w * 4 + 1) + 1)
        (List.replicate ((h - m) * (w * 4 + 1)) 0
          ++ ((List.range m).reverse).flatMap (fun k => 0 :: rasterRow w data k))
        = List.replicate ((h - 1 - m) * (w * 4 + 1)) 0 ++ [0] := by
      rw [List.take_append_of_le_length (by rw [List.length_replicate]; omega),
        List.take_replicate]
      rw [show min ((h - 1 - m) * (w * 4 + 1) + 1) ((h - m) * (w * 4 + 1))
        = (h - 1 - m) * (w * 4 + 1) + 1 by omega]
      rw [List.replicate_succ']
    have hdrop : List.drop ((h - 1 - m) * (w * 4 + 1) + 1 + w * 4)
        (List.replicate ((h - m) * (w * 4 + 1)) 0
          ++ ((List.range m).reverse).flatMap (fun k => 0 :: rasterRow w data k))
        = ((List.range m).reverse).flatMap (fun k => 0 :: rasterRow w data k) := by
      rw [← e1]
      exact List.drop_left' (List.length_replicate _ _)
    rw [htake, hdrop]
    simp only [List.append_assoc, List.singleton_append, List.cons_append, List.flatMap_cons,
      List.nil_append]

theorem reverse_range_bind (h : Nat) (g : Nat → List Nat) :
    ((List.range h).reverse).flatMap g = (List.range h).flatMap (fun r => g (h - 1 - r)) := by
  induction h with
  | zero => rfl
  | succ n ih =>
    rw [List.range_succ, List.reverse_append, List.reverse_singleton, List.singleton_append,
      List.flatMap_cons, ih]
    rw [← List.range_succ, List.range_succ_eq_map, List.flatMap_cons, List.flatMap_map]
    simp only [Nat.add_sub_cancel, Nat.sub_zero]
    congr 1
    apply List.flatMap_congr
    intro r _
    congr 1
    omega

theorem saveAsPNG_buf_eq (w h : Nat) (data : List Nat) (hdata : data.length = w * h * 4) :
    saveAsPNG_buf w h data = scanlinesSpec w h data := by
  unfold saveAsPNG_buf scanlinesSpec
  rw [saveAsPNG_buf_loop w h data hdata h (Nat.le_refl h), Nat.sub_self, Nat.zero_mul,
    List.replicate_zero, List.nil_append, reverse_range_bind]
theorem be32_int (w : Nat) : be32 (((w : Int) % 2 ^ 32).toNat) = be32 w := by
  have : (((w : Int) % 2 ^ 32).toNat) = w % 2 ^ 32 := by omega
  rw [this, be32_mod]

theorem saveAsPNG_eq (zl : Zlib) (fuel : Nat) (w h : Nat) (data p : List Nat)
    (hdata : data.length = w * h * 4)
    (hz : zl_deflate zl fuel (scanlinesSpec w h data) = some p) :
    saveAsPNG zl fuel true ⟨w, h, some data⟩ =
      some (0, some (pngSignature
        ++ chunkSpec IHDR (be32 w ++ be32 h ++ [8, 6, 0, 0, 0])
        ++ chunkSpec IDAT p
        ++ chunkSpec IEND [])) := by
  unfold saveAsPNG
  simp only [Int.toNat_ofNat, Option.getD_some, saveAsPNG_buf_eq w h data hdata, hz, be32_int]
  have hinfo : List.take 13 (((memcpy_at (memcpy_at (List.replicate 16 0) 0 (be32 w)) 4
      (be32 h)).set 8 8).set 9 6) = be32 w ++ be32 h ++ [8, 6, 0, 0, 0] := by
    simp [memcpy_at, be32, List.replicate]
  rw [hinfo]
  rw [write_pngsection_spec _ IHDR _ (by decide), write_pngsection_spec _ IDAT _ (by decide),
    write_pngsection_spec _ IEND _ (by decide)]
  rfl

/-! ### Loading: the failure paths -/

theorem read_pngsection_ret_zero (junk : Nat → Nat) (f : FILE) (name : List Nat)
    (h : (read_pngsection junk f name).ret = 0) : (read_pngsection junk f name).data = none := by
  unfold read_pngsection at h ⊢
  split at h
  · rfl
  · simp at h

theorem getFromPNG_steps (zl : Zlib) (fuel : Nat) (junk : Nat → Nat) (heap : Int → Nat)
    (bytes : List Nat) :
    ((read_pngheader ⟨bytes, 0⟩).1 = false →
      getFromPNG zl fuel junk heap (some bytes) = some ⟨0, 0, none⟩)
    ∧ ((read_pngsection junk (read_pngheader ⟨bytes, 0⟩).2 IHDR).ret = 0 →
      getFromPNG zl fuel junk heap (some bytes) = some ⟨0, 0, none⟩)
    ∧ ((read_pngsection junk (read_pngheader ⟨bytes, 0⟩).2 IHDR).length < 13 →
      getFromPNG zl fuel junk heap (some bytes) = some ⟨0, 0, none⟩)
    ∧ (∀ info, (read_pngsection junk (read_pngheader ⟨bytes, 0⟩).2 IHDR).data = some info →
        info.getD 8 0 ≠ 8 →
      getFromPNG zl fuel junk heap (some bytes) = some ⟨0, 0, none⟩)
    ∧ (∀ info, (read_pngsection junk (read_pngheader ⟨bytes, 0⟩).2 IHDR).data = some info →
        info.getD 9 0 ≠ 2 → info.getD 9 0 ≠ 6 →
      getFromPNG zl fuel junk heap (some bytes) = some ⟨0, 0, none⟩) := by
  unfold getFromPNG
  simp only []
  refine ⟨?_, ?_, ?_, ?_, ?_⟩
  · intro h; rw [if_pos h]
  · intro h
    have hdata := read_pngsection_ret_zero junk _ _ h
    repeat' split
    all_goals first | rfl | simp_all
  · intro h
    repeat' split
    all_goals rfl
  · intro info hinfo h8
    repeat' split
    all_goals first | rfl | simp_all
  · intro info hinfo h2 h6
    repeat' split
    all_goals first | rfl | simp_all

/-- What it takes for the decoding part to return something else than `{0, 0, NULL}`:
the allocation sizes are not negative, the codec was initialised, every
`zl_inflatePart` and `zl_inflateFinish` returned non-zero. -/
theorem getFromPNG_decode_nonempty (zl : Zlib) (fuel : Nat) (junk : Nat → Nat)
    (heap : Int → Nat) (n : Nat) (f : FILE) (w h bpp : Int) (img : pngimage)
    (hres : getFromPNG_decode zl fuel junk heap n f w h bpp = some img)
    (hne : img ≠ ⟨0, 0, none⟩) :
    0 ≤ (w * bpp + 1) * h ∧ 0 ≤ w * h * 4 ∧
    ∃ z0 z1 z2 ok, zl_initInflate zl ((w * bpp + 1) * h).toNat = some z0
      ∧ getFromPNG_idat zl fuel junk n f z0 = some (true, z1)
      ∧ zl_inflateFinish zl fuel z1 = some (ok, z2) ∧ ok ≠ 0
      ∧ img.w = w ∧ img.h = h ∧ img.data ≠ none := by
  unfold getFromPNG_decode at hres
  simp only [] at hres
  split at hres
  · exact absurd (Option.some.inj hres).symm hne
  · rename_i hsz
    split at hres
    · exact absurd (Option.some.inj hres).symm hne
    · rename_i z0 hz0
      split at hres
      · exact absurd (Option.some.inj hres).symm hne
      · rename_i hsz2
        split at hres
        · exact absurd hres (by simp)
        · exact absurd (Option.some.inj hres).symm hne
        · rename_i z1 hz1
          split at hres
          · exact absurd hres (by simp)
          · rename_i ok z2 hz2
            split at hres
            · exact absurd (Option.some.inj hres).symm hne
            · rename_i hok
              refine ⟨by omega, by omega, z0, z1, z2, ok, hz0, hz1, hz2, hok, ?_⟩
              have := Option.some.inj hres
              subst this
              exact ⟨rfl, rfl, by simp⟩

theorem read_pngsection_data_some (junk : Nat → Nat) (f : FILE) (name info : List Nat)
    (h : (read_pngsection junk f name).data = some info) :
    (read_pngsection junk f name).ret = 1 := by
  unfold read_pngsection at h ⊢
  split
  · rename_i heq; rw [heq] at h; simp at h
  · rfl

theorem getFromPNG_nonempty (zl : Zlib) (fuel : Nat) (junk : Nat → Nat) (heap : Int → Nat)
    (bytes : List Nat) (img : pngimage)
    (hres : getFromPNG zl fuel junk heap (some bytes) = some img)
    (hne : img ≠ ⟨0, 0, none⟩) :
    (read_pngheader ⟨bytes, 0⟩).1 = true ∧
    ∃ info bpp,
      (read_pngsection junk (read_pngheader ⟨bytes, 0⟩).2 IHDR).data = some info
      ∧ (read_pngsection junk (read_pngheader ⟨bytes, 0⟩).2 IHDR).ret = 1
      ∧ 13 ≤ (read_pngsection junk (read_pngheader ⟨bytes, 0⟩).2 IHDR).length
      ∧ info.getD 8 0 = 8
      ∧ ((info.getD 9 0 = 6 ∧ bpp = 4) ∨ (info.getD 9 0 = 2 ∧ bpp = 3))
      ∧ getFromPNG_decode zl fuel junk heap (bytes.length + 1)
          (read_pngsection junk (read_pngheader ⟨bytes, 0⟩).2 IHDR).f
          (toInt32 (ntohl (info.take 4))) (toInt32 (ntohl ((info.drop 4).take 4))) bpp
          = some img := by
  unfold getFromPNG at hres
  simp only [] at hres
  split at hres
  · exact absurd (Option.some.inj hres).symm hne
  · rename_i hhd
    refine ⟨by simpa using hhd, ?_⟩
    split at hres
    · exact absurd (Option.some.inj hres).symm hne
    · rename_i info hinfo
      split at hres
      · exact absurd (Option.some.inj hres).symm hne
      · rename_i hlen
        split at hres
        · exact absurd (Option.some.inj hres).symm hne
        · rename_i h8
          split at hres
          · rename_i h6
            exact ⟨info, 4, hinfo, read_pngsection_data_some _ _ _ _ hinfo, by omega,
              by simpa using h8, Or.inl ⟨h6, rfl⟩, hres⟩
          · split at hres
            · rename_i h2
              exact ⟨info, 3, hinfo, read_pngsection_data_some _ _ _ _ hinfo, by omega,
                by simpa using h8, Or.inr ⟨h2, rfl⟩, hres⟩
            · exact absurd (Option.some.inj hres).symm hne

/-- Claim C7. `getFromPNG` returns the empty raster `{0, 0, NULL}` whenever the first
8 bytes are not the signature, no IHDR chunk is found, the IHDR length is below 13,
the bit-depth byte is not 8, or the colour-type byte is neither 2 nor 6; this holds
for every codec and every bound on codec calls, `fuel = 0` included, so no decoding
is attempted. A raster other than the empty one is returned only when the signature,
the IHDR checks, the allocations, the codec initialisation, every `zl_inflatePart`
and `zl_inflateFinish` all succeeded. -/
theorem C7_getFromPNG_failure_paths (zl : Zlib) (fuel : Nat) (junk : Nat → Nat)
    (heap : Int → Nat) (bytes : List Nat) :
    (¬ (8 ≤ bytes.length ∧ bytes.take 8 = pngSignature) →
      getFromPNG zl fuel junk heap (some bytes) = some ⟨0, 0, none⟩)
    ∧ ((read_pngsection junk (read_pngheader ⟨bytes, 0⟩).2 IHDR).ret = 0 →
      getFromPNG zl fuel junk heap (some bytes) = some ⟨0, 0, none⟩)
    ∧ ((read_pngsection junk (read_pngheader ⟨bytes, 0⟩).2 IHDR).length < 13 →
      getFromPNG zl fuel junk heap (some bytes) = some ⟨0, 0, none⟩)
    ∧ (∀ info, (read_pngsection junk (read_pngheader ⟨bytes, 0⟩).2 IHDR).data = some info →
        info.getD 8 0 ≠ 8 →
      getFromPNG zl fuel junk heap (some bytes) = some ⟨0, 0, none⟩)
    ∧ (∀ info, (read_pngsection junk (read_pngheader ⟨bytes, 0⟩).2 IHDR).data = some info →
        info.getD 9 0 ≠ 2 → info.getD 9 0 ≠ 6 →
      getFromPNG zl fuel junk heap (some bytes) = some ⟨0, 0, none⟩)
    ∧ (∀ img, getFromPNG zl fuel junk heap (some bytes) = some img → img ≠ ⟨0, 0, none⟩ →
        (8 ≤ bytes.length ∧ bytes.take 8 = pngSignature) ∧
        ∃ info bpp w h z0 z1 z2 ok,
          (read_pngsection junk ⟨bytes, 8⟩ IHDR).data = some info
          ∧ (read_pngsection junk ⟨bytes, 8⟩ IHDR).ret = 1
          ∧ 13 ≤ (read_pngsection junk ⟨bytes, 8⟩ IHDR).length
          ∧ info.getD 8 0 = 8
          ∧ ((info.getD 9 0 = 6 ∧ bpp = 4) ∨ (info.getD 9 0 = 2 ∧ bpp = 3))
          ∧ w = toInt32 (ntohl (info.take 4))
          ∧ h = toInt32 (ntohl ((info.drop 4).take 4))
          ∧ 0 ≤ (w * bpp + 1) * h ∧ 0 ≤ w * h * 4
          ∧ zl_initInflate zl ((w * bpp + 1) * h).toNat = some z0
          ∧ getFromPNG_idat zl fuel junk (bytes.length + 1)
              (read_pngsection junk ⟨bytes, 8⟩ IHDR).f z0 = some (true, z1)
          ∧ zl_inflateFinish zl fuel z1 = some (ok, z2) ∧ ok ≠ 0
          ∧ img.w = w ∧ img.h = h ∧ img.data ≠ none) := by
  obtain ⟨h1, h2, h3, h4, h5⟩ := getFromPNG_steps zl fuel junk heap bytes
  have hsig := read_pngheader_fst ⟨bytes, 0⟩
  simp only [List.drop_zero] at hsig
  refine ⟨?_, h2, h3, h4, h5, ?_⟩
  · intro hbad
    apply h1
    cases hb : (read_pngheader ⟨bytes, 0⟩).1
    · rfl
    · exact absurd (hsig.1 hb) hbad
  · intro img hres hne
    obtain ⟨hhd, info, bpp, hinfo, hret, hlen, h8, hct, hdec⟩ :=
      getFromPNG_nonempty zl fuel junk heap bytes img hres hne
    have hs := hsig.1 hhd
    have hpos : (read_pngheader ⟨bytes, 0⟩).2 = ⟨bytes, 8⟩ := by
      have := read_pngheader_pos ⟨bytes, 0⟩ (by simpa using hs.1)
      simpa using this
    rw [hpos] at hinfo hret hlen hdec
    obtain ⟨hs1, hs2, z0, z1, z2, ok, hz0, hz1, hz2, hok, hw, hh, hd⟩ :=
      getFromPNG_decode_nonempty zl fuel junk heap _ _ _ _ _ img hdec hne
    exact ⟨hs, info, bpp, _, _, z0, z1, z2, ok, hinfo, hret, hlen, h8, hct, rfl, rfl,
      hs1, hs2, hz0, hz1, hz2, hok, hw, hh, hd⟩

set_option maxRecDepth 100000 in
theorem C7_witness :
    getFromPNG toyZlib 0 (fun _ => 0) (fun _ => 0)
      (some (pngSignature ++ chunkSpec IHDR (be32 1 ++ be32 1 ++ [16, 3, 0, 0, 0])
        ++ chunkSpec IDAT [1, 0, 0] ++ chunkSpec IEND [])) = some ⟨0, 0, none⟩ :=
  (C7_getFromPNG_failure_paths toyZlib 0 (fun _ => 0) (fun _ => 0)
    (pngSignature ++ chunkSpec IHDR (be32 1 ++ be32 1 ++ [16, 3, 0, 0, 0])
        ++ chunkSpec IDAT [1, 0, 0] ++ chunkSpec IEND [])).2.2.2.1
    (be32 1 ++ be32 1 ++ [16, 3, 0, 0, 0]) (by decide) (by decide)
/-! ### The filter code: where bytes are written -/

theorem forLoop_induction {α : Type} (P : Int → α → Prop) (a b : Int) (hab : a ≤ b)
    (body : Int → α → α) (s : α) (h0 : P a s)
    (hstep : ∀ i s, a ≤ i → i < b → P i s → P (i + 1) (body i s)) :
    P b (forLoop a b body s) := by
  unfold forLoop
  have key : ∀ n : Nat, (n : Int) ≤ b - a →
      P (a + n) ((List.range n).foldl (fun (s : α) (k : Nat) => body (a + (k : Int)) s) s) := by
    intro n
    induction n with
    | zero => intro _; simpa using h0
    | succ n ih =>
      intro hn
      rw [List.range_succ, List.foldl_append]
      simp only [List.foldl_cons, List.foldl_nil]
      have := hstep (a + n) _ (by omega) (by push_cast at hn; omega) (ih (by push_cast at hn; omega))
      have e : a + (n : Int) + 1 = a + ((n + 1 : Nat) : Int) := by push_cast; ring
      rw [e] at this
      exact this
  have hn := key (b - a).toNat (by omega)
  have e : a + ((b - a).toNat : Int) = b := by omega
  rw [e] at hn
  exact hn

theorem forLoop_empty {α : Type} (a b : Int) (hab : b ≤ a) (body : Int → α → α) (s : α) :
    forLoop a b body s = s := by
  unfold forLoop
  have : (b - a).toNat = 0 := by omega
  rw [this]; rfl

theorem addTo_pair (s : Bufs) (x y : Int) (c : Nat) (x' y' : Int)
    (hiff : x' = x ↔ y' = y) (hold : x' ≠ x → s.imgbuf x' = s.buf y') :
    (s.addTo x y c).imgbuf x' = (s.addTo x y c).buf y' := by
  unfold Bufs.addTo Mem.write
  simp only []
  by_cases hx : x' = x
  · rw [if_pos hx, if_pos (hiff.1 hx)]
  · rw [if_neg hx, if_neg (fun hy => hx (hiff.2 hy))]
    exact hold hx

theorem copy_pair (s : Bufs) (x y : Int) (x' y' : Int)
    (himp : x' = x → y' = y) (hold : x' ≠ x → s.imgbuf x' = s.buf y') :
    (s.copy x y).imgbuf x' = (s.copy x y).buf y' := by
  unfold Bufs.copy Mem.write
  simp only []
  by_cases hx : x' = x
  · rw [if_pos hx, himp hx]
  · rw [if_neg hx]
    exact hold hx

theorem put_pair (s : Bufs) (x : Int) (v : Nat) (x' y' : Int)
    (hx : x' ≠ x) (hold : s.imgbuf x' = s.buf y') :
    (s.put x v).imgbuf x' = (s.put x v).buf y' := by
  unfold Bufs.put Mem.write
  simp only []
  rw [if_neg hx]
  exact hold

theorem addTo_imgbuf_other (s : Bufs) (x y : Int) (c : Nat) (x' : Int) (hx : x' ≠ x) :
    (s.addTo x y c).imgbuf x' = s.imgbuf x' := by
  unfold Bufs.addTo Mem.write
  simp only []
  rw [if_neg hx]

theorem addTo_buf_other (s : Bufs) (x y : Int) (c : Nat) (y' : Int) (hy : y' ≠ y) :
    (s.addTo x y c).buf y' = s.buf y' := by
  unfold Bufs.addTo Mem.write
  simp only []
  rw [if_neg hy]

theorem copy_imgbuf_other (s : Bufs) (x y : Int) (x' : Int) (hx : x' ≠ x) :
    (s.copy x y).imgbuf x' = s.imgbuf x' := by
  unfold Bufs.copy Mem.write
  simp only []
  rw [if_neg hx]

theorem copy_buf (s : Bufs) (x y : Int) : (s.copy x y).buf = s.buf := rfl

theorem put_imgbuf_other (s : Bufs) (x : Int) (v : Nat) (x' : Int) (hx : x' ≠ x) :
    (s.put x v).imgbuf x' = s.imgbuf x' := by
  unfold Bufs.put Mem.write
  simp only []
  rw [if_neg hx]

theorem put_imgbuf_same (s : Bufs) (x : Int) (v : Nat) : (s.put x v).imgbuf x = v := by
  unfold Bufs.put Mem.write
  simp

theorem put_buf (s : Bufs) (x : Int) (v : Nat) : (s.put x v).buf = s.buf := rfl
theorem rowInv_start (b X Y w : Int) (s : Bufs) : RowInv b X Y w 0 s s :=
  ⟨fun i k h1 h2 => by omega, fun _ i h1 h2 => by omega, fun _ _ => rfl, fun _ _ => rfl⟩

/-- One pixel of a 4-byte row handled by four statements `imgbuf[x] = buf[y] += c`. -/
theorem addTo4_inv (X Y w i : Int) (s0 t : Bufs) (x0 x1 x2 x3 y0 y1 y2 y3 : Int)
    (c0 c1 c2 c3 : Nat)
    (hx0 : x0 = X + i * 4) (hx1 : x1 = X + i * 4 + 1) (hx2 : x2 = X + i * 4 + 2)
    (hx3 : x3 = X + i * 4 + 3)
    (hy0 : y0 = Y + i * 4) (hy1 : y1 = Y + i * 4 + 1) (hy2 : y2 = Y + i * 4 + 2)
    (hy3 : y3 = Y + i * 4 + 3)
    (hi0 : 0 ≤ i) (hiw : i < w) (hinv : RowInv 4 X Y w i s0 t) :
    RowInv 4 X Y w (i + 1) s0
      ((((t.addTo x0 y0 c0).addTo x1 y1 c1).addTo x2 y2 c2).addTo x3 y3 c3) := by
  obtain ⟨hp, _, hfi, hfb⟩ := hinv
  refine ⟨?_, fun h => by omega, ?_, ?_⟩
  · intro i' k' hi'0 hi' hk'0 hk'
    refine addTo_pair _ _ _ _ _ _ (by omega) (fun h3 => ?_)
    refine addTo_pair _ _ _ _ _ _ (by omega) (fun h2 => ?_)
    refine addTo_pair _ _ _ _ _ _ (by omega) (fun h1 => ?_)
    refine addTo_pair _ _ _ _ _ _ (by omega) (fun h0 => ?_)
    exact hp i' k' hi'0 (by omega) hk'0 hk'
  · intro x hx
    rw [addTo_imgbuf_other _ _ _ _ _ (by omega), addTo_imgbuf_other _ _ _ _ _ (by omega),
      addTo_imgbuf_other _ _ _ _ _ (by omega), addTo_imgbuf_other _ _ _ _ _ (by omega)]
    exact hfi x hx
  · intro y hy
    rw [addTo_buf_other _ _ _ _ _ (by omega), addTo_buf_other _ _ _ _ _ (by omega),
      addTo_buf_other _ _ _ _ _ (by omega), addTo_buf_other _ _ _ _ _ (by omega)]
    exact hfb y hy

/-- One pixel of a 4-byte row handled by four statements `imgbuf[x] = buf[y]`. -/
theorem copy4_inv (X Y w i : Int) (s0 t : Bufs) (x0 x1 x2 x3 y0 y1 y2 y3 : Int)
    (hx0 : x0 = X + i * 4) (hx1 : x1 = X + i * 4 + 1) (hx2 : x2 = X + i * 4 + 2)
    (hx3 : x3 = X + i * 4 + 3)
    (hy0 : y0 = Y + i * 4) (hy1 : y1 = Y + i * 4 + 1) (hy2 : y2 = Y + i * 4 + 2)
    (hy3 : y3 = Y + i * 4 + 3)
    (hi0 : 0 ≤ i) (hiw : i < w) (hinv : RowInv 4 X Y w i s0 t) :
    RowInv 4 X Y w (i + 1) s0
      ((((t.copy x0 y0).copy x1 y1).copy x2 y2).copy x3 y3) := by
  obtain ⟨hp, _, hfi, hfb⟩ := hinv
  refine ⟨?_, fun h => by omega, ?_, ?_⟩
  · intro i' k' hi'0 hi' hk'0 hk'
    refine copy_pair _ _ _ _ _ (by omega) (fun h3 => ?_)
    refine copy_pair _ _ _ _ _ (by omega) (fun h2 => ?_)
    refine copy_pair _ _ _ _ _ (by omega) (fun h1 => ?_)
    refine copy_pair _ _ _ _ _ (by omega) (fun h0 => ?_)
    exact hp i' k' hi'0 (by omega) hk'0 hk'
  · intro x hx
    rw [copy_imgbuf_other _ _ _ _ (by omega), copy_imgbuf_other _ _ _ _ (by omega),
      copy_imgbuf_other _ _ _ _ (by omega), copy_imgbuf_other _ _ _ _ (by omega)]
    exact hfi x hx
  · intro y hy
    simp only [copy_buf]
    exact hfb y hy

/-- The byte loop that stands for `memcpy` in a row with tag 0. -/
theorem memcpy_inv (X Y w : Int) (s : Bufs) (hw : 0 ≤ w) :
    RowInv 4 X Y w w s (forLoop 0 (w * 4) (fun k s => s.copy (X + k) (Y + k)) s)
    ∧ (forLoop 0 (w * 4) (fun k s => s.copy (X + k) (Y + k)) s).buf = s.buf := by
  have key := forLoop_induction
    (fun n t => (∀ u : Int, 0 ≤ u → u < n → t.imgbuf (X + u) = t.buf (Y + u))
      ∧ (∀ x : Int, (x < X ∨ X + w * 4 ≤ x) → t.imgbuf x = s.imgbuf x)
      ∧ t.buf = s.buf)
    0 (w * 4) (by omega) (fun k s => s.copy (X + k) (Y + k)) s
    ⟨fun u h1 h2 => by omega, fun _ _ => rfl, rfl⟩
    (by
      intro i t hi0 hiw ⟨hp, hfi, hb⟩
      refine ⟨?_, ?_, ?_⟩
      · intro u hu0 hu
        refine copy_pair _ _ _ _ _ (by omega) (fun h0 => ?_)
        exact hp u hu0 (by omega)
      · intro x hx
        rw [copy_imgbuf_other _ _ _ _ (by omega)]
        exact hfi x hx
      · rw [copy_buf]; exact hb)
  obtain ⟨hp, hfi, hb⟩ := key
  refine ⟨⟨?_, fun h => by omega, hfi, fun y _ => by rw [hb]⟩, hb⟩
  intro i k hi0 hi hk0 hk
  have := hp (i * 4 + k) (by omega) (by omega)
  rw [← add_assoc, ← add_assoc] at this
  exact this

theorem alpha_row_inv (w h j : Int) (s : Bufs) (hw : 1 ≤ w)
    (htag : s.buf (j * (w * 4 + 1)) ≤ 4) :
    RowInv 4 ((h-1-j) * w * 4) (j * (w * 4 + 1) + 1) w w s (pngTrueColorAlpha_row w h j s) := by
  unfold pngTrueColorAlpha_row
  simp only []
  split
  · exact (memcpy_inv _ _ w s (by omega)).1
  · split
    · apply forLoop_induction
        (fun n t => RowInv 4 ((h-1-j) * w * 4) (j * (w * 4 + 1) + 1) w n s t) 1 w hw
      · exact copy4_inv _ _ w 0 s s _ _ _ _ _ _ _ _ (by omega) (by omega) (by omega)
          (by omega) (by omega) (by omega) (by omega) (by omega) (by omega) (by omega)
          (rowInv_start _ _ _ _ _)
      · intro i t hi0 hiw hinv
        exact addTo4_inv _ _ w i s t _ _ _ _ _ _ _ _ _ _ _ _ (by omega) (by omega) (by omega)
          (by omega) (by omega) (by omega) (by omega) (by omega) (by omega) hiw hinv
    · split
      · apply forLoop_induction
          (fun n t => RowInv 4 ((h-1-j) * w * 4) (j * (w * 4 + 1) + 1) w n s t) 0 w (by omega)
        · exact rowInv_start _ _ _ _ _
        · intro i t hi0 hiw hinv
          exact addTo4_inv _ _ w i s t _ _ _ _ _ _ _ _ _ _ _ _ (by omega) (by omega) (by omega)
            (by omega) (by omega) (by omega) (by omega) (by omega) (by omega) hiw hinv
      · split
        · apply forLoop_induction
            (fun n t => RowInv 4 ((h-1-j) * w * 4) (j * (w * 4 + 1) + 1) w n s t) 1 w hw
          · exact addTo4_inv _ _ w 0 s s _ _ _ _ _ _ _ _ _ _ _ _ (by omega) (by omega)
              (by omega) (by omega) (by omega) (by omega) (by omega) (by omega) (by omega)
              (by omega) (rowInv_start _ _ _ _ _)
          · intro i t hi0 hiw hinv
            exact addTo4_inv _ _ w i s t _ _ _ _ _ _ _ _ _ _ _ _ (by omega) (by omega)
              (by omega) (by omega) (by omega) (by omega) (by omega) (by omega) (by omega)
              hiw hinv
        · split
          · apply forLoop_induction
              (fun n t => RowInv 4 ((h-1-j) * w * 4) (j * (w * 4 + 1) + 1) w n s t) 1 w hw
            · exact addTo4_inv _ _ w 0 s s _ _ _ _ _ _ _ _ _ _ _ _ (by omega) (by omega)
                (by omega) (by omega) (by omega) (by omega) (by omega) (by omega) (by omega)
                (by omega) (rowInv_start _ _ _ _ _)
            · intro i t hi0 hiw hinv
              exact addTo4_inv _ _ w i s t _ _ _ _ _ _ _ _ _ _ _ _ (by omega) (by omega)
                (by omega) (by omega) (by omega) (by omega) (by omega) (by omega) (by omega)
                hiw hinv
          · exfalso; omega
/-- One pixel of a 3-byte row handled by three statements `imgbuf[x] = buf[y] += c`
and `imgbuf[x3] = 0xff`. -/
theorem addTo3_inv (X Y w i : Int) (s0 t : Bufs) (x0 x1 x2 x3 y0 y1 y2 : Int)
    (c0 c1 c2 : Nat)
    (hx0 : x0 = X + i * 4) (hx1 : x1 = X + i * 4 + 1) (hx2 : x2 = X + i * 4 + 2)
    (hx3 : x3 = X + i * 4 + 3)
    (hy0 : y0 = Y + i * 3) (hy1 : y1 = Y + i * 3 + 1) (hy2 : y2 = Y + i * 3 + 2)
    (hi0 : 0 ≤ i) (hiw : i < w) (hinv : RowInv 3 X Y w i s0 t) :
    RowInv 3 X Y w (i + 1) s0
      ((((t.addTo x0 y0 c0).addTo x1 y1 c1).addTo x2 y2 c2).put x3 0xff) := by
  obtain ⟨hp, ha, hfi, hfb⟩ := hinv
  refine ⟨?_, ?_, ?_, ?_⟩
  · intro i' k' hi'0 hi' hk'0 hk'
    refine put_pair _ _ _ _ _ (by omega) ?_
    refine addTo_pair _ _ _ _ _ _ (by omega) (fun h2 => ?_)
    refine addTo_pair _ _ _ _ _ _ (by omega) (fun h1 => ?_)
    refine addTo_pair _ _ _ _ _ _ (by omega) (fun h0 => ?_)
    exact hp i' k' hi'0 (by omega) hk'0 hk'
  · intro _ i' hi'0 hi'
    by_cases hii : i' = i
    · subst hii
      rw [← hx3, put_imgbuf_same]
    · rw [put_imgbuf_other _ _ _ _ (by omega), addTo_imgbuf_other _ _ _ _ _ (by omega),
        addTo_imgbuf_other _ _ _ _ _ (by omega), addTo_imgbuf_other _ _ _ _ _ (by omega)]
      exact ha rfl i' hi'0 (by omega)
  · intro x hx
    rw [put_imgbuf_other _ _ _ _ (by omega), addTo_imgbuf_other _ _ _ _ _ (by omega),
      addTo_imgbuf_other _ _ _ _ _ (by omega), addTo_imgbuf_other _ _ _ _ _ (by omega)]
    exact hfi x hx
  · intro y hy
    rw [put_buf, addTo_buf_other _ _ _ _ _ (by omega), addTo_buf_other _ _ _ _ _ (by omega),
      addTo_buf_other _ _ _ _ _ (by omega)]
    exact hfb y hy

/-- One pixel of a 3-byte row handled by three statements `imgbuf[x] = buf[y]` and
`imgbuf[x3] = 0xff`. -/
theorem copy3_inv (X Y w i : Int) (s0 t : Bufs) (x0 x1 x2 x3 y0 y1 y2 : Int)
    (hx0 : x0 = X + i * 4) (hx1 : x1 = X + i * 4 + 1) (hx2 : x2 = X + i * 4 + 2)
    (hx3 : x3 = X + i * 4 + 3)
    (hy0 : y0 = Y + i * 3) (hy1 : y1 = Y + i * 3 + 1) (hy2 : y2 = Y + i * 3 + 2)
    (hi0 : 0 ≤ i) (hiw : i < w) (hinv : RowInv 3 X Y w i s0 t) :
    RowInv 3 X Y w (i + 1) s0
      ((((t.copy x0 y0).copy x1 y1).copy x2 y2).put x3 0xff) := by
  obtain ⟨hp, ha, hfi, hfb⟩ := hinv
  refine ⟨?_, ?_, ?_, ?_⟩
  · intro i' k' hi'0 hi' hk'0 hk'
    refine put_pair _ _ _ _ _ (by omega) ?_
    refine copy_pair _ _ _ _ _ (by omega) (fun h2 => ?_)
    refine copy_pair _ _ _ _ _ (by omega) (fun h1 => ?_)
    refine copy_pair _ _ _ _ _ (by omega) (fun h0 => ?_)
    exact hp i' k' hi'0 (by omega) hk'0 hk'
  · intro _ i' hi'0 hi'
    by_cases hii : i' = i
    · subst hii
      rw [← hx3, put_imgbuf_same]
    · rw [put_imgbuf_other _ _ _ _ (by omega), copy_imgbuf_other _ _ _ _ (by omega),
        copy_imgbuf_other _ _ _ _ (by omega), copy_imgbuf_other _ _ _ _ (by omega)]
      exact ha rfl i' hi'0 (by omega)
  · intro x hx
    rw [put_imgbuf_other _ _ _ _ (by omega), copy_imgbuf_other _ _ _ _ (by omega),
      copy_imgbuf_other _ _ _ _ (by omega), copy_imgbuf_other _ _ _ _ (by omega)]
    exact hfi x hx
  · intro y hy
    simp only [put_buf, copy_buf]
    exact hfb y hy

theorem rgb_row_inv (w h j : Int) (s : Bufs) (hw : 1 ≤ w)
    (htag : s.buf (j * (w * 3 + 1)) ≤ 4) :
    RowInv 3 ((h-1-j) * w * 4) (j * (w * 3 + 1) + 1) w w s (pngTrueColor_row w h j s) := by
  unfold pngTrueColor_row
  simp only []
  split
  · apply forLoop_induction
      (fun n t => RowInv 3 ((h-1-j) * w * 4) (j * (w * 3 + 1) + 1) w n s t) 0 w (by omega)
    · exact rowInv_start _ _ _ _ _
    · intro i t hi0 hiw hinv
      exact copy3_inv _ _ w i s t _ _ _ _ _ _ _ (by omega) (by omega) (by omega)
        (by omega) (by omega) (by omega) (by omega) (by omega) hiw hinv
  · split
    · apply forLoop_induction
        (fun n t => RowInv 3 ((h-1-j) * w * 4) (j * (w * 3 + 1) + 1) w n s t) 1 w hw
      · exact copy3_inv _ _ w 0 s s _ _ _ _ _ _ _ (by omega) (by omega) (by omega)
          (by omega) (by omega) (by omega) (by omega) (by omega) (by omega)
          (rowInv_start _ _ _ _ _)
      · intro i t hi0 hiw hinv
        exact addTo3_inv _ _ w i s t _ _ _ _ _ _ _ _ _ _ (by omega) (by omega) (by omega)
          (by omega) (by omega) (by omega) (by omega) (by omega) hiw hinv
    · split
      · apply forLoop_induction
          (fun n t => RowInv 3 ((h-1-j) * w * 4) (j * (w * 3 + 1) + 1) w n s t) 0 w (by omega)
        · exact rowInv_start _ _ _ _ _
        · intro i t hi0 hiw hinv
          exact addTo3_inv _ _ w i s t _ _ _ _ _ _ _ _ _ _ (by omega) (by omega) (by omega)
            (by omega) (by omega) (by omega) (by omega) (by omega) hiw hinv
      · split
        · apply forLoop_induction
            (fun n t => RowInv 3 ((h-1-j) * w * 4) (j * (w * 3 + 1) + 1) w n s t) 1 w hw
          · exact addTo3_inv _ _ w 0 s s _ _ _ _ _ _ _ _ _ _ (by omega) (by omega)
              (by omega) (by omega) (by omega) (by omega) (by omega) (by omega)
              (by omega) (rowInv_start _ _ _ _ _)
          · intro i t hi0 hiw hinv
            exact addTo3_inv _ _ w i s t _ _ _ _ _ _ _ _ _ _ (by omega) (by omega)
              (by omega) (by omega) (by omega) (by omega) (by omega) (by omega)
              hiw hinv
        · split
          · apply forLoop_induction
              (fun n t => RowInv 3 ((h-1-j) * w * 4) (j * (w * 3 + 1) + 1) w n s t) 1 w hw
            · exact addTo3_inv _ _ w 0 s s _ _ _ _ _ _ _ _ _ _ (by omega) (by omega)
                (by omega) (by omega) (by omega) (by omega) (by omega) (by omega)
                (by omega) (rowInv_start _ _ _ _ _)
            · intro i t hi0 hiw hinv
              exact addTo3_inv _ _ w i s t _ _ _ _ _ _ _ _ _ _ (by omega) (by omega)
                (by omega) (by omega) (by omega) (by omega) (by omega) (by omega)
                hiw hinv
          · exfalso; omega
/-- The row loop, for either pixel size: from the row invariant to the whole image. -/
theorem image_inv (b : Int) (hb : b = 3 ∨ b = 4) (w h : Int) (hw : 1 ≤ w)
    (rowf : Int → Bufs → Bufs) (imgbuf buf : Mem)
    (hrow : ∀ j s, s.buf (j * (w * b + 1)) ≤ 4 →
      RowInv b ((h-1-j) * w * 4) (j * (w * b + 1) + 1) w w s (rowf j s))
    (htags : ∀ j : Int, 0 ≤ j → j < h → buf (j * (w * b + 1)) ≤ 4) (m : Int)
    (hm0 : 0 ≤ m) (hmh : m ≤ h) :
    ImgInv b w h buf m (forLoop 0 m rowf ⟨imgbuf, buf⟩) := by
  apply forLoop_induction (fun n t => ImgInv b w h buf n t) 0 m hm0
  · exact ⟨fun j i k h1 h2 => by omega, fun _ j i h1 h2 => by omega, fun _ _ => rfl⟩
  · intro n t hn0 hnm ⟨hp, ha, hu⟩
    have htag : t.buf (n * (w * b + 1)) ≤ 4 := by
      rw [hu _ (le_refl _)]; exact htags n hn0 (by omega)
    obtain ⟨rp, ra, rfi, rfb⟩ := hrow n t htag
    have N3 : (n + 1) * (w * b + 1) = n * (w * b + 1) + (w * b + 1) := by ring
    have hS : 0 ≤ w * b + 1 := by rcases hb with rfl | rfl <;> omega
    have N1 : ∀ j : Int, j < n → (h-1-n) * w + w ≤ (h-1-j) * w := by
      intro j hj
      nlinarith [mul_nonneg (show (0 : Int) ≤ n - j - 1 by omega) (show (0 : Int) ≤ w by omega)]
    have N2 : ∀ j : Int, j < n → j * (w * b + 1) + (w * b + 1) ≤ n * (w * b + 1) := by
      intro j hj
      nlinarith [mul_nonneg (show (0 : Int) ≤ n - j - 1 by omega) hS]
    refine ⟨?_, ?_, ?_⟩
    · intro j i k hj0 hj hi0 hi hk0 hk
      by_cases hjn : j = n
      · subst hjn
        have := rp i k hi0 hi hk0 hk
        exact this
      · have hj' : j < n := by omega
        have h1 := N1 j hj'
        have h2 := N2 j hj'
        rw [rfi _ (Or.inr (by omega)), rfb _ (Or.inl (by rcases hb with rfl | rfl <;> omega))]
        exact hp j i k hj0 hj' hi0 hi hk0 hk
    · intro hb3 j i hj0 hj hi0 hi
      by_cases hjn : j = n
      · subst hjn
        exact ra hb3 i hi0 hi
      · have hj' : j < n := by omega
        have h1 := N1 j hj'
        rw [rfi _ (Or.inr (by omega))]
        exact ha hb3 j i hj0 hj' hi0 hi
    · intro y hy
      rw [rfb _ (Or.inr (by rcases hb with rfl | rfl <;> omega))]
      exact hu y (by omega)
theorem pngTrueColorAlpha_inv (imgbuf buf : Mem) (w h : Int) (hw : 1 ≤ w) (hh : 0 ≤ h)
    (htags : ∀ j : Int, 0 ≤ j → j < h → buf (j * (w * 4 + 1)) ≤ 4) :
    ImgInv 4 w h buf h (pngTrueColorAlpha imgbuf buf w h).2 :=
  image_inv 4 (Or.inr rfl) w h hw (fun j s => pngTrueColorAlpha_row w h j s) imgbuf buf
    (fun j s ht => alpha_row_inv w h j s hw ht) htags h hh (le_refl h)

theorem pngTrueColor_inv (imgbuf buf : Mem) (w h : Int) (hw : 1 ≤ w) (hh : 0 ≤ h)
    (htags : ∀ j : Int, 0 ≤ j → j < h → buf (j * (w * 3 + 1)) ≤ 4) :
    ImgInv 3 w h buf h (pngTrueColor imgbuf buf w h).2 :=
  image_inv 3 (Or.inl rfl) w h hw (fun j s => pngTrueColor_row w h j s) imgbuf buf
    (fun j s ht => rgb_row_inv w h j s hw ht) htags h hh (le_refl h)

/-- Claim C10 (evaluation of the code at a failing input). For a 1×1 image whose only
scanline `tag, 10, 20, 30, 40` is tagged 2 (Up), 3 (Average) or 4 (Paeth), row 0 has
no previous row and the claim expects the pixel `10, 20, 30, 40` to come out
unchanged. The code reads the bytes at offsets `-4 .. -1`, in front of the buffer:
when they hold 7 the pixel becomes `17, 27, 37, 47` (Up, Paeth) or `13, 23, 33, 43`
(Average); only when they hold 0 is the pixel unchanged. The same for the 3-byte
code. -/
theorem C10_row0_reads_before_buffer :
    [0, 1, 2, 3].map (pngTrueColorAlpha (fun _ => 0) (onePixelBuf 2 7) 1 1).2.imgbuf
        = [17, 27, 37, 47]
    ∧ [0, 1, 2, 3].map (pngTrueColorAlpha (fun _ => 0) (onePixelBuf 3 7) 1 1).2.imgbuf
        = [13, 23, 33, 43]
    ∧ [0, 1, 2, 3].map (pngTrueColorAlpha (fun _ => 0) (onePixelBuf 4 7) 1 1).2.imgbuf
        = [17, 27, 37, 47]
    ∧ [0, 1, 2, 3].map (pngTrueColorAlpha (fun _ => 0) (onePixelBuf 2 0) 1 1).2.imgbuf
        = [10, 20, 30, 40]
    ∧ [0, 1, 2, 3].map (pngTrueColor (fun _ => 0) (onePixelBuf 2 7) 1 1).2.imgbuf
        = [17, 27, 37, 255]
    ∧ [0, 1, 2, 3].map (pngTrueColor (fun _ => 0) (onePixelBuf 3 7) 1 1).2.imgbuf
        = [13, 23, 33, 255]
    ∧ [0, 1, 2, 3].map (pngTrueColor (fun _ => 0) (onePixelBuf 4 7) 1 1).2.imgbuf
        = [17, 27, 37, 255] := by
  refine ⟨by decide, by decide, by decide, by decide, by decide, by decide, by decide⟩
/-! ### The example codec satisfies the contract -/

theorem toyCompress_length (x : List Nat) : (toyCompress x).length = 2 * x.length + 1 := by
  induction x with
  | nil => rfl
  | cons b x ih => simp only [toyCompress, List.length_cons, ih]; omega

theorem toyDecode_compress (x : List Nat) :
    ∀ avail, x.length ≤ avail →
      toyDecode (toyCompress x) 0 avail = (2, (toyCompress x).length, x, false) := by
  induction x with
  | nil => intro avail _; simp [toyCompress, toyDecode]
  | cons b x ih =>
    intro avail h
    obtain ⟨a, rfl⟩ : ∃ a, avail = a + 1 := ⟨avail - 1, by simp at h; omega⟩
    have hx : x.length ≤ a := by simp at h; omega
    simp [toyCompress, toyDecode, ih a hx]

theorem toyDecode_done (inp : List Nat) (avail : Nat) :
    toyDecode inp 2 avail = (2, 0, [], false) := by
  cases inp with
  | nil => rfl
  | cons b inp => simp [toyDecode]

theorem toy_roundtrip : CodecRoundTrip toyZlib toyCompress where
  deflate_ok := by
    refine ⟨none, rfl, ?_⟩
    intro x avail _ h
    simp [toyZlib, h, List.take_of_length_le h]
  bound := by
    intro x _ h
    rw [toyCompress_length]
    unfold BUFFER_SIZE
    omega
  inflate_ok := by
    refine ⟨(0 : Nat), rfl, ?_⟩
    intro x avail _ h
    have hd := toyDecode_compress x avail h
    refine ⟨?_, ?_, ?_⟩
    · simp [toyZlib, hd]
    · simp [toyZlib, hd]
    · intro inp avail2 flush
      simp [toyZlib, hd, toyDecode_done]
/-! ### The round trip -/

theorem flatMap_range_blocks (f : Nat → List Nat) (S : Nat) :
    ∀ n, (∀ r, r < n → (f r).length = S) →
      ((List.range n).flatMap f).length = n * S
      ∧ ∀ q r, q < n → r < S → ((List.range n).flatMap f)[q * S + r]? = (f q)[r]? := by
  intro n
  induction n with
  | zero => intro _; exact ⟨by simp, fun q r hq => by omega⟩
  | succ n ih =>
    intro hlen
    obtain ⟨hl, hidx⟩ := ih (fun r hr => hlen r (by omega))
    rw [List.range_succ, List.flatMap_append]
    simp only [List.flatMap_cons, List.flatMap_nil, List.append_nil]
    refine ⟨by rw [List.length_append, hl, hlen n (by omega)]; ring, ?_⟩
    intro q r hq hr
    by_cases hqn : q < n
    · have hlt : q * S + r < ((List.range n).flatMap f).length := by
        rw [hl]
        have : (q + 1) * S ≤ n * S := Nat.mul_le_mul_right S hqn
        have e : (q + 1) * S = q * S + S := by ring
        omega
      rw [List.getElem?_append_left hlt]
      exact hidx q r hqn hr
    · have hq' : q = n := by omega
      subst hq'
      rw [List.getElem?_append_right (by rw [hl]; omega), hl]
      congr 1
      omega

theorem scanlinesSpec_blocks (w h : Nat) (data : List Nat) (hdata : data.length = w * h * 4) :
    (scanlinesSpec w h data).length = h * (w * 4 + 1)
      ∧ ∀ q r, q < h → r < w * 4 + 1 →
        (scanlinesSpec w h data)[q * (w * 4 + 1) + r]?
          = (0 :: rasterRow w data (h - 1 - q))[r]? := by
  unfold scanlinesSpec
  exact flatMap_range_blocks (fun r => 0 :: rasterRow w data (h - 1 - r)) (w * 4 + 1) h
    (fun r hr => by
      rw [List.length_cons, rasterRow_length w h data hdata _ (by omega)])

theorem scanlinesSpec_length (w h : Nat) (data : List Nat) (hdata : data.length = w * h * 4) :
    (scanlinesSpec w h data).length = h * (w * 4 + 1) :=
  (scanlinesSpec_blocks w h data hdata).1

theorem scanlinesSpec_tag (w h : Nat) (data : List Nat) (hdata : data.length = w * h * 4)
    (j : Nat) (hj : j < h) : (scanlinesSpec w h data)[j * (w * 4 + 1)]? = some 0 := by
  have := (scanlinesSpec_blocks w h data hdata).2 j 0 hj (by omega)
  rw [Nat.add_zero] at this
  rw [this]
  simp

theorem scanlinesSpec_byte (w h : Nat) (data : List Nat) (hdata : data.length = w * h * 4)
    (j t : Nat) (hj : j < h) (ht : t < w * 4) :
    (scanlinesSpec w h data)[j * (w * 4 + 1) + (t + 1)]? = data[(h - 1 - j) * w * 4 + t]? := by
  rw [(scanlinesSpec_blocks w h data hdata).2 j (t + 1) hj (by omega)]
  simp only [List.getElem?_cons_succ]
  unfold rasterRow
  rw [List.getElem?_take_of_lt ht, List.getElem?_drop]

theorem scanlinesSpec_bytes (w h : Nat) (data : List Nat) (hb : IsBytes data) :
    IsBytes (scanlinesSpec w h data) := by
  intro b hmem
  unfold scanlinesSpec at hmem
  rw [List.mem_flatMap] at hmem
  obtain ⟨r, _, hb2⟩ := hmem
  rcases List.mem_cons.mp hb2 with h0 | hrow
  · omega
  · unfold rasterRow at hrow
    exact hb b (List.mem_of_mem_drop (List.mem_of_mem_take hrow))
/-- With every scanline tagged 0 `pngTrueColorAlpha` leaves `buf` as it is. -/
theorem pngTrueColorAlpha_buf_tag0 (imgbuf buf : Mem) (w h : Int) (hw : 0 ≤ w) (hh : 0 ≤ h)
    (htags : ∀ j : Int, 0 ≤ j → j < h → buf (j * (w * 4 + 1)) = 0) :
    (pngTrueColorAlpha imgbuf buf w h).2.buf = buf := by
  unfold pngTrueColorAlpha
  show (forLoop 0 h (fun j s => pngTrueColorAlpha_row w h j s) ⟨imgbuf, buf⟩).buf = buf
  apply forLoop_induction (fun (_ : Int) (t : Bufs) => t.buf = buf) 0 h hh
  · rfl
  · intro j t hj0 hjh ht
    have h0 : t.buf (j * (w * 4 + 1)) = 0 := by rw [ht]; exact htags j hj0 hjh
    unfold pngTrueColorAlpha_row
    simp only []
    rw [if_pos h0, (memcpy_inv _ _ w t hw).2]
    exact ht

theorem zl_deflate_one_page (zl : Zlib) (compress : List Nat → List Nat)
    (hc : CodecRoundTrip zl compress) (fuel : Nat) (hfuel : 1 ≤ fuel) (x : List Nat)
    (hx : IsBytes x) (hlen : (compress x).length ≤ BUFFER_SIZE) :
    zl_deflate zl fuel x = some (compress x) := by
  obtain ⟨s, hs, hd⟩ := hc.deflate_ok
  obtain ⟨hcode, hprod⟩ := hd x BUFFER_SIZE hx hlen
  obtain ⟨n, rfl⟩ : ∃ n, fuel = n + 1 := ⟨fuel - 1, by omega⟩
  unfold zl_deflate
  rw [hs]
  simp only []
  unfold zl_deflate_loop
  simp only [hcode, if_true, z_stream.after, hprod, List.nil_append, bufstr_write]
  have : BUFFER_SIZE - (BUFFER_SIZE - (compress x).length) = (compress x).length := by omega
  rw [this, List.take_length]

theorem zl_inflate_one_piece (zl : Zlib) (compress : List Nat → List Nat)
    (hc : CodecRoundTrip zl compress) (fuel : Nat) (hfuel : 1 ≤ fuel) (x : List Nat)
    (hx : IsBytes x) (size : Nat) (hsize : x.length ≤ size) (hs32 : size < 2 ^ 32) :
    ∃ z0 z1 z2, zl_initInflate zl size = some z0
      ∧ zl_inflatePart zl fuel z0 (compress x) = some (1, z1)
      ∧ zl_inflateFinish zl fuel z1 = some (1, z2)
      ∧ z2.out = x := by
  obtain ⟨s, hs, hi⟩ := hc.inflate_ok
  obtain ⟨hcode, hprod, hdone⟩ := hi x size hx hsize
  obtain ⟨n, rfl⟩ : ∃ n, fuel = n + 1 := ⟨fuel - 1, by omega⟩
  have hmod : size % 2 ^ 32 = size := Nat.mod_eq_of_lt hs32
  let z0 : z_stream zl.IState := { next_in := [], out := [], avail_out := size, state := s }
  let z1 : z_stream zl.IState :=
    z_stream.after { z0 with next_in := compress x }
      (zl.inflate s (compress x) size Z_NO_FLUSH)
  let z2 : z_stream zl.IState :=
    z_stream.after z1 (zl.inflate z1.state z1.next_in z1.avail_out Z_FINISH)
  refine ⟨z0, z1, z2, ?_, ?_, ?_, ?_⟩
  · unfold zl_initInflate
    rw [hs, hmod]
  · unfold zl_inflatePart zl_inflatePart_loop
    simp only [z0, z1, hcode, if_true]
  · unfold zl_inflateFinish
    simp only [z0, z1, z2, z_stream.after, (hdone _ _ _).1, if_true]
  · simp only [z0, z1, z2, z_stream.after, (hdone _ _ _).2, hprod, List.nil_append,
      List.append_nil]
theorem getFromPNG_buf_at (heap : Int → Nat) (size : Nat) (out : List Nat) (n : Nat)
    (hn : n < size) : getFromPNG_buf heap (size : Int) out (n : Int) = (out[n]?).getD 0 := by
  unfold getFromPNG_buf
  have h1 : (0 : Int) ≤ (n : Int) ∧ (n : Int) < (size : Int) := ⟨by omega, by omega⟩
  rw [if_pos h1, Int.toNat_ofNat, List.getD_eq_getElem?_getD]

/-- The decoded scanline buffer of an image saved by `saveAsPNG`, seen through the
pointer `buf`. -/
theorem saved_buf_tag (heap : Int → Nat) (w h : Nat) (data : List Nat)
    (hdata : data.length = w * h * 4) (j : Int) (hj0 : 0 ≤ j) (hj : j < h) :
    getFromPNG_buf heap (((w * 4 + 1) * h : Nat) : Int) (scanlinesSpec w h data)
      (j * ((w : Int) * 4 + 1)) = 0 := by
  obtain ⟨jn, rfl⟩ := Int.eq_ofNat_of_zero_le hj0
  have hjn : jn < h := by omega
  have hlt : jn * (w * 4 + 1) < (w * 4 + 1) * h := by
    have : (jn + 1) * (w * 4 + 1) ≤ h * (w * 4 + 1) := Nat.mul_le_mul_right _ hjn
    have e : (jn + 1) * (w * 4 + 1) = jn * (w * 4 + 1) + (w * 4 + 1) := by ring
    have e2 : (w * 4 + 1) * h = h * (w * 4 + 1) := Nat.mul_comm _ _
    omega
  have e : (jn : Int) * ((w : Int) * 4 + 1) = ((jn * (w * 4 + 1) : Nat) : Int) := by
    push_cast; ring
  rw [e, getFromPNG_buf_at heap _ _ _ hlt, scanlinesSpec_tag w h data hdata jn hjn]
  rfl

theorem saved_buf_byte (heap : Int → Nat) (w h : Nat) (data : List Nat)
    (hdata : data.length = w * h * 4) (jn t : Nat) (hj : jn < h) (ht : t < w * 4) :
    getFromPNG_buf heap (((w * 4 + 1) * h : Nat) : Int) (scanlinesSpec w h data)
      ((jn : Int) * ((w : Int) * 4 + 1) + 1 + (t : Int))
      = (data[(h - 1 - jn) * w * 4 + t]?).getD 0 := by
  have hlt : jn * (w * 4 + 1) + (t + 1) < (w * 4 + 1) * h := by
    have : (jn + 1) * (w * 4 + 1) ≤ h * (w * 4 + 1) := Nat.mul_le_mul_right _ hj
    have e : (jn + 1) * (w * 4 + 1) = jn * (w * 4 + 1) + (w * 4 + 1) := by ring
    have e2 : (w * 4 + 1) * h = h * (w * 4 + 1) := Nat.mul_comm _ _
    omega
  have e : (jn : Int) * ((w : Int) * 4 + 1) + 1 + (t : Int)
      = ((jn * (w * 4 + 1) + (t + 1) : Nat) : Int) := by
    push_cast; ring
  rw [e, getFromPNG_buf_at heap _ _ _ hlt, scanlinesSpec_byte w h data hdata jn t hj ht]

/-- The output pixels `pngTrueColorAlpha` produces from the scanline buffer of a saved
image are the bytes of the raster, row `h-1-j` of the output from scanline `j`. -/
theorem saved_pixel (heap : Int → Nat) (w h : Nat) (data : List Nat)
    (hdata : data.length = w * h * 4) (hw : 1 ≤ w) (jn i k : Nat) (hj : jn < h) (hi : i < w)
    (hk : k < 4) :
    (pngTrueColorAlpha (fun _ => 0)
        (getFromPNG_buf heap (((w * 4 + 1) * h : Nat) : Int) (scanlinesSpec w h data))
        (w : Int) (h : Int)).2.imgbuf (((h : Int) - 1 - jn) * w * 4 + i * 4 + k)
      = (data[(h - 1 - jn) * w * 4 + (i * 4 + k)]?).getD 0 := by
  have htag0 : ∀ j : Int, 0 ≤ j → j < (h : Int) →
      getFromPNG_buf heap (((w * 4 + 1) * h : Nat) : Int) (scanlinesSpec w h data)
        (j * ((w : Int) * 4 + 1)) = 0 :=
    fun j hj0 hjh => saved_buf_tag heap w h data hdata j hj0 hjh
  have inv := pngTrueColorAlpha_inv (fun _ => 0)
    (getFromPNG_buf heap (((w * 4 + 1) * h : Nat) : Int) (scanlinesSpec w h data))
    (w : Int) (h : Int) (by omega) (by omega)
    (fun j hj0 hjh => by rw [htag0 j hj0 hjh]; omega)
  have hbuf := pngTrueColorAlpha_buf_tag0 (fun _ => 0)
    (getFromPNG_buf heap (((w * 4 + 1) * h : Nat) : Int) (scanlinesSpec w h data))
    (w : Int) (h : Int) (by omega) (by omega) htag0
  rw [inv.1 (jn : Int) (i : Int) (k : Int) (by omega) (by omega) (by omega) (by omega)
    (by omega) (by omega), hbuf]
  have e : (jn : Int) * ((w : Int) * 4 + 1) + 1 + (i : Int) * 4 + (k : Int)
      = (jn : Int) * ((w : Int) * 4 + 1) + 1 + ((i * 4 + k : Nat) : Int) := by
    push_cast; ring
  rw [e]
  exact saved_buf_byte heap w h data hdata jn (i * 4 + k) hj (by omega)
theorem saved_pixels (heap : Int → Nat) (w h : Nat) (data : List Nat)
    (hdata : data.length = w * h * 4) (hw : 1 ≤ w) :
    (List.range ((w : Int) * (h : Int) * 4).toNat).map
      (fun (k : Nat) => (pngTrueColorAlpha (fun _ => 0)
        (getFromPNG_buf heap (((w * 4 + 1) * h : Nat) : Int) (scanlinesSpec w h data))
        (w : Int) (h : Int)).2.imgbuf (k : Int)) = data := by
  have hN : ((w : Int) * (h : Int) * 4).toNat = w * h * 4 := by
    have : (w : Int) * (h : Int) * 4 = ((w * h * 4 : Nat) : Int) := by push_cast; ring
    rw [this, Int.toNat_ofNat]
  rw [hN]
  apply List.ext_getElem?
  intro n
  by_cases hn : n < w * h * 4
  · rw [List.getElem?_map, List.getElem?_range hn, Option.map_some']
    have hpos : 0 < w * 4 := by omega
    have hdm : w * 4 * (n / (w * 4)) + n % (w * 4) = n := Nat.div_add_mod n (w * 4)
    have ht : n % (w * 4) < w * 4 := Nat.mod_lt _ hpos
    have hr : n / (w * 4) < h := by
      apply Nat.div_lt_of_lt_mul
      have : w * 4 * h = w * h * 4 := by ring
      omega
    generalize n / (w * 4) = r at hdm hr
    generalize n % (w * 4) = t at hdm ht
    have e1 : r * w * 4 = w * 4 * r := by ring
    have hjn : h - 1 - (h - 1 - r) = r := by omega
    have hidx : (n : Int) = ((h : Int) - 1 - ((h - 1 - r : Nat) : Int)) * w * 4
        + ((t / 4 : Nat) : Int) * 4 + ((t % 4 : Nat) : Int) := by
      have hc : ((h : Int) - 1 - ((h - 1 - r : Nat) : Int)) = (r : Int) := by omega
      rw [hc]
      have : n = r * w * 4 + (t / 4 * 4 + t % 4) := by omega
      rw [this]
      push_cast
      ring
    have hpx := saved_pixel heap w h data hdata hw (h - 1 - r) (t / 4) (t % 4) (by omega)
      (by omega) (Nat.mod_lt _ (by decide))
    rw [hidx, hpx, hjn]
    have e2 : r * w * 4 + (t / 4 * 4 + t % 4) = n := by omega
    rw [e2]
    have hlt : n < data.length := by omega
    rw [List.getElem?_eq_getElem hlt]
    rfl
  · rw [List.getElem?_eq_none (by rw [List.length_map, List.length_range]; omega),
      List.getElem?_eq_none (by omega)]
theorem chunkSpec_eq_write (ty payload : List Nat) (htz : ∀ b ∈ ty, b ≠ 0) :
    chunkSpec ty payload = write_pngsection [] ty payload := by
  rw [write_pngsection_spec [] ty payload htz, List.nil_append]

theorem read_pngheader_signature (rest : List Nat) :
    read_pngheader ⟨pngSignature ++ rest, 0⟩ = (true, ⟨pngSignature ++ rest, 8⟩) := by
  have h1 := (read_pngheader_fst ⟨pngSignature ++ rest, 0⟩).2 (by simp [pngSignature])
  have h2 := read_pngheader_pos ⟨pngSignature ++ rest, 0⟩ (by simp [pngSignature])
  exact Prod.ext h1 (by simpa using h2)

/-- The IDAT loop of `getFromPNG` on a stream that holds one IDAT chunk followed by
IEND: one call of `zl_inflatePart` on the payload, then the loop ends. -/
theorem getFromPNG_idat_single (zl : Zlib) (fuel : Nat) (junk : Nat → Nat) (n : Nat)
    (file pre c : List Nat) (z0 z1 : z_stream zl.IState)
    (hfile : file = pre ++ chunkSpec IDAT c ++ chunkSpec IEND [])
    (hc : c.length < 2 ^ 32 - 4)
    (hpart : zl_inflatePart zl fuel z0 c = some (1, z1)) :
    getFromPNG_idat zl fuel junk (n + 2) ⟨file, pre.length⟩ z0 = some (true, z1) := by
  have hnzD : ∀ b ∈ IDAT, b ≠ 0 := by decide
  have hnzE : ∀ b ∈ IEND, b ≠ 0 := by decide
  have hhit := read_pngsection_hit junk IDAT (by decide) hnzD [] pre c (chunkSpec IEND [])
    ⟨file, pre.length⟩
    (by simp only [hfile, writeChunks, List.foldl_nil, List.append_nil,
          chunkSpec_eq_write IDAT c hnzD])
    rfl (by simp) hc
  have hmiss := read_pngsection_miss junk IDAT (by decide) hnzD [(IEND, [])]
    (pre ++ chunkSpec IDAT c)
    ⟨file, pre.length + (writeChunks [] []).length + (write_pngsection [] IDAT c).length⟩
    (by
      show file = pre ++ chunkSpec IDAT c ++ writeChunks [] [(IEND, [])]
      rw [writeChunks_cons, hfile, chunkSpec_eq_write IEND [] hnzE]
      simp [writeChunks])
    (by simp [writeChunks, chunkSpec_eq_write IDAT c hnzD])
    (by
      intro ch hch
      simp only [List.mem_singleton] at hch
      subst hch
      exact ⟨⟨by decide, hnzE, by simp⟩, by decide⟩)
  rw [getFromPNG_idat, hhit]
  simp only [Option.getD_some, hpart]
  rw [getFromPNG_idat]
  simp only [hmiss.1, one_ne_zero, if_false, if_true]
theorem toInt32_small (n : Nat) (h : n < 2 ^ 31) : toInt32 n = (n : Int) := by
  unfold toInt32
  have : n % 2 ^ 32 = n := Nat.mod_eq_of_lt (by omega)
  rw [this, if_pos h]

theorem ihdr_fields (w h : Nat) (hw : w < 2 ^ 31) (hh : h < 2 ^ 31) :
    toInt32 (ntohl ((be32 w ++ be32 h ++ [8, 6, 0, 0, 0]).take 4)) = (w : Int)
    ∧ toInt32 (ntohl (((be32 w ++ be32 h ++ [8, 6, 0, 0, 0]).drop 4).take 4)) = (h : Int)
    ∧ (be32 w ++ be32 h ++ [8, 6, 0, 0, 0]).getD 8 0 = 8
    ∧ (be32 w ++ be32 h ++ [8, 6, 0, 0, 0]).getD 9 0 = 6
    ∧ (be32 w ++ be32 h ++ [8, 6, 0, 0, 0]).length = 13 := by
  have e1 : (be32 w ++ be32 h ++ [8, 6, 0, 0, 0]).take 4 = be32 w := by simp [be32]
  have e2 : ((be32 w ++ be32 h ++ [8, 6, 0, 0, 0]).drop 4).take 4 = be32 h := by simp [be32]
  rw [e1, e2, ntohl_be32 w (by omega), ntohl_be32 h (by omega), toInt32_small w hw,
    toInt32_small h hh]
  refine ⟨rfl, rfl, ?_, ?_, ?_⟩ <;> simp [be32]

/-- Loading the file `saveAsPNG` writes, given the codec contract. -/
theorem getFromPNG_saved (zl : Zlib) (compress : List Nat → List Nat)
    (hc : CodecRoundTrip zl compress) (fuel : Nat) (hfuel : 1 ≤ fuel) (junk : Nat → Nat)
    (heap : Int → Nat) (w h : Nat) (hw1 : 1 ≤ w) (hw64 : w ≤ 64) (hh1 : 1 ≤ h) (hh64 : h ≤ 64)
    (data : List Nat) (hdata : data.length = w * h * 4) (hbytes : IsBytes data) :
    getFromPNG zl fuel junk heap (some (pngSignature
        ++ chunkSpec IHDR (be32 w ++ be32 h ++ [8, 6, 0, 0, 0])
        ++ chunkSpec IDAT (compress (scanlinesSpec w h data))
        ++ chunkSpec IEND []))
      = some ⟨w, h, some data⟩ := by
  have hx := scanlinesSpec_bytes w h data hbytes
  have hxl := scanlinesSpec_length w h data hdata
  have hsz : h * (w * 4 + 1) ≤ (4 * 64 + 1) * 64 := by
    have : h * (w * 4 + 1) ≤ 64 * (64 * 4 + 1) := Nat.mul_le_mul hh64 (by omega)
    omega
  have hcl := hc.bound _ hx (by rw [hxl]; exact hsz)
  unfold BUFFER_SIZE at hcl
  obtain ⟨z0, z1, z2, hz0, hz1, hz2, hout⟩ :=
    zl_inflate_one_piece zl compress hc fuel hfuel _ hx ((w * 4 + 1) * h)
      (by rw [hxl, Nat.mul_comm]) (by rw [Nat.mul_comm]; omega)
  obtain ⟨f1, f2, f3, f4, f5⟩ := ihdr_fields w h (by omega) (by omega)
  have hnzH : ∀ b ∈ IHDR, b ≠ 0 := by decide
  have hhd := read_pngheader_signature
    (chunkSpec IHDR (be32 w ++ be32 h ++ [8, 6, 0, 0, 0])
      ++ chunkSpec IDAT (compress (scanlinesSpec w h data)) ++ chunkSpec IEND [])
  simp only [← List.append_assoc] at hhd
  have hihdr := read_pngsection_hit junk IHDR (by decide) hnzH [] pngSignature
    (be32 w ++ be32 h ++ [8, 6, 0, 0, 0])
    (chunkSpec IDAT (compress (scanlinesSpec w h data)) ++ chunkSpec IEND [])
    ⟨pngSignature ++ chunkSpec IHDR (be32 w ++ be32 h ++ [8, 6, 0, 0, 0])
        ++ chunkSpec IDAT (compress (scanlinesSpec w h data)) ++ chunkSpec IEND [], 8⟩
    (by simp only [writeChunks, List.foldl_nil, List.append_nil,
          chunkSpec_eq_write IHDR _ hnzH, List.append_assoc])
    rfl (by simp) (by rw [f5]; decide)
  have hidat := getFromPNG_idat_single zl fuel junk
    ((pngSignature ++ chunkSpec IHDR (be32 w ++ be32 h ++ [8, 6, 0, 0, 0])
        ++ chunkSpec IDAT (compress (scanlinesSpec w h data)) ++ chunkSpec IEND []).length - 1)
    (pngSignature ++ chunkSpec IHDR (be32 w ++ be32 h ++ [8, 6, 0, 0, 0])
        ++ chunkSpec IDAT (compress (scanlinesSpec w h data)) ++ chunkSpec IEND [])
    (pngSignature ++ chunkSpec IHDR (be32 w ++ be32 h ++ [8, 6, 0, 0, 0]))
    (compress (scanlinesSpec w h data)) z0 z1 rfl (by omega) hz1
  have hpos : pngSignature.length + (writeChunks [] []).length
      + (write_pngsection [] IHDR (be32 w ++ be32 h ++ [8, 6, 0, 0, 0])).length
      = (pngSignature ++ chunkSpec IHDR (be32 w ++ be32 h ++ [8, 6, 0, 0, 0])).length := by
    rw [chunkSpec_eq_write IHDR _ hnzH]
    simp [writeChunks]
  rw [hpos] at hihdr
  have hcnt : (pngSignature ++ chunkSpec IHDR (be32 w ++ be32 h ++ [8, 6, 0, 0, 0])
        ++ chunkSpec IDAT (compress (scanlinesSpec w h data)) ++ chunkSpec IEND []).length - 1 + 2
      = (pngSignature ++ chunkSpec IHDR (be32 w ++ be32 h ++ [8, 6, 0, 0, 0])
        ++ chunkSpec IDAT (compress (scanlinesSpec w h data)) ++ chunkSpec IEND []).length + 1 := by
    have : 8 ≤ (pngSignature ++ chunkSpec IHDR (be32 w ++ be32 h ++ [8, 6, 0, 0, 0])
        ++ chunkSpec IDAT (compress (scanlinesSpec w h data)) ++ chunkSpec IEND []).length := by
      simp only [List.length_append, pngSignature, List.length_cons, List.length_nil]
      omega
    omega
  rw [hcnt] at hidat
  generalize pngSignature ++ chunkSpec IHDR (be32 w ++ be32 h ++ [8, 6, 0, 0, 0])
        ++ chunkSpec IDAT (compress (scanlinesSpec w h data)) ++ chunkSpec IEND [] = file
    at hhd hihdr hidat ⊢
  have hdec : getFromPNG_decode zl fuel junk heap (file.length + 1)
      ⟨file, (pngSignature ++ chunkSpec IHDR (be32 w ++ be32 h ++ [8, 6, 0, 0, 0])).length⟩
      (w : Int) (h : Int) 4 = some ⟨w, h, some data⟩ := by
    unfold getFromPNG_decode
    have e1 : (((w : Int) * 4 + 1) * (h : Int)).toNat = (w * 4 + 1) * h := by
      have : ((w : Int) * 4 + 1) * (h : Int) = (((w * 4 + 1) * h : Nat) : Int) := by push_cast; ring
      rw [this, Int.toNat_ofNat]
    have e2 : ((w : Int) * 4 + 1) * (h : Int) = (((w * 4 + 1) * h : Nat) : Int) := by
      push_cast; ring
    have n1 : ¬ (((w : Int) * 4 + 1) * (h : Int) < 0) := by rw [e2]; omega
    have n2 : ¬ ((w : Int) * (h : Int) * 4 < 0) := by
      have : (w : Int) * (h : Int) * 4 = ((w * h * 4 : Nat) : Int) := by push_cast; ring
      rw [this]; omega
    simp only [n1, n2, if_false, e1, hz0, hidat, hz2, one_ne_zero, if_true, hout,
      getFromPNG_pixels]
    rw [e2, saved_pixels heap w h data hdata hw1]
  generalize (pngSignature ++ chunkSpec IHDR (be32 w ++ be32 h ++ [8, 6, 0, 0, 0])).length = p
    at hihdr hdec
  unfold getFromPNG
  simp only [hhd, hihdr, f1, f2, f3, f4, f5]
  simp [hdec]
/-- Claim C1. Taking the external codec to satisfy `inflate (deflate x) = x`
(`CodecRoundTrip`): for every raster of width and height in `[1, 64]` with its
`w*h*4` pixel bytes, `saveAsPNG` writes a file and `getFromPNG` applied to that file
returns a raster with the same `w`, `h` and exactly the same bytes in the same order. -/
theorem C1_load_after_save (zl : Zlib) (compress : List Nat → List Nat)
    (hc : CodecRoundTrip zl compress) (fuel : Nat) (hfuel : 1 ≤ fuel) (junk : Nat → Nat)
    (heap : Int → Nat) (w h : Nat) (hw1 : 1 ≤ w) (hw64 : w ≤ 64) (hh1 : 1 ≤ h) (hh64 : h ≤ 64)
    (data : List Nat) (hdata : data.length = w * h * 4) (hbytes : IsBytes data) :
    ∃ file, saveAsPNG zl fuel true ⟨w, h, some data⟩ = some (0, some file)
      ∧ getFromPNG zl fuel junk heap (some file) = some ⟨w, h, some data⟩ := by
  have hx := scanlinesSpec_bytes w h data hbytes
  have hxl := scanlinesSpec_length w h data hdata
  have hsz : h * (w * 4 + 1) ≤ (4 * 64 + 1) * 64 := by
    have : h * (w * 4 + 1) ≤ 64 * (64 * 4 + 1) := Nat.mul_le_mul hh64 (by omega)
    omega
  have hcl := hc.bound _ hx (by rw [hxl]; exact hsz)
  exact ⟨_, saveAsPNG_eq zl fuel w h data _ hdata
      (zl_deflate_one_page zl compress hc fuel hfuel _ hx hcl),
    getFromPNG_saved zl compress hc fuel hfuel junk heap w h hw1 hw64 hh1 hh64 data hdata hbytes⟩

/-- The 2×2 RGBA raster `(255,0,0,255), (0,255,0,255), (0,0,255,255), (255,255,0,255)`
saved and loaded again with the example codec. -/
theorem C1_witness :
    ∃ file,
      saveAsPNG toyZlib 1 true
          ⟨(2 : Nat), (2 : Nat),
            some [255, 0, 0, 255, 0, 255, 0, 255, 0, 0, 255, 255, 255, 255, 0, 255]⟩
        = some (0, some file)
      ∧ getFromPNG toyZlib 1 (fun _ => 0) (fun _ => 0) (some file)
        = some ⟨(2 : Nat), (2 : Nat),
            some [255, 0, 0, 255, 0, 255, 0, 255, 0, 0, 255, 255, 255, 255, 0, 255]⟩ :=
  C1_load_after_save toyZlib toyCompress toy_roundtrip 1 (by decide) (fun _ => 0) (fun _ => 0)
    2 2 (by decide) (by decide) (by decide) (by decide)
    [255, 0, 0, 255, 0, 255, 0, 255, 0, 0, 255, 255, 255, 255, 0, 255] (by decide) (by decide)
/-! ### The Paeth predictor -/

theorem toInt16_small (x : Int) (h1 : -2 ^ 15 ≤ x) (h2 : x < 2 ^ 15) : toInt16 x = x := by
  unfold toInt16; omega

theorem paeth_dist (p a : Int) (h1 : -255 ≤ p) (h2 : p ≤ 510) (h3 : 0 ≤ a) (h4 : a < 256) :
    toInt16 (if p < a then a - p else p - a) = ((p - a).natAbs : Int) := by
  split_ifs
  · rw [toInt16_small _ (by omega) (by omega)]; omega
  · rw [toInt16_small _ (by omega) (by omega)]; omega

theorem paethPredictor_eq_spec (a b c : Nat) (ha : a < 256) (hb : b < 256) (hc : c < 256) :
    paethPredictor a b c = paethSpec a b c := by
  have hA : ((a : Nat) : Int) % 2 ^ 16 = (a : Int) := by omega
  have hB : ((b : Nat) : Int) % 2 ^ 16 = (b : Int) := by omega
  have hC : ((c : Nat) : Int) % 2 ^ 16 = (c : Int) := by omega
  have hp : toInt16 ((a : Int) + b - c) = (a : Int) + b - c :=
    toInt16_small _ (by omega) (by omega)
  unfold paethPredictor paethSpec
  simp only [Nat.mod_eq_of_lt ha, Nat.mod_eq_of_lt hb, Nat.mod_eq_of_lt hc, hA, hB, hC, hp,
    paeth_dist ((a : Int) + b - c) (a : Int) (by omega) (by omega) (by omega) (by omega),
    paeth_dist ((a : Int) + b - c) (b : Int) (by omega) (by omega) (by omega) (by omega),
    paeth_dist ((a : Int) + b - c) (c : Int) (by omega) (by omega) (by omega) (by omega),
    Nat.cast_le]

/-- Claim C17. For all bytes `a` (left), `b` (up), `c` (upper-left): `paethPredictor`
works with `p = a + b - c` as an integer in `-255 .. 510` (no `int16_t` wraparound);
it returns `a` if `|p-a| ≤ |p-b|` and `|p-a| ≤ |p-c|`, otherwise `b` if
`|p-b| ≤ |p-c|`, otherwise `c`; the value returned is one of `a`, `b`, `c` and its
distance to `p` is minimal among the three. -/
theorem C17_paethPredictor (a b c : Nat) (ha : a < 256) (hb : b < 256) (hc : c < 256) :
    toInt16 ((a : Int) + b - c) = (a : Int) + b - c
    ∧ -255 ≤ (a : Int) + b - c ∧ (a : Int) + b - c ≤ 510
    ∧ paethPredictor a b c = paethSpec a b c
    ∧ (paethPredictor a b c = a ∨ paethPredictor a b c = b ∨ paethPredictor a b c = c)
    ∧ (((a : Int) + b - c) - (paethPredictor a b c : Nat)).natAbs
          ≤ (((a : Int) + b - c) - a).natAbs
    ∧ (((a : Int) + b - c) - (paethPredictor a b c : Nat)).natAbs
          ≤ (((a : Int) + b - c) - b).natAbs
    ∧ (((a : Int) + b - c) - (paethPredictor a b c : Nat)).natAbs
          ≤ (((a : Int) + b - c) - c).natAbs := by
  have hs := paethPredictor_eq_spec a b c ha hb hc
  refine ⟨by unfold toInt16; omega, by omega, by omega, hs, ?_, ?_, ?_, ?_⟩ <;>
    (rw [hs]; unfold paethSpec; simp only []; split_ifs <;> omega)

theorem C17_witness :
    toInt16 (((0 : Nat) : Int) + (255 : Nat) - (255 : Nat))
        = ((0 : Nat) : Int) + (255 : Nat) - (255 : Nat)
    ∧ paethPredictor 10 20 15 = paethSpec 10 20 15 ∧ paethPredictor 10 20 15 = 15 :=
  ⟨(C17_paethPredictor 0 255 255 (by decide) (by decide) (by decide)).1,
   (C17_paethPredictor 10 20 15 (by decide) (by decide) (by decide)).2.2.2.1, by decide⟩
/-! ### The filter code: which values are written -/

theorem addTo_buf (s : Bufs) (x y : Int) (c : Nat) (y' : Int) :
    (s.addTo x y c).buf y' = if y' = y then (s.buf y + c) % 256 else s.buf y' := by
  unfold Bufs.addTo Mem.write
  rfl

theorem rowVal_start (g : Nat → Nat → Nat → Nat) (b Y Yp : Int) (s : Bufs) :
    RowVal g b Y Yp 0 s s :=
  ⟨fun _ _ => rfl, fun i k h1 h2 => by omega⟩

/-- One pixel of a 4-byte row handled by four statements `imgbuf[x] = buf[y] += c`,
each `c` being the prediction from the bytes in `buf` at that moment. -/
theorem addTo4_val (g : Nat → Nat → Nat → Nat) (Y Yp w i : Int) (s t : Bufs)
    (x0 x1 x2 x3 y0 y1 y2 y3 : Int) (c0 c1 c2 c3 : Nat)
    (hy0 : y0 = Y + i * 4) (hy1 : y1 = Y + i * 4 + 1) (hy2 : y2 = Y + i * 4 + 2)
    (hy3 : y3 = Y + i * 4 + 3)
    (hYp : Yp + w * 4 < Y) (hi0 : 0 ≤ i) (hiw : i < w)
    (hc0 : c0 = g (leftOf 4 Y i 0 t.buf) (t.buf (Yp + i * 4 + 0)) (leftOf 4 Yp i 0 t.buf))
    (hc1 : c1 = g (leftOf 4 Y i 1 (t.addTo x0 y0 c0).buf)
      ((t.addTo x0 y0 c0).buf (Yp + i * 4 + 1)) (leftOf 4 Yp i 1 (t.addTo x0 y0 c0).buf))
    (hc2 : c2 = g (leftOf 4 Y i 2 ((t.addTo x0 y0 c0).addTo x1 y1 c1).buf)
      (((t.addTo x0 y0 c0).addTo x1 y1 c1).buf (Yp + i * 4 + 2))
      (leftOf 4 Yp i 2 ((t.addTo x0 y0 c0).addTo x1 y1 c1).buf))
    (hc3 : c3 = g (leftOf 4 Y i 3 (((t.addTo x0 y0 c0).addTo x1 y1 c1).addTo x2 y2 c2).buf)
      ((((t.addTo x0 y0 c0).addTo x1 y1 c1).addTo x2 y2 c2).buf (Yp + i * 4 + 3))
      (leftOf 4 Yp i 3 (((t.addTo x0 y0 c0).addTo x1 y1 c1).addTo x2 y2 c2).buf))
    (hinv : RowVal g 4 Y Yp i s t) :
    RowVal g 4 Y Yp (i + 1) s
      ((((t.addTo x0 y0 c0).addTo x1 y1 c1).addTo x2 y2 c2).addTo x3 y3 c3) := by
  obtain ⟨hf, hv⟩ := hinv
  -- reads of the rows above and of earlier pixels see the state `t`
  have hold : ∀ y : Int, y < Y + i * 4 →
      ((((t.addTo x0 y0 c0).addTo x1 y1 c1).addTo x2 y2 c2).addTo x3 y3 c3).buf y = t.buf y := by
    intro y hy
    simp only [addTo_buf]
    rw [if_neg (by omega), if_neg (by omega), if_neg (by omega), if_neg (by omega)]
  have hleft : ∀ (Z i' k' : Int), Z ≤ Y → 0 ≤ i' → i' ≤ i → 0 ≤ k' → k' < 4 →
      leftOf 4 Z i' k'
        ((((t.addTo x0 y0 c0).addTo x1 y1 c1).addTo x2 y2 c2).addTo x3 y3 c3).buf
        = leftOf 4 Z i' k' t.buf := by
    intro Z i' k' hZ h1 h2 h3 h4
    unfold leftOf
    split
    · rfl
    · exact hold _ (by omega)
  have e0 : c0 = g (leftOf 4 Y i 0 t.buf) (s.buf (Yp + i * 4 + 0)) (leftOf 4 Yp i 0 s.buf) := by
    rw [hc0, hf _ (Or.inl (by omega))]
    congr 1
    unfold leftOf
    split
    · rfl
    · exact hf _ (Or.inl (by omega))
  have e1 : c1 = g (leftOf 4 Y i 1 t.buf) (s.buf (Yp + i * 4 + 1)) (leftOf 4 Yp i 1 s.buf) := by
    rw [hc1]
    have a1 : leftOf 4 Y i 1 (t.addTo x0 y0 c0).buf = leftOf 4 Y i 1 t.buf := by
      unfold leftOf; split
      · rfl
      · rw [addTo_buf, if_neg (by omega)]
    have a2 : (t.addTo x0 y0 c0).buf (Yp + i * 4 + 1) = s.buf (Yp + i * 4 + 1) := by
      rw [addTo_buf, if_neg (by omega)]; exact hf _ (Or.inl (by omega))
    have a3 : leftOf 4 Yp i 1 (t.addTo x0 y0 c0).buf = leftOf 4 Yp i 1 s.buf := by
      unfold leftOf; split
      · rfl
      · rw [addTo_buf, if_neg (by omega)]; exact hf _ (Or.inl (by omega))
    rw [a1, a2, a3]
  have e2 : c2 = g (leftOf 4 Y i 2 t.buf) (s.buf (Yp + i * 4 + 2)) (leftOf 4 Yp i 2 s.buf) := by
    rw [hc2]
    have a1 : leftOf 4 Y i 2 ((t.addTo x0 y0 c0).addTo x1 y1 c1).buf = leftOf 4 Y i 2 t.buf := by
      unfold leftOf; split
      · rfl
      · rw [addTo_buf, if_neg (by omega), addTo_buf, if_neg (by omega)]
    have a2 : ((t.addTo x0 y0 c0).addTo x1 y1 c1).buf (Yp + i * 4 + 2)
        = s.buf (Yp + i * 4 + 2) := by
      rw [addTo_buf, if_neg (by omega), addTo_buf, if_neg (by omega)]
      exact hf _ (Or.inl (by omega))
    have a3 : leftOf 4 Yp i 2 ((t.addTo x0 y0 c0).addTo x1 y1 c1).buf
        = leftOf 4 Yp i 2 s.buf := by
      unfold leftOf; split
      · rfl
      · rw [addTo_buf, if_neg (by omega), addTo_buf, if_neg (by omega)]
        exact hf _ (Or.inl (by omega))
    rw [a1, a2, a3]
  have e3 : c3 = g (leftOf 4 Y i 3 t.buf) (s.buf (Yp + i * 4 + 3)) (leftOf 4 Yp i 3 s.buf) := by
    rw [hc3]
    have a1 : leftOf 4 Y i 3 (((t.addTo x0 y0 c0).addTo x1 y1 c1).addTo x2 y2 c2).buf
        = leftOf 4 Y i 3 t.buf := by
      unfold leftOf; split
      · rfl
      · rw [addTo_buf, if_neg (by omega), addTo_buf, if_neg (by omega), addTo_buf,
          if_neg (by omega)]
    have a2 : (((t.addTo x0 y0 c0).addTo x1 y1 c1).addTo x2 y2 c2).buf (Yp + i * 4 + 3)
        = s.buf (Yp + i * 4 + 3) := by
      rw [addTo_buf, if_neg (by omega), addTo_buf, if_neg (by omega), addTo_buf,
        if_neg (by omega)]
      exact hf _ (Or.inl (by omega))
    have a3 : leftOf 4 Yp i 3 (((t.addTo x0 y0 c0).addTo x1 y1 c1).addTo x2 y2 c2).buf
        = leftOf 4 Yp i 3 s.buf := by
      unfold leftOf; split
      · rfl
      · rw [addTo_buf, if_neg (by omega), addTo_buf, if_neg (by omega), addTo_buf,
          if_neg (by omega)]
        exact hf _ (Or.inl (by omega))
    rw [a1, a2, a3]
  refine ⟨?_, ?_⟩
  · intro y hy
    simp only [addTo_buf]
    rw [if_neg (by omega), if_neg (by omega), if_neg (by omega), if_neg (by omega)]
    exact hf y (by omega)
  · intro i' k' hi'0 hi' hk'0 hk'
    rw [hleft Y i' k' (le_refl _) hi'0 (by omega) hk'0 hk']
    by_cases hii : i' = i
    · subst hii
      have hk : k' = 0 ∨ k' = 1 ∨ k' = 2 ∨ k' = 3 := by omega
      rcases hk with rfl | rfl | rfl | rfl
      · simp only [addTo_buf]
        rw [if_neg (by omega), if_neg (by omega), if_neg (by omega), if_pos (by omega),
          hy0, ← e0, hf _ (Or.inr (by omega))]
        simp
      · simp only [addTo_buf]
        rw [if_neg (by omega), if_neg (by omega), if_pos (by omega), if_neg (by omega),
          hy1, ← e1, hf _ (Or.inr (by omega))]
      · simp only [addTo_buf]
        rw [if_neg (by omega), if_pos (by omega), if_neg (by omega), if_neg (by omega),
          hy2, ← e2, hf _ (Or.inr (by omega))]
      · simp only [addTo_buf]
        rw [if_pos (by omega), if_neg (by omega), if_neg (by omega), if_neg (by omega),
          hy3, ← e3, hf _ (Or.inr (by omega))]
    · rw [hold _ (by omega)]
      exact hv i' k' hi'0 (by omega) hk'0 hk'
/-- One pixel of a 3-byte row handled by three statements `imgbuf[x] = buf[y] += c`,
each `c` being the prediction from the bytes in `buf` at that moment, and
`imgbuf[x3] = 0xff`. -/
theorem addTo3_val (g : Nat → Nat → Nat → Nat) (Y Yp w i : Int) (s t : Bufs)
    (x0 x1 x2 x3 y0 y1 y2 : Int) (c0 c1 c2 : Nat)
    (hy0 : y0 = Y + i * 3) (hy1 : y1 = Y + i * 3 + 1) (hy2 : y2 = Y + i * 3 + 2)
    (hYp : Yp + w * 3 < Y) (hi0 : 0 ≤ i) (hiw : i < w)
    (hc0 : c0 = g (leftOf 3 Y i 0 t.buf) (t.buf (Yp + i * 3 + 0)) (leftOf 3 Yp i 0 t.buf))
    (hc1 : c1 = g (leftOf 3 Y i 1 (t.addTo x0 y0 c0).buf)
      ((t.addTo x0 y0 c0).buf (Yp + i * 3 + 1)) (leftOf 3 Yp i 1 (t.addTo x0 y0 c0).buf))
    (hc2 : c2 = g (leftOf 3 Y i 2 ((t.addTo x0 y0 c0).addTo x1 y1 c1).buf)
      (((t.addTo x0 y0 c0).addTo x1 y1 c1).buf (Yp + i * 3 + 2))
      (leftOf 3 Yp i 2 ((t.addTo x0 y0 c0).addTo x1 y1 c1).buf))
    (hinv : RowVal g 3 Y Yp i s t) :
    RowVal g 3 Y Yp (i + 1) s
      ((((t.addTo x0 y0 c0).addTo x1 y1 c1).addTo x2 y2 c2).put x3 0xff) := by
  obtain ⟨hf, hv⟩ := hinv
  have hold : ∀ y : Int, y < Y + i * 3 →
      ((((t.addTo x0 y0 c0).addTo x1 y1 c1).addTo x2 y2 c2).put x3 0xff).buf y = t.buf y := by
    intro y hy
    simp only [put_buf, addTo_buf]
    rw [if_neg (by omega), if_neg (by omega), if_neg (by omega)]
  have hleft : ∀ (Z i' k' : Int), Z ≤ Y → 0 ≤ i' → i' ≤ i → 0 ≤ k' → k' < 3 →
      leftOf 3 Z i' k'
        ((((t.addTo x0 y0 c0).addTo x1 y1 c1).addTo x2 y2 c2).put x3 0xff).buf
        = leftOf 3 Z i' k' t.buf := by
    intro Z i' k' hZ h1 h2 h3 h4
    unfold leftOf
    split
    · rfl
    · exact hold _ (by omega)
  have e0 : c0 = g (leftOf 3 Y i 0 t.buf) (s.buf (Yp + i * 3 + 0)) (leftOf 3 Yp i 0 s.buf) := by
    rw [hc0, hf _ (Or.inl (by omega))]
    congr 1
    unfold leftOf
    split
    · rfl
    · exact hf _ (Or.inl (by omega))
  have e1 : c1 = g (leftOf 3 Y i 1 t.buf) (s.buf (Yp + i * 3 + 1)) (leftOf 3 Yp i 1 s.buf) := by
    rw [hc1]
    have a1 : leftOf 3 Y i 1 (t.addTo x0 y0 c0).buf = leftOf 3 Y i 1 t.buf := by
      unfold leftOf; split
      · rfl
      · rw [addTo_buf, if_neg (by omega)]
    have a2 : (t.addTo x0 y0 c0).buf (Yp + i * 3 + 1) = s.buf (Yp + i * 3 + 1) := by
      rw [addTo_buf, if_neg (by omega)]; exact hf _ (Or.inl (by omega))
    have a3 : leftOf 3 Yp i 1 (t.addTo x0 y0 c0).buf = leftOf 3 Yp i 1 s.buf := by
      unfold leftOf; split
      · rfl
      · rw [addTo_buf, if_neg (by omega)]; exact hf _ (Or.inl (by omega))
    rw [a1, a2, a3]
  have e2 : c2 = g (leftOf 3 Y i 2 t.buf) (s.buf (Yp + i * 3 + 2)) (leftOf 3 Yp i 2 s.buf) := by
    rw [hc2]
    have a1 : leftOf 3 Y i 2 ((t.addTo x0 y0 c0).addTo x1 y1 c1).buf = leftOf 3 Y i 2 t.buf := by
      unfold leftOf; split
      · rfl
      · rw [addTo_buf, if_neg (by omega), addTo_buf, if_neg (by omega)]
    have a2 : ((t.addTo x0 y0 c0).addTo x1 y1 c1).buf (Yp + i * 3 + 2)
        = s.buf (Yp + i * 3 + 2) := by
      rw [addTo_buf, if_neg (by omega), addTo_buf, if_neg (by omega)]
      exact hf _ (Or.inl (by omega))
    have a3 : leftOf 3 Yp i 2 ((t.addTo x0 y0 c0).addTo x1 y1 c1).buf
        = leftOf 3 Yp i 2 s.buf := by
      unfold leftOf; split
      · rfl
      · rw [addTo_buf, if_neg (by omega), addTo_buf, if_neg (by omega)]
        exact hf _ (Or.inl (by omega))
    rw [a1, a2, a3]
  refine ⟨?_, ?_⟩
  · intro y hy
    simp only [put_buf, addTo_buf]
    rw [if_neg (by omega), if_neg (by omega), if_neg (by omega)]
    exact hf y (by omega)
  · intro i' k' hi'0 hi' hk'0 hk'
    rw [hleft Y i' k' (le_refl _) hi'0 (by omega) hk'0 hk']
    by_cases hii : i' = i
    · subst hii
      have hk : k' = 0 ∨ k' = 1 ∨ k' = 2 := by omega
      rcases hk with rfl | rfl | rfl
      · simp only [put_buf, addTo_buf]
        rw [if_neg (by omega), if_neg (by omega), if_pos (by omega),
          hy0, ← e0, hf _ (Or.inr (by omega))]
        simp
      · simp only [put_buf, addTo_buf]
        rw [if_neg (by omega), if_pos (by omega), if_neg (by omega),
          hy1, ← e1, hf _ (Or.inr (by omega))]
      · simp only [put_buf, addTo_buf]
        rw [if_pos (by omega), if_neg (by omega), if_neg (by omega),
          hy2, ← e2, hf _ (Or.inr (by omega))]
    · rw [hold _ (by omega)]
      exact hv i' k' hi'0 (by omega) hk'0 hk'

/-- The first pixel of a Sub row: copied, `buf` untouched; for bytes this is the
stored byte plus a left neighbour 0. -/
theorem subFirst_val (b Y Yp : Int) (s t : Bufs) (hbuf : t.buf = s.buf)
    (hbytes : ∀ y : Int, s.buf y < 256) :
    RowVal (fun l _ _ => l) b Y Yp 1 s t := by
  refine ⟨fun y _ => by rw [hbuf], ?_⟩
  intro i k hi0 hi hk0 hk
  have : i = 0 := by omega
  subst this
  simp only [leftOf, if_true, Nat.add_zero, hbuf]
  rw [Nat.mod_eq_of_lt (hbytes _)]
theorem alpha_row_sub (w h j : Int) (s : Bufs) (hw : 1 ≤ w)
    (htag : s.buf (j * (w * 4 + 1)) = 1) (hbytes : ∀ y : Int, s.buf y < 256) :
    RowVal (fun l _ _ => l) 4 (j * (w * 4 + 1) + 1) ((j - 1) * (w * 4 + 1) + 1) w s
      (pngTrueColorAlpha_row w h j s) := by
  have hring : (j - 1) * (w * 4 + 1) = j * (w * 4 + 1) - (w * 4 + 1) := by ring
  unfold pngTrueColorAlpha_row
  simp only [sub_zero]
  rw [if_neg (by omega), if_pos htag]
  apply forLoop_induction
    (fun (n : Int) (t : Bufs) => RowVal (fun l _ _ => l) 4 (j * (w * 4 + 1) + 1)
      ((j - 1) * (w * 4 + 1) + 1) n s t) 1 w hw
  · exact subFirst_val 4 _ _ s _ rfl hbytes
  · intro i t hi0 hiw hinv
    have hi : ¬ i = 0 := by omega
    exact addTo4_val _ _ _ w i s t _ _ _ _ _ _ _ _ _ _ _ _
      (by omega) (by omega) (by omega) (by omega) (by omega) (by omega) hiw
      (by simp only [leftOf, if_neg hi]; congr 1; ring)
      (by simp only [leftOf, if_neg hi]; congr 1; ring)
      (by simp only [leftOf, if_neg hi]; congr 1; ring)
      (by simp only [leftOf, if_neg hi]; congr 1; ring) hinv

theorem alpha_row_up (w h j : Int) (s : Bufs) (hw : 1 ≤ w)
    (htag : s.buf (j * (w * 4 + 1)) = 2) :
    RowVal (fun _ u _ => u) 4 (j * (w * 4 + 1) + 1) ((j - 1) * (w * 4 + 1) + 1) w s
      (pngTrueColorAlpha_row w h j s) := by
  have hring : (j - 1) * (w * 4 + 1) = j * (w * 4 + 1) - (w * 4 + 1) := by ring
  unfold pngTrueColorAlpha_row
  simp only [sub_zero]
  rw [if_neg (by omega), if_neg (by omega), if_pos htag]
  apply forLoop_induction
    (fun (n : Int) (t : Bufs) => RowVal (fun _ u _ => u) 4 (j * (w * 4 + 1) + 1)
      ((j - 1) * (w * 4 + 1) + 1) n s t) 0 w (by omega)
  · exact rowVal_start _ _ _ _ _
  · intro i t hi0 hiw hinv
    exact addTo4_val _ _ _ w i s t _ _ _ _ _ _ _ _ _ _ _ _
      (by omega) (by omega) (by omega) (by omega) (by omega) hi0 hiw
      (by congr 1; ring)
      (by congr 1; ring)
      (by congr 1; ring)
      (by congr 1; ring) hinv

theorem alpha_row_average (w h j : Int) (s : Bufs) (hw : 1 ≤ w)
    (htag : s.buf (j * (w * 4 + 1)) = 3) :
    RowVal (fun l u _ => filterAverage l u) 4 (j * (w * 4 + 1) + 1)
      ((j - 1) * (w * 4 + 1) + 1) w s (pngTrueColorAlpha_row w h j s) := by
  have hring : (j - 1) * (w * 4 + 1) = j * (w * 4 + 1) - (w * 4 + 1) := by ring
  unfold pngTrueColorAlpha_row
  simp only [sub_zero]
  rw [if_neg (by omega), if_neg (by omega), if_neg (by omega), if_pos htag]
  apply forLoop_induction
    (fun (n : Int) (t : Bufs) => RowVal (fun l u _ => filterAverage l u) 4
      (j * (w * 4 + 1) + 1) ((j - 1) * (w * 4 + 1) + 1) n s t) 1 w hw
  · exact addTo4_val _ _ _ w 0 s s _ _ _ _ _ _ _ _ _ _ _ _
      (by omega) (by omega) (by omega) (by omega) (by omega) (by omega) (by omega)
      (by simp only [leftOf, if_true]; congr 2; ring)
      (by simp only [leftOf, if_true]; congr 2; ring)
      (by simp only [leftOf, if_true]; congr 2; ring)
      (by simp only [leftOf, if_true]; congr 2; ring) (rowVal_start _ _ _ _ _)
  · intro i t hi0 hiw hinv
    have hi : ¬ i = 0 := by omega
    exact addTo4_val _ _ _ w i s t _ _ _ _ _ _ _ _ _ _ _ _
      (by omega) (by omega) (by omega) (by omega) (by omega) (by omega) hiw
      (by simp only [leftOf, if_neg hi]; congr 2 <;> ring)
      (by simp only [leftOf, if_neg hi]; congr 2 <;> ring)
      (by simp only [leftOf, if_neg hi]; congr 2 <;> ring)
      (by simp only [leftOf, if_neg hi]; congr 2 <;> ring) hinv

theorem alpha_row_paeth (w h j : Int) (s : Bufs) (hw : 1 ≤ w)
    (htag : s.buf (j * (w * 4 + 1)) = 4) :
    RowVal paethPredictor 4 (j * (w * 4 + 1) + 1)
      ((j - 1) * (w * 4 + 1) + 1) w s (pngTrueColorAlpha_row w h j s) := by
  have hring : (j - 1) * (w * 4 + 1) = j * (w * 4 + 1) - (w * 4 + 1) := by ring
  unfold pngTrueColorAlpha_row
  simp only [sub_zero]
  rw [if_neg (by omega), if_neg (by omega), if_neg (by omega), if_neg (by omega), if_pos htag]
  apply forLoop_induction
    (fun (n : Int) (t : Bufs) => RowVal paethPredictor 4
      (j * (w * 4 + 1) + 1) ((j - 1) * (w * 4 + 1) + 1) n s t) 1 w hw
  · exact addTo4_val _ _ _ w 0 s s _ _ _ _ _ _ _ _ _ _ _ _
      (by omega) (by omega) (by omega) (by omega) (by omega) (by omega) (by omega)
      (by simp only [leftOf, if_true]; congr 2; ring)
      (by simp only [leftOf, if_true]; congr 2; ring)
      (by simp only [leftOf, if_true]; congr 2; ring)
      (by simp only [leftOf, if_true]; congr 2; ring) (rowVal_start _ _ _ _ _)
  · intro i t hi0 hiw hinv
    have hi : ¬ i = 0 := by omega
    exact addTo4_val _ _ _ w i s t _ _ _ _ _ _ _ _ _ _ _ _
      (by omega) (by omega) (by omega) (by omega) (by omega) (by omega) hiw
      (by simp only [leftOf, if_neg hi]; congr 2 <;> ring)
      (by simp only [leftOf, if_neg hi]; congr 2 <;> ring)
      (by simp only [leftOf, if_neg hi]; congr 2 <;> ring)
      (by simp only [leftOf, if_neg hi]; congr 2 <;> ring) hinv
theorem rgb_row_sub (w h j : Int) (s : Bufs) (hw : 1 ≤ w)
    (htag : s.buf (j * (w * 3 + 1)) = 1) (hbytes : ∀ y : Int, s.buf y < 256) :
    RowVal (fun l _ _ => l) 3 (j * (w * 3 + 1) + 1) ((j - 1) * (w * 3 + 1) + 1) w s
      (pngTrueColor_row w h j s) := by
  have hring : (j - 1) * (w * 3 + 1) = j * (w * 3 + 1) - (w * 3 + 1) := by ring
  unfold pngTrueColor_row
  simp only [sub_zero]
  rw [if_neg (by omega), if_pos htag]
  apply forLoop_induction
    (fun (n : Int) (t : Bufs) => RowVal (fun l _ _ => l) 3 (j * (w * 3 + 1) + 1)
      ((j - 1) * (w * 3 + 1) + 1) n s t) 1 w hw
  · exact subFirst_val 3 _ _ s _ rfl hbytes
  · intro i t hi0 hiw hinv
    have hi : ¬ i = 0 := by omega
    exact addTo3_val _ _ _ w i s t _ _ _ _ _ _ _ _ _ _
      (by omega) (by omega) (by omega) (by omega) (by omega) hiw
      (by simp only [leftOf, if_neg hi]; congr 1; ring)
      (by simp only [leftOf, if_neg hi]; congr 1; ring)
      (by simp only [leftOf, if_neg hi]; congr 1; ring) hinv

theorem rgb_row_up (w h j : Int) (s : Bufs) (hw : 1 ≤ w)
    (htag : s.buf (j * (w * 3 + 1)) = 2) :
    RowVal (fun _ u _ => u) 3 (j * (w * 3 + 1) + 1) ((j - 1) * (w * 3 + 1) + 1) w s
      (pngTrueColor_row w h j s) := by
  have hring : (j - 1) * (w * 3 + 1) = j * (w * 3 + 1) - (w * 3 + 1) := by ring
  unfold pngTrueColor_row
  simp only [sub_zero]
  rw [if_neg (by omega), if_neg (by omega), if_pos htag]
  apply forLoop_induction
    (fun (n : Int) (t : Bufs) => RowVal (fun _ u _ => u) 3 (j * (w * 3 + 1) + 1)
      ((j - 1) * (w * 3 + 1) + 1) n s t) 0 w (by omega)
  · exact rowVal_start _ _ _ _ _
  · intro i t hi0 hiw hinv
    exact addTo3_val _ _ _ w i s t _ _ _ _ _ _ _ _ _ _
      (by omega) (by omega) (by omega) (by omega) hi0 hiw
      (by congr 1; ring)
      (by congr 1; ring)
      (by congr 1; ring) hinv

theorem rgb_row_average (w h j : Int) (s : Bufs) (hw : 1 ≤ w)
    (htag : s.buf (j * (w * 3 + 1)) = 3) :
    RowVal (fun l u _ => filterAverage l u) 3 (j * (w * 3 + 1) + 1)
      ((j - 1) * (w * 3 + 1) + 1) w s (pngTrueColor_row w h j s) := by
  have hring : (j - 1) * (w * 3 + 1) = j * (w * 3 + 1) - (w * 3 + 1) := by ring
  unfold pngTrueColor_row
  simp only [sub_zero]
  rw [if_neg (by omega), if_neg (by omega), if_neg (by omega), if_pos htag]
  apply forLoop_induction
    (fun (n : Int) (t : Bufs) => RowVal (fun l u _ => filterAverage l u) 3
      (j * (w * 3 + 1) + 1) ((j - 1) * (w * 3 + 1) + 1) n s t) 1 w hw
  · exact addTo3_val _ _ _ w 0 s s _ _ _ _ _ _ _ _ _ _
      (by omega) (by omega) (by omega) (by omega) (by omega) (by omega)
      (by simp only [leftOf, if_true]; congr 2; ring)
      (by simp only [leftOf, if_true]; congr 2; ring)
      (by simp only [leftOf, if_true]; congr 2; ring) (rowVal_start _ _ _ _ _)
  · intro i t hi0 hiw hinv
    have hi : ¬ i = 0 := by omega
    exact addTo3_val _ _ _ w i s t _ _ _ _ _ _ _ _ _ _
      (by omega) (by omega) (by omega) (by omega) (by omega) hiw
      (by simp only [leftOf, if_neg hi]; congr 2 <;> ring)
      (by simp only [leftOf, if_neg hi]; congr 2 <;> ring)
      (by simp only [leftOf, if_neg hi]; congr 2 <;> ring) hinv

theorem rgb_row_paeth (w h j : Int) (s : Bufs) (hw : 1 ≤ w)
    (htag : s.buf (j * (w * 3 + 1)) = 4) :
    RowVal paethPredictor 3 (j * (w * 3 + 1) + 1)
      ((j - 1) * (w * 3 + 1) + 1) w s (pngTrueColor_row w h j s) := by
  have hring : (j - 1) * (w * 3 + 1) = j * (w * 3 + 1) - (w * 3 + 1) := by ring
  unfold pngTrueColor_row
  simp only [sub_zero]
  rw [if_neg (by omega), if_neg (by omega), if_neg (by omega), if_neg (by omega), if_pos htag]
  apply forLoop_induction
    (fun (n : Int) (t : Bufs) => RowVal paethPredictor 3
      (j * (w * 3 + 1) + 1) ((j - 1) * (w * 3 + 1) + 1) n s t) 1 w hw
  · exact addTo3_val _ _ _ w 0 s s _ _ _ _ _ _ _ _ _ _
      (by omega) (by omega) (by omega) (by omega) (by omega) (by omega)
      (by simp only [leftOf, if_true]; congr 2; ring)
      (by simp only [leftOf, if_true]; congr 2; ring)
      (by simp only [leftOf, if_true]; congr 2; ring) (rowVal_start _ _ _ _ _)
  · intro i t hi0 hiw hinv
    have hi : ¬ i = 0 := by omega
    exact addTo3_val _ _ _ w i s t _ _ _ _ _ _ _ _ _ _
      (by omega) (by omega) (by omega) (by omega) (by omega) hiw
      (by simp only [leftOf, if_neg hi]; congr 2 <;> ring)
      (by simp only [leftOf, if_neg hi]; congr 2 <;> ring)
      (by simp only [leftOf, if_neg hi]; congr 2 <;> ring) hinv
/-! ### From one row to the whole image -/

theorem forLoop_split {α : Type} (a b c : Int) (hab : a ≤ b) (hbc : b ≤ c)
    (body : Int → α → α) (s : α) :
    forLoop a c body s = forLoop b c body (forLoop a b body s) := by
  unfold forLoop
  have e : (c - a).toNat = (b - a).toNat + (c - b).toNat := by omega
  rw [e, List.range_add, List.foldl_append, List.foldl_map]
  congr 1
  funext t k
  congr 1
  omega

theorem forLoop_first {α : Type} (b c : Int) (hbc : b < c) (body : Int → α → α) (s : α) :
    forLoop b c body s = forLoop (b + 1) c body (body b s) := by
  rw [forLoop_split b (b + 1) c (by omega) (by omega)]
  congr 1
  unfold forLoop
  have : (b + 1 - b).toNat = 1 := by omega
  rw [this]
  simp [List.range_succ]

/-- A property preserved by every round of a loop holds after the loop. -/
theorem forLoop_preserve {α : Type} (P : α → Prop) (a b : Int) (body : Int → α → α) (s : α)
    (h0 : P s) (hstep : ∀ i s, a ≤ i → i < b → P s → P (body i s)) :
    P (forLoop a b body s) := by
  by_cases hab : a ≤ b
  · exact forLoop_induction (fun (_ : Int) (t : α) => P t) a b hab body s h0 hstep
  · rw [forLoop_empty a b (by omega)]; exact h0

/-- The row loop seen from scanline `j`, when every round writes `buf` only inside its
scanline (after the tag) and `imgbuf` only inside its output row: the state
before round `j` has `buf` untouched from scanline `j` on and `imgbuf` untouched up to
the output row of `j`, and the final state agrees with the state after round `j` on
the scanlines up to `j` and on the output rows from that of `j` on. -/
theorem rows_trace (S W h : Int) (rowf : Int → Bufs → Bufs) (hS : 0 ≤ S) (hW : 0 ≤ W)
    (hfb : ∀ m s y, (y ≤ m * S ∨ m * S + S ≤ y) → (rowf m s).buf y = s.buf y)
    (hfi : ∀ m s x, (x < (h-1-m) * W ∨ (h-1-m) * W + W ≤ x) →
      (rowf m s).imgbuf x = s.imgbuf x)
    (s0 : Bufs) (j : Int) (hj0 : 0 ≤ j) (hjh : j < h) :
    (∀ y, j * S ≤ y → (forLoop 0 j rowf s0).buf y = s0.buf y)
      ∧ (∀ x, x < (h-1-j) * W + W → (forLoop 0 j rowf s0).imgbuf x = s0.imgbuf x)
      ∧ (∀ y, y < j * S + S →
          (forLoop 0 h rowf s0).buf y = (rowf j (forLoop 0 j rowf s0)).buf y)
      ∧ (∀ x, (h-1-j) * W ≤ x →
          (forLoop 0 h rowf s0).imgbuf x = (rowf j (forLoop 0 j rowf s0)).imgbuf x) := by
  refine ⟨?_, ?_, ?_, ?_⟩
  · apply forLoop_preserve (fun (t : Bufs) => ∀ y, j * S ≤ y → t.buf y = s0.buf y)
    · intro _ _; rfl
    · intro m t hm0 hmj ht y hy
      have : m * S + S ≤ j * S := by
        nlinarith [mul_nonneg (show (0 : Int) ≤ j - m - 1 by omega) hS]
      rw [hfb m t y (Or.inr (by omega))]
      exact ht y hy
  · apply forLoop_preserve (fun (t : Bufs) => ∀ x, x < (h-1-j) * W + W → t.imgbuf x = s0.imgbuf x)
    · intro _ _; rfl
    · intro m t hm0 hmj ht x hx
      have : (h-1-j) * W + W ≤ (h-1-m) * W := by
        nlinarith [mul_nonneg (show (0 : Int) ≤ j - m - 1 by omega) hW]
      rw [hfi m t x (Or.inl (by omega))]
      exact ht x hx
  · rw [forLoop_split 0 j h hj0 (by omega), forLoop_first j h hjh]
    apply forLoop_preserve
      (fun (t : Bufs) => ∀ y, y < j * S + S → t.buf y = (rowf j (forLoop 0 j rowf s0)).buf y)
    · intro _ _; rfl
    · intro m t hm0 hmh ht y hy
      have : j * S + S ≤ m * S := by
        nlinarith [mul_nonneg (show (0 : Int) ≤ m - j - 1 by omega) hS]
      rw [hfb m t y (Or.inl (by omega))]
      exact ht y hy
  · rw [forLoop_split 0 j h hj0 (by omega), forLoop_first j h hjh]
    apply forLoop_preserve
      (fun (t : Bufs) => ∀ x, (h-1-j) * W ≤ x → t.imgbuf x = (rowf j (forLoop 0 j rowf s0)).imgbuf x)
    · intro _ _; rfl
    · intro m t hm0 hmh ht x hx
      have : (h-1-m) * W + W ≤ (h-1-j) * W := by
        nlinarith [mul_nonneg (show (0 : Int) ≤ m - j - 1 by omega) hW]
      rw [hfi m t x (Or.inr (by omega))]
      exact ht x hx
theorem bytes_addTo (s : Bufs) (x y : Int) (c : Nat) (h : BufBytes s) :
    BufBytes (s.addTo x y c) := by
  intro y'
  rw [addTo_buf]
  split
  · exact Nat.mod_lt _ (by decide)
  · exact h y'

theorem bytes_copy (s : Bufs) (x y : Int) (h : BufBytes s) : BufBytes (s.copy x y) := h

theorem bytes_put (s : Bufs) (x : Int) (v : Nat) (h : BufBytes s) : BufBytes (s.put x v) := h

theorem bytes_forLoop (a b : Int) (body : Int → Bufs → Bufs) (s : Bufs) (h : BufBytes s)
    (hbody : ∀ i t, BufBytes t → BufBytes (body i t)) : BufBytes (forLoop a b body s) :=
  forLoop_preserve BufBytes a b body s h (fun i t _ _ ht => hbody i t ht)

theorem alpha_row_bytes (w h j : Int) (s : Bufs) (hs : BufBytes s) :
    BufBytes (pngTrueColorAlpha_row w h j s) := by
  unfold pngTrueColorAlpha_row
  simp only []
  split
  · apply bytes_forLoop
    · exact hs
    · intro i t ht
      exact bytes_copy _ _ _ ht
  · split
    · apply bytes_forLoop
      · exact bytes_copy _ _ _ (bytes_copy _ _ _ (bytes_copy _ _ _ (bytes_copy _ _ _ hs)))
      · intro i t ht
        exact bytes_addTo _ _ _ _ (bytes_addTo _ _ _ _ (bytes_addTo _ _ _ _ (bytes_addTo _ _ _ _ ht)))
    · split
      · apply bytes_forLoop
        · exact hs
        · intro i t ht
          exact bytes_addTo _ _ _ _ (bytes_addTo _ _ _ _ (bytes_addTo _ _ _ _ (bytes_addTo _ _ _ _ ht)))
      · split
        · apply bytes_forLoop
          · exact bytes_addTo _ _ _ _ (bytes_addTo _ _ _ _ (bytes_addTo _ _ _ _ (bytes_addTo _ _ _ _ hs)))
          · intro i t ht
            exact bytes_addTo _ _ _ _ (bytes_addTo _ _ _ _ (bytes_addTo _ _ _ _ (bytes_addTo _ _ _ _ ht)))
        · split
          · apply bytes_forLoop
            · exact bytes_addTo _ _ _ _ (bytes_addTo _ _ _ _ (bytes_addTo _ _ _ _ (bytes_addTo _ _ _ _ hs)))
            · intro i t ht
              exact bytes_addTo _ _ _ _ (bytes_addTo _ _ _ _ (bytes_addTo _ _ _ _ (bytes_addTo _ _ _ _ ht)))
          · exact hs

theorem rgb_row_bytes (w h j : Int) (s : Bufs) (hs : BufBytes s) :
    BufBytes (pngTrueColor_row w h j s) := by
  unfold pngTrueColor_row
  simp only []
  split
  · apply bytes_forLoop
    · exact hs
    · intro i t ht
      exact bytes_put _ _ _ (bytes_copy _ _ _ (bytes_copy _ _ _ (bytes_copy _ _ _ ht)))
  · split
    · apply bytes_forLoop
      · exact bytes_put _ _ _ (bytes_copy _ _ _ (bytes_copy _ _ _ (bytes_copy _ _ _ hs)))
      · intro i t ht
        exact bytes_put _ _ _ (bytes_addTo _ _ _ _ (bytes_addTo _ _ _ _ (bytes_addTo _ _ _ _ ht)))
    · split
      · apply bytes_forLoop
        · exact hs
        · intro i t ht
          exact bytes_put _ _ _ (bytes_addTo _ _ _ _ (bytes_addTo _ _ _ _ (bytes_addTo _ _ _ _ ht)))
      · split
        · apply bytes_forLoop
          · exact bytes_put _ _ _ (bytes_addTo _ _ _ _ (bytes_addTo _ _ _ _ (bytes_addTo _ _ _ _ hs)))
          · intro i t ht
            exact bytes_put _ _ _ (bytes_addTo _ _ _ _ (bytes_addTo _ _ _ _ (bytes_addTo _ _ _ _ ht)))
        · split
          · apply bytes_forLoop
            · exact bytes_put _ _ _ (bytes_addTo _ _ _ _ (bytes_addTo _ _ _ _ (bytes_addTo _ _ _ _ hs)))
            · intro i t ht
              exact bytes_put _ _ _ (bytes_addTo _ _ _ _ (bytes_addTo _ _ _ _ (bytes_addTo _ _ _ _ ht)))
          · exact hs
theorem alpha_row_badtag (w h j : Int) (s : Bufs) (htag : 4 < s.buf (j * (w * 4 + 1))) :
    pngTrueColorAlpha_row w h j s = s := by
  unfold pngTrueColorAlpha_row
  simp only []
  rw [if_neg (by omega), if_neg (by omega), if_neg (by omega), if_neg (by omega),
    if_neg (by omega)]

theorem rgb_row_badtag (w h j : Int) (s : Bufs) (htag : 4 < s.buf (j * (w * 3 + 1))) :
    pngTrueColor_row w h j s = s := by
  unfold pngTrueColor_row
  simp only []
  rw [if_neg (by omega), if_neg (by omega), if_neg (by omega), if_neg (by omega),
    if_neg (by omega)]

/-- Whatever its tag, a round of `pngTrueColorAlpha` writes `buf` only inside its
scanline, after the tag, and `imgbuf` only inside its output row. -/
theorem alpha_row_frame (w h : Int) (hw : 1 ≤ w) :
    (∀ m s y, (y ≤ m * (w * 4 + 1) ∨ m * (w * 4 + 1) + (w * 4 + 1) ≤ y) →
      (pngTrueColorAlpha_row w h m s).buf y = s.buf y)
    ∧ (∀ m s x, (x < (h-1-m) * (w * 4) ∨ (h-1-m) * (w * 4) + w * 4 ≤ x) →
      (pngTrueColorAlpha_row w h m s).imgbuf x = s.imgbuf x) := by
  constructor
  · intro m s y hy
    by_cases htag : s.buf (m * (w * 4 + 1)) ≤ 4
    · exact (alpha_row_inv w h m s hw htag).2.2.2 y (by omega)
    · rw [alpha_row_badtag w h m s (by omega)]
  · intro m s x hx
    have e : (h-1-m) * (w * 4) = (h-1-m) * w * 4 := by ring
    by_cases htag : s.buf (m * (w * 4 + 1)) ≤ 4
    · exact (alpha_row_inv w h m s hw htag).2.2.1 x (by omega)
    · rw [alpha_row_badtag w h m s (by omega)]

/-- Whatever its tag, a round of `pngTrueColor` writes `buf` only inside its scanline,
after the tag, and `imgbuf` only inside its output row. -/
theorem rgb_row_frame (w h : Int) (hw : 1 ≤ w) :
    (∀ m s y, (y ≤ m * (w * 3 + 1) ∨ m * (w * 3 + 1) + (w * 3 + 1) ≤ y) →
      (pngTrueColor_row w h m s).buf y = s.buf y)
    ∧ (∀ m s x, (x < (h-1-m) * (w * 4) ∨ (h-1-m) * (w * 4) + w * 4 ≤ x) →
      (pngTrueColor_row w h m s).imgbuf x = s.imgbuf x) := by
  constructor
  · intro m s y hy
    by_cases htag : s.buf (m * (w * 3 + 1)) ≤ 4
    · exact (rgb_row_inv w h m s hw htag).2.2.2 y (by omega)
    · rw [rgb_row_badtag w h m s (by omega)]
  · intro m s x hx
    have e : (h-1-m) * (w * 4) = (h-1-m) * w * 4 := by ring
    by_cases htag : s.buf (m * (w * 3 + 1)) ≤ 4
    · exact (rgb_row_inv w h m s hw htag).2.2.1 x (by omega)
    · rw [rgb_row_badtag w h m s (by omega)]

/-- From the values a round leaves in its scanline (4 bytes per pixel) to the values in
the final buffer `fin`: `before` is the state before round `j`, `after` the state
after it. -/
theorem rowVal_to_final4 (g : Nat → Nat → Nat → Nat)
    (w j : Int) (hw : 1 ≤ w) (buf0 fin : Mem) (before after : Bufs)
    (h1 : ∀ y, j * (w * 4 + 1) ≤ y → before.buf y = buf0 y)
    (h3 : ∀ y, y < j * (w * 4 + 1) + (w * 4 + 1) → fin y = after.buf y)
    (hfr : ∀ y, y ≤ j * (w * 4 + 1) → after.buf y = before.buf y)
    (hval : RowVal g 4 (j * (w * 4 + 1) + 1) ((j - 1) * (w * 4 + 1) + 1) w before after) :
    ∀ i k : Int, 0 ≤ i → i < w → 0 ≤ k → k < 4 →
      fin (j * (w * 4 + 1) + 1 + i * 4 + k)
        = (buf0 (j * (w * 4 + 1) + 1 + i * 4 + k)
            + g (leftOf 4 (j * (w * 4 + 1) + 1) i k fin)
                (fin ((j - 1) * (w * 4 + 1) + 1 + i * 4 + k))
                (leftOf 4 ((j - 1) * (w * 4 + 1) + 1) i k fin)) % 256 := by
  intro i k hi0 hi hk0 hk
  have hring : (j - 1) * (w * 4 + 1) = j * (w * 4 + 1) - (w * 4 + 1) := by ring
  have e1 := hval.2 i k hi0 hi hk0 hk
  have eL : leftOf 4 (j * (w * 4 + 1) + 1) i k fin
      = leftOf 4 (j * (w * 4 + 1) + 1) i k after.buf := by
    unfold leftOf
    split
    · rfl
    · exact h3 _ (by omega)
  have eU : fin ((j - 1) * (w * 4 + 1) + 1 + i * 4 + k)
      = before.buf ((j - 1) * (w * 4 + 1) + 1 + i * 4 + k) := by
    rw [h3 _ (by omega), hfr _ (by omega)]
  have eUL : leftOf 4 ((j - 1) * (w * 4 + 1) + 1) i k fin
      = leftOf 4 ((j - 1) * (w * 4 + 1) + 1) i k before.buf := by
    unfold leftOf
    split
    · rfl
    · rw [h3 _ (by omega), hfr _ (by omega)]
  rw [h3 _ (by omega), e1, eL, eU, eUL, h1 _ (by omega)]

/-- From the values a round leaves in its scanline (3 bytes per pixel) to the values in
the final buffer `fin`: `before` is the state before round `j`, `after` the state
after it. -/
theorem rowVal_to_final3 (g : Nat → Nat → Nat → Nat)
    (w j : Int) (hw : 1 ≤ w) (buf0 fin : Mem) (before after : Bufs)
    (h1 : ∀ y, j * (w * 3 + 1) ≤ y → before.buf y = buf0 y)
    (h3 : ∀ y, y < j * (w * 3 + 1) + (w * 3 + 1) → fin y = after.buf y)
    (hfr : ∀ y, y ≤ j * (w * 3 + 1) → after.buf y = before.buf y)
    (hval : RowVal g 3 (j * (w * 3 + 1) + 1) ((j - 1) * (w * 3 + 1) + 1) w before after) :
    ∀ i k : Int, 0 ≤ i → i < w → 0 ≤ k → k < 3 →
      fin (j * (w * 3 + 1) + 1 + i * 3 + k)
        = (buf0 (j * (w * 3 + 1) + 1 + i * 3 + k)
            + g (leftOf 3 (j * (w * 3 + 1) + 1) i k fin)
                (fin ((j - 1) * (w * 3 + 1) + 1 + i * 3 + k))
                (leftOf 3 ((j - 1) * (w * 3 + 1) + 1) i k fin)) % 256 := by
  intro i k hi0 hi hk0 hk
  have hring : (j - 1) * (w * 3 + 1) = j * (w * 3 + 1) - (w * 3 + 1) := by ring
  have e1 := hval.2 i k hi0 hi hk0 hk
  have eL : leftOf 3 (j * (w * 3 + 1) + 1) i k fin
      = leftOf 3 (j * (w * 3 + 1) + 1) i k after.buf := by
    unfold leftOf
    split
    · rfl
    · exact h3 _ (by omega)
  have eU : fin ((j - 1) * (w * 3 + 1) + 1 + i * 3 + k)
      = before.buf ((j - 1) * (w * 3 + 1) + 1 + i * 3 + k) := by
    rw [h3 _ (by omega), hfr _ (by omega)]
  have eUL : leftOf 3 ((j - 1) * (w * 3 + 1) + 1) i k fin
      = leftOf 3 ((j - 1) * (w * 3 + 1) + 1) i k before.buf := by
    unfold leftOf
    split
    · rfl
    · rw [h3 _ (by omega), hfr _ (by omega)]
  rw [h3 _ (by omega), e1, eL, eU, eUL, h1 _ (by omega)]

theorem pngTrueColorAlpha_snd (imgbuf buf : Mem) (w h : Int) :
    (pngTrueColorAlpha imgbuf buf w h).2
      = forLoop 0 h (fun j s => pngTrueColorAlpha_row w h j s) ⟨imgbuf, buf⟩ := rfl

theorem pngTrueColor_snd (imgbuf buf : Mem) (w h : Int) :
    (pngTrueColor imgbuf buf w h).2
      = forLoop 0 h (fun j s => pngTrueColor_row w h j s) ⟨imgbuf, buf⟩ := rfl

/-- The bytes `pngTrueColorAlpha` leaves in scanline `j`, from what one round does to
any state whose `buf` is the initial one from scanline `j` on. -/
theorem alpha_image_val (g : Nat → Nat → Nat → Nat) (imgbuf buf : Mem) (w h j : Int)
    (hw : 1 ≤ w) (hj0 : 0 ≤ j) (hjh : j < h)
    (hrow : ∀ s : Bufs, ((∀ y, buf y < 256) → BufBytes s) →
      (∀ y, j * (w * 4 + 1) ≤ y → s.buf y = buf y) →
      RowVal g 4 (j * (w * 4 + 1) + 1) ((j - 1) * (w * 4 + 1) + 1) w s
        (pngTrueColorAlpha_row w h j s)) :
    ∀ i k : Int, 0 ≤ i → i < w → 0 ≤ k → k < 4 →
      (pngTrueColorAlpha imgbuf buf w h).2.buf (j * (w * 4 + 1) + 1 + i * 4 + k)
        = (buf (j * (w * 4 + 1) + 1 + i * 4 + k)
            + g (leftOf 4 (j * (w * 4 + 1) + 1) i k (pngTrueColorAlpha imgbuf buf w h).2.buf)
                ((pngTrueColorAlpha imgbuf buf w h).2.buf
                  ((j - 1) * (w * 4 + 1) + 1 + i * 4 + k))
                (leftOf 4 ((j - 1) * (w * 4 + 1) + 1) i k
                  (pngTrueColorAlpha imgbuf buf w h).2.buf)) % 256 := by
  obtain ⟨fb, fi⟩ := alpha_row_frame w h hw
  obtain ⟨t1, _, t3, _⟩ := rows_trace (w * 4 + 1) (w * 4) h
    (fun j s => pngTrueColorAlpha_row w h j s) (by omega) (by omega) fb fi ⟨imgbuf, buf⟩ j hj0 hjh
  rw [pngTrueColorAlpha_snd]
  exact rowVal_to_final4 g w j hw buf _ _ _ t1 t3 (fun y hy => fb j _ y (Or.inl hy))
    (hrow _ (fun hb => bytes_forLoop _ _ _ _ hb (fun m t ht => alpha_row_bytes w h m t ht)) t1)

/-- The bytes `pngTrueColor` leaves in scanline `j`, from what one round does to any
state whose `buf` is the initial one from scanline `j` on. -/
theorem rgb_image_val (g : Nat → Nat → Nat → Nat) (imgbuf buf : Mem) (w h j : Int)
    (hw : 1 ≤ w) (hj0 : 0 ≤ j) (hjh : j < h)
    (hrow : ∀ s : Bufs, ((∀ y, buf y < 256) → BufBytes s) →
      (∀ y, j * (w * 3 + 1) ≤ y → s.buf y = buf y) →
      RowVal g 3 (j * (w * 3 + 1) + 1) ((j - 1) * (w * 3 + 1) + 1) w s
        (pngTrueColor_row w h j s)) :
    ∀ i k : Int, 0 ≤ i → i < w → 0 ≤ k → k < 3 →
      (pngTrueColor imgbuf buf w h).2.buf (j * (w * 3 + 1) + 1 + i * 3 + k)
        = (buf (j * (w * 3 + 1) + 1 + i * 3 + k)
            + g (leftOf 3 (j * (w * 3 + 1) + 1) i k (pngTrueColor imgbuf buf w h).2.buf)
                ((pngTrueColor imgbuf buf w h).2.buf
                  ((j - 1) * (w * 3 + 1) + 1 + i * 3 + k))
                (leftOf 3 ((j - 1) * (w * 3 + 1) + 1) i k
                  (pngTrueColor imgbuf buf w h).2.buf)) % 256 := by
  obtain ⟨fb, fi⟩ := rgb_row_frame w h hw
  obtain ⟨t1, _, t3, _⟩ := rows_trace (w * 3 + 1) (w * 4) h
    (fun j s => pngTrueColor_row w h j s) (by omega) (by omega) fb fi ⟨imgbuf, buf⟩ j hj0 hjh
  rw [pngTrueColor_snd]
  exact rowVal_to_final3 g w j hw buf _ _ _ t1 t3 (fun y hy => fb j _ y (Or.inl hy))
    (hrow _ (fun hb => bytes_forLoop _ _ _ _ hb (fun m t ht => rgb_row_bytes w h m t ht)) t1)
theorem getD_bytes (l : List Nat) (hl : ∀ x ∈ l, x < 256) (n : Nat) : l.getD n 0 < 256 := by
  rw [List.getD_eq_getElem?_getD]
  cases h : l[n]? with
  | none => simp
  | some x =>
    simp only [Option.getD_some]
    obtain ⟨hn, hx⟩ := List.getElem?_eq_some_iff.mp h
    exact hl x (hx ▸ List.getElem_mem hn)

theorem pngTrueColorAlpha_bytes (imgbuf buf : Mem) (w h : Int) (hb : ∀ y, buf y < 256) :
    ∀ y, (pngTrueColorAlpha imgbuf buf w h).2.buf y < 256 := by
  rw [pngTrueColorAlpha_snd]
  exact bytes_forLoop _ _ _ _ hb (fun m t ht => alpha_row_bytes w h m t ht)

theorem pngTrueColor_bytes (imgbuf buf : Mem) (w h : Int) (hb : ∀ y, buf y < 256) :
    ∀ y, (pngTrueColor imgbuf buf w h).2.buf y < 256 := by
  rw [pngTrueColor_snd]
  exact bytes_forLoop _ _ _ _ hb (fun m t ht => rgb_row_bytes w h m t ht)

theorem filterAverage_bytes (l u : Nat) (hl : l < 256) (hu : u < 256) :
    filterAverage l u = (l + u) / 2 := by
  unfold filterAverage
  simp only [Nat.mod_eq_of_lt hl, Nat.mod_eq_of_lt hu]
  exact Nat.mod_eq_of_lt (by omega)

/-- The recurrence of the Sub filter, unrolled: the mod-256 sum of the stored bytes
of the channel over pixels `0..n`. -/
theorem sub_sum (b Y k w : Int) (buf fin : Mem)
    (hrec : ∀ i : Int, 0 ≤ i → i < w →
      fin (Y + i * b + k)
        = (buf (Y + i * b + k) + (if i = 0 then 0 else fin (Y + (i - 1) * b + k))) % 256) :
    ∀ n : Nat, (n : Int) < w →
      fin (Y + (n : Int) * b + k)
        = ((List.range (n + 1)).map (fun m : Nat => buf (Y + (m : Int) * b + k))).sum % 256 := by
  intro n
  induction n with
  | zero =>
    intro hn
    have := hrec 0 (le_refl _) (by simpa using hn)
    simpa [List.range_succ] using this
  | succ n ih =>
    intro hn
    have hn1 : (n : Int) < w := by push_cast at hn; omega
    have h1 := hrec ((n : Int) + 1) (by omega) (by push_cast at hn; omega)
    rw [if_neg (by omega)] at h1
    have e : ((n : Int) + 1 - 1) = (n : Int) := by ring
    rw [e, ih hn1] at h1
    rw [List.range_succ, List.map_append, List.sum_append]
    simp only [List.map_cons, List.map_nil, List.sum_cons, List.sum_nil, Nat.add_zero]
    push_cast
    rw [h1]
    omega

theorem alpha_image_sub (imgbuf buf : Mem) (w h j : Int) (hw : 1 ≤ w) (hj0 : 0 ≤ j)
    (hjh : j < h) (hbytes : ∀ y, buf y < 256) (htag : buf (j * (w * 4 + 1)) = 1) :
    ∀ i k : Int, 0 ≤ i → i < w → 0 ≤ k → k < 4 →
      (pngTrueColorAlpha imgbuf buf w h).2.buf (j * (w * 4 + 1) + 1 + i * 4 + k)
        = (buf (j * (w * 4 + 1) + 1 + i * 4 + k)
            + (if i = 0 then 0 else (pngTrueColorAlpha imgbuf buf w h).2.buf (j * (w * 4 + 1) + 1 + (i - 1) * 4 + k))) % 256 :=
  alpha_image_val (fun l _ _ => l) imgbuf buf w h j hw hj0 hjh
    (fun s hs hag => alpha_row_sub w h j s hw (by rw [hag _ (le_refl _)]; exact htag)
      (hs hbytes))

theorem alpha_image_up (imgbuf buf : Mem) (w h j : Int) (hw : 1 ≤ w) (hj0 : 0 ≤ j)
    (hjh : j < h) (htag : buf (j * (w * 4 + 1)) = 2) :
    ∀ i k : Int, 0 ≤ i → i < w → 0 ≤ k → k < 4 →
      (pngTrueColorAlpha imgbuf buf w h).2.buf (j * (w * 4 + 1) + 1 + i * 4 + k)
        = (buf (j * (w * 4 + 1) + 1 + i * 4 + k) + (pngTrueColorAlpha imgbuf buf w h).2.buf ((j - 1) * (w * 4 + 1) + 1 + i * 4 + k)) % 256 :=
  alpha_image_val (fun _ u _ => u) imgbuf buf w h j hw hj0 hjh
    (fun s _ hag => alpha_row_up w h j s hw (by rw [hag _ (le_refl _)]; exact htag))

theorem alpha_image_average (imgbuf buf : Mem) (w h j : Int) (hw : 1 ≤ w) (hj0 : 0 ≤ j)
    (hjh : j < h) (hbytes : ∀ y, buf y < 256) (htag : buf (j * (w * 4 + 1)) = 3) :
    ∀ i k : Int, 0 ≤ i → i < w → 0 ≤ k → k < 4 →
      (pngTrueColorAlpha imgbuf buf w h).2.buf (j * (w * 4 + 1) + 1 + i * 4 + k)
        = (buf (j * (w * 4 + 1) + 1 + i * 4 + k)
            + ((if i = 0 then 0 else (pngTrueColorAlpha imgbuf buf w h).2.buf (j * (w * 4 + 1) + 1 + (i - 1) * 4 + k))
                + (pngTrueColorAlpha imgbuf buf w h).2.buf ((j - 1) * (w * 4 + 1) + 1 + i * 4 + k)) / 2) % 256
      ∧ (if i = 0 then 0 else (pngTrueColorAlpha imgbuf buf w h).2.buf (j * (w * 4 + 1) + 1 + (i - 1) * 4 + k))
          + (pngTrueColorAlpha imgbuf buf w h).2.buf ((j - 1) * (w * 4 + 1) + 1 + i * 4 + k) ≤ 510 := by
  intro i k hi0 hi hk0 hk
  have hfin := pngTrueColorAlpha_bytes imgbuf buf w h hbytes
  have hl : (if i = 0 then 0 else (pngTrueColorAlpha imgbuf buf w h).2.buf (j * (w * 4 + 1) + 1 + (i - 1) * 4 + k)) < 256 := by
    split
    · decide
    · exact hfin _
  have hu := hfin ((j - 1) * (w * 4 + 1) + 1 + i * 4 + k)
  have hv := alpha_image_val (fun l u _ => filterAverage l u) imgbuf buf w h j hw hj0 hjh
    (fun s _ hag => alpha_row_average w h j s hw (by rw [hag _ (le_refl _)]; exact htag))
    i k hi0 hi hk0 hk
  simp only [leftOf] at hv
  rw [filterAverage_bytes _ _ hl hu] at hv
  exact ⟨hv, by omega⟩

theorem alpha_image_paeth (imgbuf buf : Mem) (w h j : Int) (hw : 1 ≤ w) (hj0 : 0 ≤ j)
    (hjh : j < h) (htag : buf (j * (w * 4 + 1)) = 4) :
    ∀ i k : Int, 0 ≤ i → i < w → 0 ≤ k → k < 4 →
      (pngTrueColorAlpha imgbuf buf w h).2.buf (j * (w * 4 + 1) + 1 + i * 4 + k)
        = (buf (j * (w * 4 + 1) + 1 + i * 4 + k)
            + paethPredictor
                (if i = 0 then 0 else (pngTrueColorAlpha imgbuf buf w h).2.buf (j * (w * 4 + 1) + 1 + (i - 1) * 4 + k))
                ((pngTrueColorAlpha imgbuf buf w h).2.buf ((j - 1) * (w * 4 + 1) + 1 + i * 4 + k))
                (if i = 0 then 0 else (pngTrueColorAlpha imgbuf buf w h).2.buf ((j - 1) * (w * 4 + 1) + 1 + (i - 1) * 4 + k))) % 256 :=
  alpha_image_val paethPredictor imgbuf buf w h j hw hj0 hjh
    (fun s _ hag => alpha_row_paeth w h j s hw (by rw [hag _ (le_refl _)]; exact htag))

theorem rgb_image_sub (imgbuf buf : Mem) (w h j : Int) (hw : 1 ≤ w) (hj0 : 0 ≤ j)
    (hjh : j < h) (hbytes : ∀ y, buf y < 256) (htag : buf (j * (w * 3 + 1)) = 1) :
    ∀ i k : Int, 0 ≤ i → i < w → 0 ≤ k → k < 3 →
      (pngTrueColor imgbuf buf w h).2.buf (j * (w * 3 + 1) + 1 + i * 3 + k)
        = (buf (j * (w * 3 + 1) + 1 + i * 3 + k)
            + (if i = 0 then 0 else (pngTrueColor imgbuf buf w h).2.buf (j * (w * 3 + 1) + 1 + (i - 1) * 3 + k))) % 256 :=
  rgb_image_val (fun l _ _ => l) imgbuf buf w h j hw hj0 hjh
    (fun s hs hag => rgb_row_sub w h j s hw (by rw [hag _ (le_refl _)]; exact htag)
      (hs hbytes))

theorem rgb_image_up (imgbuf buf : Mem) (w h j : Int) (hw : 1 ≤ w) (hj0 : 0 ≤ j)
    (hjh : j < h) (htag : buf (j * (w * 3 + 1)) = 2) :
    ∀ i k : Int, 0 ≤ i → i < w → 0 ≤ k → k < 3 →
      (pngTrueColor imgbuf buf w h).2.buf (j * (w * 3 + 1) + 1 + i * 3 + k)
        = (buf (j * (w * 3 + 1) + 1 + i * 3 + k) + (pngTrueColor imgbuf buf w h).2.buf ((j - 1) * (w * 3 + 1) + 1 + i * 3 + k)) % 256 :=
  rgb_image_val (fun _ u _ => u) imgbuf buf w h j hw hj0 hjh
    (fun s _ hag => rgb_row_up w h j s hw (by rw [hag _ (le_refl _)]; exact htag))

theorem rgb_image_average (imgbuf buf : Mem) (w h j : Int) (hw : 1 ≤ w) (hj0 : 0 ≤ j)
    (hjh : j < h) (hbytes : ∀ y, buf y < 256) (htag : buf (j * (w * 3 + 1)) = 3) :
    ∀ i k : Int, 0 ≤ i → i < w → 0 ≤ k → k < 3 →
      (pngTrueColor imgbuf buf w h).2.buf (j * (w * 3 + 1) + 1 + i * 3 + k)
        = (buf (j * (w * 3 + 1) + 1 + i * 3 + k)
            + ((if i = 0 then 0 else (pngTrueColor imgbuf buf w h).2.buf (j * (w * 3 + 1) + 1 + (i - 1) * 3 + k))
                + (pngTrueColor imgbuf buf w h).2.buf ((j - 1) * (w * 3 + 1) + 1 + i * 3 + k)) / 2) % 256
      ∧ (if i = 0 then 0 else (pngTrueColor imgbuf buf w h).2.buf (j * (w * 3 + 1) + 1 + (i - 1) * 3 + k))
          + (pngTrueColor imgbuf buf w h).2.buf ((j - 1) * (w * 3 + 1) + 1 + i * 3 + k) ≤ 510 := by
  intro i k hi0 hi hk0 hk
  have hfin := pngTrueColor_bytes imgbuf buf w h hbytes
  have hl : (if i = 0 then 0 else (pngTrueColor imgbuf buf w h).2.buf (j * (w * 3 + 1) + 1 + (i - 1) * 3 + k)) < 256 := by
    split
    · decide
    · exact hfin _
  have hu := hfin ((j - 1) * (w * 3 + 1) + 1 + i * 3 + k)
  have hv := rgb_image_val (fun l u _ => filterAverage l u) imgbuf buf w h j hw hj0 hjh
    (fun s _ hag => rgb_row_average w h j s hw (by rw [hag _ (le_refl _)]; exact htag))
    i k hi0 hi hk0 hk
  simp only [leftOf] at hv
  rw [filterAverage_bytes _ _ hl hu] at hv
  exact ⟨hv, by omega⟩

theorem rgb_image_paeth (imgbuf buf : Mem) (w h j : Int) (hw : 1 ≤ w) (hj0 : 0 ≤ j)
    (hjh : j < h) (htag : buf (j * (w * 3 + 1)) = 4) :
    ∀ i k : Int, 0 ≤ i → i < w → 0 ≤ k → k < 3 →
      (pngTrueColor imgbuf buf w h).2.buf (j * (w * 3 + 1) + 1 + i * 3 + k)
        = (buf (j * (w * 3 + 1) + 1 + i * 3 + k)
            + paethPredictor
                (if i = 0 then 0 else (pngTrueColor imgbuf buf w h).2.buf (j * (w * 3 + 1) + 1 + (i - 1) * 3 + k))
                ((pngTrueColor imgbuf buf w h).2.buf ((j - 1) * (w * 3 + 1) + 1 + i * 3 + k))
                (if i = 0 then 0 else (pngTrueColor imgbuf buf w h).2.buf ((j - 1) * (w * 3 + 1) + 1 + (i - 1) * 3 + k))) % 256 :=
  rgb_image_val paethPredictor imgbuf buf w h j hw hj0 hjh
    (fun s _ hag => rgb_row_paeth w h j s hw (by rw [hag _ (le_refl _)]; exact htag))
theorem memOf_bytes (l : List Nat) (hl : ∀ x ∈ l, x < 256) : ∀ y, memOf l y < 256 :=
  fun y => getD_bytes l hl y.toNat

/-- Claim C11. Sub filter, for both pixel sizes, every `w ≥ 1` and every scanline `j`
of the image (row 0 included) whose tag byte is 1: after `pngTrueColorAlpha`
(`pngTrueColor`) the byte of channel `k` of pixel `i` in the scanline buffer is the
stored byte plus the reconstructed byte of channel `k` of pixel `i - 1` of the same
row, modulo 256, with 0 for the left neighbour of pixel 0; equivalently it is the
mod-256 sum of the stored bytes of that channel over pixels `0 .. i`. The value is
the content of the scanline buffer itself (written back in place). -/
theorem C11_sub_filter (imgbuf buf : Mem) (w h j : Int) (hw : 1 ≤ w) (hj0 : 0 ≤ j)
    (hjh : j < h) (hbytes : ∀ y, buf y < 256) :
    (buf (j * (w * 4 + 1)) = 1 →
      ∀ i k : Int, 0 ≤ i → i < w → 0 ≤ k → k < 4 →
        (pngTrueColorAlpha imgbuf buf w h).2.buf (j * (w * 4 + 1) + 1 + i * 4 + k)
            = (buf (j * (w * 4 + 1) + 1 + i * 4 + k)
                + (if i = 0 then 0 else (pngTrueColorAlpha imgbuf buf w h).2.buf (j * (w * 4 + 1) + 1 + (i - 1) * 4 + k))) % 256
          ∧ (pngTrueColorAlpha imgbuf buf w h).2.buf (j * (w * 4 + 1) + 1 + i * 4 + k)
            = ((List.range (i.toNat + 1)).map
                (fun m : Nat => buf (j * (w * 4 + 1) + 1 + (m : Int) * 4 + k))).sum % 256)
    ∧ (buf (j * (w * 3 + 1)) = 1 →
      ∀ i k : Int, 0 ≤ i → i < w → 0 ≤ k → k < 3 →
        (pngTrueColor imgbuf buf w h).2.buf (j * (w * 3 + 1) + 1 + i * 3 + k)
            = (buf (j * (w * 3 + 1) + 1 + i * 3 + k)
                + (if i = 0 then 0 else (pngTrueColor imgbuf buf w h).2.buf (j * (w * 3 + 1) + 1 + (i - 1) * 3 + k))) % 256
          ∧ (pngTrueColor imgbuf buf w h).2.buf (j * (w * 3 + 1) + 1 + i * 3 + k)
            = ((List.range (i.toNat + 1)).map
                (fun m : Nat => buf (j * (w * 3 + 1) + 1 + (m : Int) * 3 + k))).sum % 256) := by
  constructor
  · intro htag i k hi0 hi hk0 hk
    refine ⟨alpha_image_sub imgbuf buf w h j hw hj0 hjh hbytes htag i k hi0 hi hk0 hk, ?_⟩
    have hs := sub_sum 4 (j * (w * 4 + 1) + 1) k w buf _
      (fun i hi0 hi => alpha_image_sub imgbuf buf w h j hw hj0 hjh hbytes htag i k hi0 hi hk0 hk)
      i.toNat (by omega)
    rw [Int.toNat_of_nonneg hi0] at hs
    exact hs
  · intro htag i k hi0 hi hk0 hk
    refine ⟨rgb_image_sub imgbuf buf w h j hw hj0 hjh hbytes htag i k hi0 hi hk0 hk, ?_⟩
    have hs := sub_sum 3 (j * (w * 3 + 1) + 1) k w buf _
      (fun i hi0 hi => rgb_image_sub imgbuf buf w h j hw hj0 hjh hbytes htag i k hi0 hi hk0 hk)
      i.toNat (by omega)
    rw [Int.toNat_of_nonneg hi0] at hs
    exact hs

/-- A 2-wide, 1-high RGB image whose only scanline `1, 10, 20, 30, 1, 2, 3` is tagged
Sub: channel 0 of pixel 1 becomes `1 + 10`. -/
theorem C11_witness :
    (pngTrueColor (fun _ => 0) (memOf [1, 10, 20, 30, 1, 2, 3]) 2 1).2.buf
        (0 * (2 * 3 + 1) + 1 + 1 * 3 + 0)
      = (memOf [1, 10, 20, 30, 1, 2, 3] (0 * (2 * 3 + 1) + 1 + 1 * 3 + 0)
          + (if (1 : Int) = 0 then 0
              else (pngTrueColor (fun _ => 0) (memOf [1, 10, 20, 30, 1, 2, 3]) 2 1).2.buf
                (0 * (2 * 3 + 1) + 1 + (1 - 1) * 3 + 0))) % 256
      ∧ (pngTrueColor (fun _ => 0) (memOf [1, 10, 20, 30, 1, 2, 3]) 2 1).2.buf
        (0 * (2 * 3 + 1) + 1 + 1 * 3 + 0)
      = ((List.range ((1 : Int).toNat + 1)).map
          (fun m : Nat => memOf [1, 10, 20, 30, 1, 2, 3]
            (0 * (2 * 3 + 1) + 1 + (m : Int) * 3 + 0))).sum % 256 :=
  (C11_sub_filter (fun _ => 0) (memOf [1, 10, 20, 30, 1, 2, 3]) 2 1 0 (by decide) (by decide)
    (by decide) (memOf_bytes _ (by decide))).2 (by decide) 1 0 (by decide) (by decide)
    (by decide) (by decide)

/-- Claim C12. Up filter, for both pixel sizes, every `w ≥ 1` and every scanline
`j ≥ 1` of the image whose tag byte is 2: after `pngTrueColorAlpha` (`pngTrueColor`)
each byte of the row is the stored byte plus the byte at the same channel and pixel
of scanline `j - 1` as the function leaves it (its reconstructed value, not the
stored one), modulo 256. -/
theorem C12_up_filter (imgbuf buf : Mem) (w h j : Int) (hw : 1 ≤ w) (hj1 : 1 ≤ j)
    (hjh : j < h) :
    (buf (j * (w * 4 + 1)) = 2 →
      ∀ i k : Int, 0 ≤ i → i < w → 0 ≤ k → k < 4 →
        (pngTrueColorAlpha imgbuf buf w h).2.buf (j * (w * 4 + 1) + 1 + i * 4 + k)
          = (buf (j * (w * 4 + 1) + 1 + i * 4 + k) + (pngTrueColorAlpha imgbuf buf w h).2.buf ((j - 1) * (w * 4 + 1) + 1 + i * 4 + k)) % 256)
    ∧ (buf (j * (w * 3 + 1)) = 2 →
      ∀ i k : Int, 0 ≤ i → i < w → 0 ≤ k → k < 3 →
        (pngTrueColor imgbuf buf w h).2.buf (j * (w * 3 + 1) + 1 + i * 3 + k)
          = (buf (j * (w * 3 + 1) + 1 + i * 3 + k) + (pngTrueColor imgbuf buf w h).2.buf ((j - 1) * (w * 3 + 1) + 1 + i * 3 + k)) % 256) :=
  ⟨fun htag => alpha_image_up imgbuf buf w h j hw (by omega) hjh htag,
   fun htag => rgb_image_up imgbuf buf w h j hw (by omega) hjh htag⟩

/-- A 1-wide, 2-high RGBA image: row 0 `1, 10, 20, 30, 40` (Sub), row 1
`2, 1, 2, 3, 4` (Up). -/
theorem C12_witness :
    (pngTrueColorAlpha (fun _ => 0) (memOf [1, 10, 20, 30, 40, 2, 1, 2, 3, 4]) 1 2).2.buf
        (1 * (1 * 4 + 1) + 1 + 0 * 4 + 2)
      = (memOf [1, 10, 20, 30, 40, 2, 1, 2, 3, 4] (1 * (1 * 4 + 1) + 1 + 0 * 4 + 2)
          + (pngTrueColorAlpha (fun _ => 0) (memOf [1, 10, 20, 30, 40, 2, 1, 2, 3, 4]) 1 2).2.buf
              ((1 - 1) * (1 * 4 + 1) + 1 + 0 * 4 + 2)) % 256 :=
  (C12_up_filter (fun _ => 0) (memOf [1, 10, 20, 30, 40, 2, 1, 2, 3, 4]) 1 2 1 (by decide)
    (by decide) (by decide)).1 (by decide) 0 2 (by decide) (by decide) (by decide) (by decide)

/-- Claim C13. Average filter, for both pixel sizes, every `w ≥ 1` and every scanline
`j ≥ 1` of the image whose tag byte is 3: after `pngTrueColorAlpha` (`pngTrueColor`)
each byte of the row is `(stored + (left + up) / 2) mod 256`, where `left` is the
reconstructed byte of the same channel of the previous pixel of the row (0 for
pixel 0), `up` the reconstructed byte at the same position of scanline `j - 1`, and
`left + up` is the sum of natural numbers (at most 510), halved with no 8-bit
wraparound. -/
theorem C13_average_filter (imgbuf buf : Mem) (w h j : Int) (hw : 1 ≤ w) (hj1 : 1 ≤ j)
    (hjh : j < h) (hbytes : ∀ y, buf y < 256) :
    (buf (j * (w * 4 + 1)) = 3 →
      ∀ i k : Int, 0 ≤ i → i < w → 0 ≤ k → k < 4 →
        (pngTrueColorAlpha imgbuf buf w h).2.buf (j * (w * 4 + 1) + 1 + i * 4 + k)
            = (buf (j * (w * 4 + 1) + 1 + i * 4 + k)
                + ((if i = 0 then 0 else (pngTrueColorAlpha imgbuf buf w h).2.buf (j * (w * 4 + 1) + 1 + (i - 1) * 4 + k))
                    + (pngTrueColorAlpha imgbuf buf w h).2.buf ((j - 1) * (w * 4 + 1) + 1 + i * 4 + k)) / 2) % 256
          ∧ (if i = 0 then 0 else (pngTrueColorAlpha imgbuf buf w h).2.buf (j * (w * 4 + 1) + 1 + (i - 1) * 4 + k))
              + (pngTrueColorAlpha imgbuf buf w h).2.buf ((j - 1) * (w * 4 + 1) + 1 + i * 4 + k) ≤ 510)
    ∧ (buf (j * (w * 3 + 1)) = 3 →
      ∀ i k : Int, 0 ≤ i → i < w → 0 ≤ k → k < 3 →
        (pngTrueColor imgbuf buf w h).2.buf (j * (w * 3 + 1) + 1 + i * 3 + k)
            = (buf (j * (w * 3 + 1) + 1 + i * 3 + k)
                + ((if i = 0 then 0 else (pngTrueColor imgbuf buf w h).2.buf (j * (w * 3 + 1) + 1 + (i - 1) * 3 + k))
                    + (pngTrueColor imgbuf buf w h).2.buf ((j - 1) * (w * 3 + 1) + 1 + i * 3 + k)) / 2) % 256
          ∧ (if i = 0 then 0 else (pngTrueColor imgbuf buf w h).2.buf (j * (w * 3 + 1) + 1 + (i - 1) * 3 + k))
              + (pngTrueColor imgbuf buf w h).2.buf ((j - 1) * (w * 3 + 1) + 1 + i * 3 + k) ≤ 510) :=
  ⟨fun htag => alpha_image_average imgbuf buf w h j hw (by omega) hjh hbytes htag,
   fun htag => rgb_image_average imgbuf buf w h j hw (by omega) hjh hbytes htag⟩

/-- A 2-wide, 2-high RGB image: row 0 `0, 200, 20, 30, 250, 50, 60` (None), row 1
`3, 1, 2, 3, 4, 5, 6` (Average); for channel 0 of pixel 1, `left + up = 101 + 250`
exceeds 255. -/
theorem C13_witness :
    (pngTrueColor (fun _ => 0) (memOf [0, 200, 20, 30, 250, 50, 60, 3, 1, 2, 3, 4, 5, 6]) 2 2).2.buf
        (1 * (2 * 3 + 1) + 1 + 1 * 3 + 0)
      = (memOf [0, 200, 20, 30, 250, 50, 60, 3, 1, 2, 3, 4, 5, 6]
            (1 * (2 * 3 + 1) + 1 + 1 * 3 + 0)
          + ((if (1 : Int) = 0 then 0
              else (pngTrueColor (fun _ => 0)
                (memOf [0, 200, 20, 30, 250, 50, 60, 3, 1, 2, 3, 4, 5, 6]) 2 2).2.buf
                  (1 * (2 * 3 + 1) + 1 + (1 - 1) * 3 + 0))
              + (pngTrueColor (fun _ => 0)
                (memOf [0, 200, 20, 30, 250, 50, 60, 3, 1, 2, 3, 4, 5, 6]) 2 2).2.buf
                  ((1 - 1) * (2 * 3 + 1) + 1 + 1 * 3 + 0)) / 2) % 256
      ∧ (if (1 : Int) = 0 then 0
          else (pngTrueColor (fun _ => 0)
            (memOf [0, 200, 20, 30, 250, 50, 60, 3, 1, 2, 3, 4, 5, 6]) 2 2).2.buf
              (1 * (2 * 3 + 1) + 1 + (1 - 1) * 3 + 0))
          + (pngTrueColor (fun _ => 0)
            (memOf [0, 200, 20, 30, 250, 50, 60, 3, 1, 2, 3, 4, 5, 6]) 2 2).2.buf
              ((1 - 1) * (2 * 3 + 1) + 1 + 1 * 3 + 0) ≤ 510 :=
  (C13_average_filter (fun _ => 0) (memOf [0, 200, 20, 30, 250, 50, 60, 3, 1, 2, 3, 4, 5, 6])
    2 2 1 (by decide) (by decide) (by decide) (memOf_bytes _ (by decide))).2 (by decide) 1 0
    (by decide) (by decide) (by decide) (by decide)

/-- Claim C14. Paeth filter, for both pixel sizes, every `w ≥ 1` and every scanline
`j ≥ 1` of the image whose tag byte is 4: after `pngTrueColorAlpha` (`pngTrueColor`)
each byte of the row is `(stored + paethPredictor left up upleft) mod 256`, where
`left` is the reconstructed byte of the same channel of pixel `i - 1` of row `j`,
`up` the reconstructed byte at the same position of row `j - 1`, `upleft` the
reconstructed byte of the same channel of pixel `i - 1` of row `j - 1`, and
`left = upleft = 0` for pixel 0. -/
theorem C14_paeth_filter (imgbuf buf : Mem) (w h j : Int) (hw : 1 ≤ w) (hj1 : 1 ≤ j)
    (hjh : j < h) :
    (buf (j * (w * 4 + 1)) = 4 →
      ∀ i k : Int, 0 ≤ i → i < w → 0 ≤ k → k < 4 →
        (pngTrueColorAlpha imgbuf buf w h).2.buf (j * (w * 4 + 1) + 1 + i * 4 + k)
          = (buf (j * (w * 4 + 1) + 1 + i * 4 + k)
              + paethPredictor
                  (if i = 0 then 0 else (pngTrueColorAlpha imgbuf buf w h).2.buf (j * (w * 4 + 1) + 1 + (i - 1) * 4 + k))
                  ((pngTrueColorAlpha imgbuf buf w h).2.buf ((j - 1) * (w * 4 + 1) + 1 + i * 4 + k))
                  (if i = 0 then 0 else (pngTrueColorAlpha imgbuf buf w h).2.buf ((j - 1) * (w * 4 + 1) + 1 + (i - 1) * 4 + k))) % 256)
    ∧ (buf (j * (w * 3 + 1)) = 4 →
      ∀ i k : Int, 0 ≤ i → i < w → 0 ≤ k → k < 3 →
        (pngTrueColor imgbuf buf w h).2.buf (j * (w * 3 + 1) + 1 + i * 3 + k)
          = (buf (j * (w * 3 + 1) + 1 + i * 3 + k)
              + paethPredictor
                  (if i = 0 then 0 else (pngTrueColor imgbuf buf w h).2.buf (j * (w * 3 + 1) + 1 + (i - 1) * 3 + k))
                  ((pngTrueColor imgbuf buf w h).2.buf ((j - 1) * (w * 3 + 1) + 1 + i * 3 + k))
                  (if i = 0 then 0 else (pngTrueColor imgbuf buf w h).2.buf ((j - 1) * (w * 3 + 1) + 1 + (i - 1) * 3 + k))) % 256) :=
  ⟨fun htag => alpha_image_paeth imgbuf buf w h j hw (by omega) hjh htag,
   fun htag => rgb_image_paeth imgbuf buf w h j hw (by omega) hjh htag⟩

/-- A 2-wide, 2-high RGB image: row 0 `0, 200, 20, 30, 250, 50, 60` (None), row 1
`4, 1, 2, 3, 4, 5, 6` (Paeth). -/
theorem C14_witness :
    (pngTrueColor (fun _ => 0) (memOf [0, 200, 20, 30, 250, 50, 60, 4, 1, 2, 3, 4, 5, 6]) 2 2).2.buf
        (1 * (2 * 3 + 1) + 1 + 1 * 3 + 0)
      = (memOf [0, 200, 20, 30, 250, 50, 60, 4, 1, 2, 3, 4, 5, 6]
            (1 * (2 * 3 + 1) + 1 + 1 * 3 + 0)
          + paethPredictor
              (if (1 : Int) = 0 then 0
                else (pngTrueColor (fun _ => 0)
                  (memOf [0, 200, 20, 30, 250, 50, 60, 4, 1, 2, 3, 4, 5, 6]) 2 2).2.buf
                    (1 * (2 * 3 + 1) + 1 + (1 - 1) * 3 + 0))
              ((pngTrueColor (fun _ => 0)
                (memOf [0, 200, 20, 30, 250, 50, 60, 4, 1, 2, 3, 4, 5, 6]) 2 2).2.buf
                  ((1 - 1) * (2 * 3 + 1) + 1 + 1 * 3 + 0))
              (if (1 : Int) = 0 then 0
                else (pngTrueColor (fun _ => 0)
                  (memOf [0, 200, 20, 30, 250, 50, 60, 4, 1, 2, 3, 4, 5, 6]) 2 2).2.buf
                    ((1 - 1) * (2 * 3 + 1) + 1 + (1 - 1) * 3 + 0))) % 256 :=
  (C14_paeth_filter (fun _ => 0) (memOf [0, 200, 20, 30, 250, 50, 60, 4, 1, 2, 3, 4, 5, 6])
    2 2 1 (by decide) (by decide) (by decide)).2 (by decide) 1 0
    (by decide) (by decide) (by decide) (by decide)
/-- A scanline whose tag byte is above 4: `pngTrueColorAlpha` leaves the bytes of the
scanline and the output row `h-1-j` as they were. -/
theorem alpha_image_badtag (imgbuf buf : Mem) (w h j : Int) (hw : 1 ≤ w) (hj0 : 0 ≤ j)
    (hjh : j < h) (htag : 4 < buf (j * (w * 4 + 1))) :
    (∀ y, j * (w * 4 + 1) ≤ y → y < j * (w * 4 + 1) + (w * 4 + 1) →
        (pngTrueColorAlpha imgbuf buf w h).2.buf y = buf y)
    ∧ (∀ x, (h-1-j) * (w * 4) ≤ x → x < (h-1-j) * (w * 4) + w * 4 →
        (pngTrueColorAlpha imgbuf buf w h).2.imgbuf x = imgbuf x) := by
  obtain ⟨fb, fi⟩ := alpha_row_frame w h hw
  obtain ⟨t1, t2, t3, t4⟩ := rows_trace (w * 4 + 1) (w * 4) h
    (fun j s => pngTrueColorAlpha_row w h j s) (by omega) (by omega) fb fi ⟨imgbuf, buf⟩ j hj0 hjh
  have hrow := alpha_row_badtag w h j
    (forLoop 0 j (fun j s => pngTrueColorAlpha_row w h j s) ⟨imgbuf, buf⟩)
    (by rw [t1 _ (le_refl _)]; exact htag)
  rw [pngTrueColorAlpha_snd]
  simp only [hrow] at t3 t4
  exact ⟨fun y h1 h2 => by rw [t3 y h2, t1 y h1], fun x h1 h2 => by rw [t4 x h1, t2 x h2]⟩

/-- A scanline whose tag byte is above 4: `pngTrueColor` leaves the bytes of the
scanline and the output row `h-1-j` as they were. -/
theorem rgb_image_badtag (imgbuf buf : Mem) (w h j : Int) (hw : 1 ≤ w) (hj0 : 0 ≤ j)
    (hjh : j < h) (htag : 4 < buf (j * (w * 3 + 1))) :
    (∀ y, j * (w * 3 + 1) ≤ y → y < j * (w * 3 + 1) + (w * 3 + 1) →
        (pngTrueColor imgbuf buf w h).2.buf y = buf y)
    ∧ (∀ x, (h-1-j) * (w * 4) ≤ x → x < (h-1-j) * (w * 4) + w * 4 →
        (pngTrueColor imgbuf buf w h).2.imgbuf x = imgbuf x) := by
  obtain ⟨fb, fi⟩ := rgb_row_frame w h hw
  obtain ⟨t1, t2, t3, t4⟩ := rows_trace (w * 3 + 1) (w * 4) h
    (fun j s => pngTrueColor_row w h j s) (by omega) (by omega) fb fi ⟨imgbuf, buf⟩ j hj0 hjh
  have hrow := rgb_row_badtag w h j
    (forLoop 0 j (fun j s => pngTrueColor_row w h j s) ⟨imgbuf, buf⟩)
    (by rw [t1 _ (le_refl _)]; exact htag)
  rw [pngTrueColor_snd]
  simp only [hrow] at t3 t4
  exact ⟨fun y h1 h2 => by rw [t3 y h2, t1 y h1], fun x h1 h2 => by rw [t4 x h1, t2 x h2]⟩

/-- The bytes of output row `h-1-j` in the raster `getFromPNG` returns are 0 when the
tag byte of scanline `j` of the decompressed buffer is above 4. -/
theorem getFromPNG_pixels_badtag (heap : Int → Nat) (out : List Nat) (w h j bpp : Int)
    (hw : 1 ≤ w) (hj0 : 0 ≤ j) (hjh : j < h) (hbpp : bpp = 4 ∨ bpp = 3)
    (htag : 4 < getFromPNG_buf heap ((w * bpp + 1) * h) out (j * (w * bpp + 1)))
    (x : Nat) (hx1 : (h-1-j) * (w * 4) ≤ (x : Int)) (hx2 : (x : Int) < (h-1-j) * (w * 4) + w * 4) :
    (getFromPNG_pixels heap w h bpp out)[x]? = some 0 := by
  have hlen : x < (w * h * 4).toNat := by
    have : 0 ≤ j * (w * 4) := by positivity
    have e : (h-1-j) * (w * 4) + w * 4 = w * h * 4 - j * (w * 4) := by ring
    omega
  unfold getFromPNG_pixels
  simp only []
  rw [List.getElem?_map, List.getElem?_range hlen]
  simp only [Option.map_some']
  congr 1
  rcases hbpp with rfl | rfl
  · rw [if_pos rfl]
    exact (alpha_image_badtag _ _ w h j hw hj0 hjh htag).2 _ hx1 hx2
  · rw [if_neg (by decide), if_pos rfl]
    exact (rgb_image_badtag _ _ w h j hw hj0 hjh htag).2 _ hx1 hx2
/-- Claim C20. For both pixel sizes, every `w ≥ 1` and every scanline `j` of the image
whose tag byte is outside `0..4`: `pngTrueColorAlpha` and `pngTrueColor` still return
0, every byte of scanline `j` (tag included) is left as it was, and no byte of output
row `h-1-j` is written; so in the raster `getFromPNG` builds from the zero-filled
`imgbuf` all `w * 4` bytes of that row are 0 (alpha included, also for RGB input). -/
theorem C20_bad_tag_accepted (imgbuf buf : Mem) (heap : Int → Nat) (out : List Nat)
    (w h j : Int) (hw : 1 ≤ w) (hj0 : 0 ≤ j) (hjh : j < h) :
    (4 < buf (j * (w * 4 + 1)) →
      (pngTrueColorAlpha imgbuf buf w h).1 = 0
      ∧ (∀ y, j * (w * 4 + 1) ≤ y → y < j * (w * 4 + 1) + (w * 4 + 1) →
          (pngTrueColorAlpha imgbuf buf w h).2.buf y = buf y)
      ∧ (∀ x, (h-1-j) * (w * 4) ≤ x → x < (h-1-j) * (w * 4) + w * 4 →
          (pngTrueColorAlpha imgbuf buf w h).2.imgbuf x = imgbuf x))
    ∧ (4 < buf (j * (w * 3 + 1)) →
      (pngTrueColor imgbuf buf w h).1 = 0
      ∧ (∀ y, j * (w * 3 + 1) ≤ y → y < j * (w * 3 + 1) + (w * 3 + 1) →
          (pngTrueColor imgbuf buf w h).2.buf y = buf y)
      ∧ (∀ x, (h-1-j) * (w * 4) ≤ x → x < (h-1-j) * (w * 4) + w * 4 →
          (pngTrueColor imgbuf buf w h).2.imgbuf x = imgbuf x))
    ∧ (∀ bpp : Int, bpp = 4 ∨ bpp = 3 →
      4 < getFromPNG_buf heap ((w * bpp + 1) * h) out (j * (w * bpp + 1)) →
      ∀ x : Nat, (h-1-j) * (w * 4) ≤ (x : Int) → (x : Int) < (h-1-j) * (w * 4) + w * 4 →
        (getFromPNG_pixels heap w h bpp out)[x]? = some 0) :=
  ⟨fun htag => ⟨rfl, alpha_image_badtag imgbuf buf w h j hw hj0 hjh htag⟩,
   fun htag => ⟨rfl, rgb_image_badtag imgbuf buf w h j hw hj0 hjh htag⟩,
   fun bpp hbpp htag x hx1 hx2 =>
     getFromPNG_pixels_badtag heap out w h j bpp hw hj0 hjh hbpp htag x hx1 hx2⟩

/-- A 1×1 RGB image whose scanline `9, 10, 20, 30` carries the tag 9: the alpha byte
of the pixel `getFromPNG` returns is 0. -/
theorem C20_witness :
    (getFromPNG_pixels (fun _ => 0) 1 1 3 [9, 10, 20, 30])[3]? = some 0 :=
  (C20_bad_tag_accepted (fun _ => 0) (fun _ => 0) (fun _ => 0) [9, 10, 20, 30] 1 1 0
    (by decide) (by decide) (by decide)).2.2 3 (Or.inr rfl) (by decide) 3 (by decide) (by decide)
/-! ### Raw chunk headers -/

/-- One round of the scan loop on a chunk header `be32 l ++ ty`, whatever follows. -/
theorem scan_header (name ty : List Nat) (fuel : Nat) (f : FILE) (pre tail : List Nat)
    (l : Nat) (hl : l < 2 ^ 32)
    (hdata : f.data = pre ++ be32 l ++ ty ++ tail) (hpos : f.pos = pre.length)
    (hty : ty.length = 4) :
    read_pngsection_scan name (fuel + 1) f =
      if strcmp_eq (ty ++ [0]) name then (some l, ⟨f.data, pre.length + 8⟩)
      else read_pngsection_scan name fuel ⟨f.data, pre.length + 8 + (l + 4) % 2 ^ 32⟩ := by
  have h1 := fread_at f pre (be32 l) (ty ++ tail) 4 1
      (by rw [hdata]; simp only [List.append_assoc]) hpos (by simp [be32_length]) (by decide)
  have h2 := fread_at ⟨f.data, pre.length + (be32 l).length⟩
      (pre ++ be32 l) ty tail 1 4
      (by simp only [hdata]) (by simp) (by simp [hty]) (by decide)
  rw [read_pngsection_scan]
  simp only [h1, h2, ntohl_be32 _ hl]
  simp only [List.length_append, be32_length, hty, Nat.lt_irrefl, if_false, fseek_cur,
    Nat.add_assoc]
  have e1 : pre.length + (4 + 4) = pre.length + 8 := by omega
  have e2 : pre.length + (4 + (4 + (l + 4) % 2 ^ 32)) = pre.length + (8 + (l + 4) % 2 ^ 32) := by
    omega
  rw [e1, e2]

/-- A chunk of the wanted type that declares `l` payload bytes of which only
`part.length < l` are in the stream: `read_pngsection` returns 1 with `*length = l`
and a block of `l` bytes, the bytes read followed by what the block held before. -/
theorem read_pngsection_truncated (junk : Nat → Nat) (name : List Nat)
    (hname : name.length = 4) (hnz : ∀ b ∈ name, b ≠ 0)
    (pre part : List Nat) (l : Nat) (hl : l < 2 ^ 32) (hpart : part.length < l) :
    read_pngsection junk ⟨pre ++ be32 l ++ name ++ part, pre.length⟩ name =
      { ret := 1
        data := some (part ++ (List.range (l - part.length)).map
                  (fun k => junk (part.length + k) % 256))
        length := l
        f := ⟨pre ++ be32 l ++ name ++ part, pre.length + 8 + part.length⟩ } := by
  unfold read_pngsection
  rw [scan_header name name _ ⟨pre ++ be32 l ++ name ++ part, pre.length⟩ pre part l hl rfl rfl
    hname]
  have hs : strcmp_eq (name ++ [0]) name = true := by
    rw [strcmp_eq_type name name hname hname hnz]; simp
  simp only [hs, if_true]
  have h1 : fread 1 l ⟨pre ++ be32 l ++ name ++ part, pre.length + 8⟩
      = (part, part.length, ⟨pre ++ be32 l ++ name ++ part, pre.length + 8 + part.length⟩) := by
    unfold fread
    have hd : (pre ++ be32 l ++ name ++ part).drop (pre.length + 8) = part := by
      have : pre.length + 8 = (pre ++ be32 l ++ name).length := by
        simp [be32_length, hname]
      rw [this, List.drop_left]
    simp only [hd, Nat.one_mul, Nat.div_one]
    rw [List.take_of_length_le (by omega)]
  have h2 : fread 4 1 ⟨pre ++ be32 l ++ name ++ part, pre.length + 8 + part.length⟩
      = ([], 0, ⟨pre ++ be32 l ++ name ++ part, pre.length + 8 + part.length⟩) := by
    unfold fread
    have hd : (pre ++ be32 l ++ name ++ part).drop (pre.length + 8 + part.length) = [] := by
      apply List.drop_eq_nil_of_le
      simp [be32_length, hname]
      omega
    simp only [hd, List.take_nil, List.length_nil, Nat.zero_div, Nat.add_zero]
  simp only [h1, h2]
set_option maxRecDepth 1000000 in
/-- Loading a 1×1 RGBA file cut off inside its IDAT payload (5 of the 11 declared
bytes of the example codec's stream `1,0, 1,10, 1,20, 1,30, 1,40, 0` are present)
when the fresh block `read_pngsection` allocates happens to hold the missing bytes. -/
theorem getFromPNG_truncated_idat_eval :
    getFromPNG toyZlib 1 (fun k => [0, 0, 0, 0, 0, 20, 1, 30, 1, 40, 0].getD k 0) (fun _ => 0)
      (some (pngSignature ++ chunkSpec IHDR (be32 1 ++ be32 1 ++ [8, 6, 0, 0, 0])
        ++ be32 11 ++ IDAT ++ [1, 0, 1, 10, 1]))
      = some ⟨1, 1, some [10, 20, 30, 40]⟩ := by
  decide

/-- Claim C19 (the code on truncated chunks). When the next chunk has the wanted type
and declares `l` payload bytes of which only `part.length < l` remain in the stream,
`read_pngsection` does not report not-found: the return values of the two `fread`
calls for the payload and the CRC are not looked at, so it returns 1 with
`*length = l` and `*data` a block of `l` bytes made of the bytes read followed by the
uninitialised rest of the block. `getFromPNG` hands all `l` bytes to the codec: for a
1×1 file cut off inside its IDAT payload it returns the raster `10, 20, 30, 40` when
the unread part of the block holds the missing bytes. -/
theorem C19_truncated_chunk_returned (junk : Nat → Nat) (name : List Nat)
    (hname : name.length = 4) (hnz : ∀ b ∈ name, b ≠ 0)
    (pre part : List Nat) (l : Nat) (hl : l < 2 ^ 32) (hpart : part.length < l) :
    (read_pngsection junk ⟨pre ++ be32 l ++ name ++ part, pre.length⟩ name).ret = 1
    ∧ (read_pngsection junk ⟨pre ++ be32 l ++ name ++ part, pre.length⟩ name).length = l
    ∧ (read_pngsection junk ⟨pre ++ be32 l ++ name ++ part, pre.length⟩ name).data
        = some (part ++ (List.range (l - part.length)).map
            (fun k => junk (part.length + k) % 256))
    ∧ getFromPNG toyZlib 1 (fun k => [0, 0, 0, 0, 0, 20, 1, 30, 1, 40, 0].getD k 0)
        (fun _ => 0)
        (some (pngSignature ++ chunkSpec IHDR (be32 1 ++ be32 1 ++ [8, 6, 0, 0, 0])
          ++ be32 11 ++ IDAT ++ [1, 0, 1, 10, 1]))
        = some ⟨1, 1, some [10, 20, 30, 40]⟩ := by
  rw [read_pngsection_truncated junk name hname hnz pre part l hl hpart]
  exact ⟨rfl, rfl, rfl, getFromPNG_truncated_idat_eval⟩

/-- The stream `00 00 00 0A 'I' 'D' 'A' 'T' 01 02 03`: a chunk that declares 10 payload
bytes and holds 3. -/
theorem C19_witness :
    (read_pngsection (fun _ => 170) ⟨[] ++ be32 10 ++ IDAT ++ [1, 2, 3], ([] : List Nat).length⟩
        IDAT).ret = 1
    ∧ (read_pngsection (fun _ => 170) ⟨[] ++ be32 10 ++ IDAT ++ [1, 2, 3], ([] : List Nat).length⟩
        IDAT).length = 10
    ∧ (read_pngsection (fun _ => 170) ⟨[] ++ be32 10 ++ IDAT ++ [1, 2, 3], ([] : List Nat).length⟩
        IDAT).data
        = some ([1, 2, 3] ++ (List.range (10 - [1, 2, 3].length)).map
            (fun k => (fun _ => 170) ([1, 2, 3].length + k) % 256))
    ∧ getFromPNG toyZlib 1 (fun k => [0, 0, 0, 0, 0, 20, 1, 30, 1, 40, 0].getD k 0)
        (fun _ => 0)
        (some (pngSignature ++ chunkSpec IHDR (be32 1 ++ be32 1 ++ [8, 6, 0, 0, 0])
          ++ be32 11 ++ IDAT ++ [1, 0, 1, 10, 1]))
        = some ⟨1, 1, some [10, 20, 30, 40]⟩ :=
  C19_truncated_chunk_returned (fun _ => 170) IDAT (by decide) (by decide) [] [1, 2, 3] 10
    (by decide) (by decide)
/-! ### Streams that differ in CRC fields only -/

theorem rawChunks_cons (c : List Nat × List Nat × List Nat)
    (cs : List (List Nat × List Nat × List Nat)) :
    rawChunks (c :: cs) = rawChunk c ++ rawChunks cs := by
  simp [rawChunks]

theorem rawChunks_append (as bs : List (List Nat × List Nat × List Nat)) :
    rawChunks (as ++ bs) = rawChunks as ++ rawChunks bs := by
  simp [rawChunks]

theorem rawChunk_length (c : List Nat × List Nat × List Nat) (h4 : c.1.length = 4)
    (hc : c.2.2.length = 4) : (rawChunk c).length = c.2.1.length + 12 := by
  simp [rawChunk, be32_length, h4, hc]
  omega

theorem crcVariant_length (c d : List Nat × List Nat × List Nat) (h : CrcVariant c d) :
    (rawChunk c).length = (rawChunk d).length := by
  obtain ⟨h1, h2, h3, _, h5, h6⟩ := h
  rw [rawChunk_length c h3 h5, rawChunk_length d (h1 ▸ h3) h6, h2]

theorem crcVariants_length (cs ds : List (List Nat × List Nat × List Nat))
    (h : List.Forall₂ CrcVariant cs ds) : (rawChunks cs).length = (rawChunks ds).length := by
  induction h with
  | nil => rfl
  | cons hc _ ih =>
    rw [rawChunks_cons, rawChunks_cons, List.length_append, List.length_append, ih,
      crcVariant_length _ _ hc]

/-- The scan loop on two chunk streams that differ in CRC fields only, started at the
same chunk boundary: both fail, or both stop behind the header of the same chunk. -/
theorem raw_scan (name : List Nat) (cs ds : List (List Nat × List Nat × List Nat))
    (h : List.Forall₂ CrcVariant cs ds) :
    ∀ (pre pre2 : List Nat) (fuel : Nat), pre.length = pre2.length →
      ((read_pngsection_scan name fuel ⟨pre ++ rawChunks cs, pre.length⟩).1 = none
        ∧ (read_pngsection_scan name fuel ⟨pre2 ++ rawChunks ds, pre2.length⟩).1 = none)
      ∨ ∃ before before2 ty payload crc crc2 rest rest2,
          cs = before ++ (ty, payload, crc) :: rest
          ∧ ds = before2 ++ (ty, payload, crc2) :: rest2
          ∧ (rawChunks before).length = (rawChunks before2).length
          ∧ ty.length = 4 ∧ payload.length < 2 ^ 32 - 4 ∧ crc.length = 4 ∧ crc2.length = 4
          ∧ List.Forall₂ CrcVariant rest rest2
          ∧ strcmp_eq (ty ++ [0]) name = true
          ∧ (∀ c ∈ before, strcmp_eq (c.1 ++ [0]) name = false)
          ∧ read_pngsection_scan name fuel ⟨pre ++ rawChunks cs, pre.length⟩
              = (some payload.length,
                  ⟨pre ++ rawChunks cs, pre.length + (rawChunks before).length + 8⟩)
          ∧ read_pngsection_scan name fuel ⟨pre2 ++ rawChunks ds, pre2.length⟩
              = (some payload.length,
                  ⟨pre2 ++ rawChunks ds, pre2.length + (rawChunks before2).length + 8⟩) := by
  induction h with
  | nil =>
    intro pre pre2 fuel _
    left
    exact ⟨scan_at_eof name fuel _ (by simp [rawChunks]),
      scan_at_eof name fuel _ (by simp [rawChunks])⟩
  | @cons c d cs ds hc hrest ih =>
    intro pre pre2 fuel hlen
    cases fuel with
    | zero => left; exact ⟨rfl, rfl⟩
    | succ n =>
      obtain ⟨h1, h2, h3, h4, h5, h6⟩ := hc
      obtain ⟨ty, payload, crc⟩ := c
      obtain ⟨ty2, payload2, crc2⟩ := d
      simp only at h1 h2 h3 h4 h5 h6
      subst h1 h2
      have hl32 : payload.length < 2 ^ 32 := by omega
      have hmod : (payload.length + 4) % 2 ^ 32 = payload.length + 4 :=
        Nat.mod_eq_of_lt (by omega)
      have s1 := scan_header name ty n ⟨pre ++ rawChunks ((ty, payload, crc) :: cs), pre.length⟩
        pre (payload ++ crc ++ rawChunks cs) payload.length hl32
        (by simp [rawChunks_cons, rawChunk, List.append_assoc]) rfl h3
      have s2 := scan_header name ty n
        ⟨pre2 ++ rawChunks ((ty, payload, crc2) :: ds), pre2.length⟩
        pre2 (payload ++ crc2 ++ rawChunks ds) payload.length hl32
        (by simp [rawChunks_cons, rawChunk, List.append_assoc]) rfl h3
      rw [s1, s2]
      by_cases hs : strcmp_eq (ty ++ [0]) name = true
      · right
        refine ⟨[], [], ty, payload, crc, crc2, cs, ds, rfl, rfl, rfl, h3, h4, h5, h6, hrest, hs,
          by simp, ?_, ?_⟩
        · simp [hs, rawChunks]
        · simp [hs, rawChunks]
      · simp only [hs, if_false, hmod]
        have e1 : (⟨pre ++ rawChunks ((ty, payload, crc) :: cs),
              pre.length + 8 + (payload.length + 4)⟩ : FILE)
            = ⟨(pre ++ rawChunk (ty, payload, crc)) ++ rawChunks cs,
                (pre ++ rawChunk (ty, payload, crc)).length⟩ := by
          rw [rawChunks_cons, List.length_append, rawChunk_length _ h3 h5]
          simp only [List.append_assoc]
          congr 1
          omega
        have e2 : (⟨pre2 ++ rawChunks ((ty, payload, crc2) :: ds),
              pre2.length + 8 + (payload.length + 4)⟩ : FILE)
            = ⟨(pre2 ++ rawChunk (ty, payload, crc2)) ++ rawChunks ds,
                (pre2 ++ rawChunk (ty, payload, crc2)).length⟩ := by
          rw [rawChunks_cons, List.length_append, rawChunk_length _ h3 h6]
          simp only [List.append_assoc]
          congr 1
          omega
        have hlen2 : (pre ++ rawChunk (ty, payload, crc)).length
            = (pre2 ++ rawChunk (ty, payload, crc2)).length := by
          rw [List.length_append, List.length_append, rawChunk_length _ h3 h5,
            rawChunk_length _ h3 h6, hlen]
        simp only [e1, e2]
        rcases ih (pre ++ rawChunk (ty, payload, crc)) (pre2 ++ rawChunk (ty, payload, crc2)) n
            hlen2 with hnone | ⟨before, before2, ty', payload', crc', crc2', rest, rest2, hcs, hds,
              hbl, k1, k2, k3, k4, hfr, kty, kbef, r1, r2⟩
        · left; exact hnone
        · right
          refine ⟨(ty, payload, crc) :: before, (ty, payload, crc2) :: before2, ty', payload',
            crc', crc2', rest, rest2, by rw [hcs]; rfl, by rw [hds]; rfl, ?_, k1, k2, k3, k4, hfr,
            kty, ?_, ?_, ?_⟩
          · rw [rawChunks_cons, rawChunks_cons, List.length_append, List.length_append, hbl,
              rawChunk_length _ h3 h5, rawChunk_length _ h3 h6]
          · intro c hc
            rcases List.mem_cons.mp hc with rfl | hc
            · simpa using hs
            · exact kbef c hc
          · rw [r1, rawChunks_cons (ty, payload, crc) before]
            simp only [List.length_append, Nat.add_assoc, Bool.false_eq_true, if_false,
              rawChunks_cons, List.append_assoc]
          · rw [r2, rawChunks_cons (ty, payload, crc2) before2]
            simp only [List.length_append, Nat.add_assoc, Bool.false_eq_true, if_false,
              rawChunks_cons, List.append_assoc]

/-- What `read_pngsection` does once the scan has stopped behind the header of a
chunk: it returns the payload and leaves the stream behind the CRC field. -/
theorem raw_section_found (junk : Nat → Nat) (name : List Nat)
    (pre : List Nat) (before rest : List (List Nat × List Nat × List Nat))
    (ty payload crc : List Nat) (hty : ty.length = 4) (hcrc : crc.length = 4)
    (hscan : read_pngsection_scan name
        ((pre ++ rawChunks (before ++ (ty, payload, crc) :: rest)).length + 1)
        ⟨pre ++ rawChunks (before ++ (ty, payload, crc) :: rest), pre.length⟩
      = (some payload.length,
          ⟨pre ++ rawChunks (before ++ (ty, payload, crc) :: rest),
            pre.length + (rawChunks before).length + 8⟩)) :
    read_pngsection junk ⟨pre ++ rawChunks (before ++ (ty, payload, crc) :: rest), pre.length⟩ name
      = { ret := 1, data := some payload, length := payload.length,
          f := ⟨(pre ++ rawChunks before ++ rawChunk (ty, payload, crc)) ++ rawChunks rest,
                (pre ++ rawChunks before ++ rawChunk (ty, payload, crc)).length⟩ } := by
  have hd : pre ++ rawChunks (before ++ (ty, payload, crc) :: rest)
      = (pre ++ rawChunks before ++ be32 payload.length ++ ty) ++ payload
          ++ (crc ++ rawChunks rest) := by
    simp [rawChunks_append, rawChunks_cons, rawChunk, List.append_assoc]
  unfold read_pngsection
  simp only []
  rw [hscan]
  simp only []
  generalize pre ++ rawChunks (before ++ (ty, payload, crc) :: rest) = file at hd ⊢
  have h1 := fread_at ⟨file, pre.length + (rawChunks before).length + 8⟩
      (pre ++ rawChunks before ++ be32 payload.length ++ ty) payload
      (crc ++ rawChunks rest) 1 payload.length
      hd (by simp [be32_length, hty]; omega) (by simp) (by decide)
  have hd3 : file = (pre ++ rawChunks before ++ be32 payload.length ++ ty ++ payload)
      ++ crc ++ rawChunks rest := by
    rw [hd]; simp only [List.append_assoc]
  have h2 := fread_at ⟨file, (pre ++ rawChunks before ++ be32 payload.length
        ++ ty).length + payload.length⟩
      (pre ++ rawChunks before ++ be32 payload.length ++ ty ++ payload)
      crc (rawChunks rest) 4 1
      hd3 (by simp only [List.length_append]) (by simp [hcrc]) (by decide)
  simp only [h1, h2]
  simp only [Nat.sub_self, List.range_zero, List.map_nil, List.append_nil]
  congr 2
  · rw [hd]; simp [rawChunk, List.append_assoc]
  · simp [rawChunk, List.append_assoc, hcrc]
    omega

/-- Two chunk streams that differ in CRC fields only, read from the same chunk
boundary: `read_pngsection` returns the same value, payload and length, and either
both fail or both leave the stream at the same next chunk boundary. -/
theorem raw_section_sim (junk : Nat → Nat) (name : List Nat)
    (cs ds : List (List Nat × List Nat × List Nat)) (h : List.Forall₂ CrcVariant cs ds)
    (pre pre2 : List Nat) (hlen : pre.length = pre2.length) :
    (read_pngsection junk ⟨pre ++ rawChunks cs, pre.length⟩ name).ret
        = (read_pngsection junk ⟨pre2 ++ rawChunks ds, pre2.length⟩ name).ret
    ∧ (read_pngsection junk ⟨pre ++ rawChunks cs, pre.length⟩ name).data
        = (read_pngsection junk ⟨pre2 ++ rawChunks ds, pre2.length⟩ name).data
    ∧ (read_pngsection junk ⟨pre ++ rawChunks cs, pre.length⟩ name).length
        = (read_pngsection junk ⟨pre2 ++ rawChunks ds, pre2.length⟩ name).length
    ∧ ((read_pngsection junk ⟨pre ++ rawChunks cs, pre.length⟩ name).ret = 0
        ∨ ∃ p p2 rest rest2,
            (read_pngsection junk ⟨pre ++ rawChunks cs, pre.length⟩ name).f
              = ⟨p ++ rawChunks rest, p.length⟩
            ∧ (read_pngsection junk ⟨pre2 ++ rawChunks ds, pre2.length⟩ name).f
              = ⟨p2 ++ rawChunks rest2, p2.length⟩
            ∧ p.length = p2.length
            ∧ p ++ rawChunks rest = pre ++ rawChunks cs
            ∧ p2 ++ rawChunks rest2 = pre2 ++ rawChunks ds
            ∧ List.Forall₂ CrcVariant rest rest2) := by
  have hfl : (pre2 ++ rawChunks ds).length = (pre ++ rawChunks cs).length := by
    rw [List.length_append, List.length_append, hlen, crcVariants_length cs ds h]
  rcases raw_scan name cs ds h pre pre2 ((pre ++ rawChunks cs).length + 1) hlen with
    ⟨n1, n2⟩ | ⟨before, before2, ty, payload, crc, crc2, rest, rest2, hcs, hds, hbl, k1, k2,
      k3, k4, hfr, _, _, r1, r2⟩
  · have a1 : read_pngsection junk ⟨pre ++ rawChunks cs, pre.length⟩ name
        = { ret := 0, data := none, length := 0,
            f := (read_pngsection_scan name ((pre ++ rawChunks cs).length + 1)
              ⟨pre ++ rawChunks cs, pre.length⟩).2 } := by
      unfold read_pngsection
      rcases hs : read_pngsection_scan name ((pre ++ rawChunks cs).length + 1)
        ⟨pre ++ rawChunks cs, pre.length⟩ with ⟨r, f1⟩
      rw [hs] at n1
      simp only at n1
      subst n1
      rfl
    have a2 : read_pngsection junk ⟨pre2 ++ rawChunks ds, pre2.length⟩ name
        = { ret := 0, data := none, length := 0,
            f := (read_pngsection_scan name ((pre ++ rawChunks cs).length + 1)
              ⟨pre2 ++ rawChunks ds, pre2.length⟩).2 } := by
      unfold read_pngsection
      simp only [hfl]
      rcases hs : read_pngsection_scan name ((pre ++ rawChunks cs).length + 1)
        ⟨pre2 ++ rawChunks ds, pre2.length⟩ with ⟨r, f1⟩
      rw [hs] at n2
      simp only at n2
      subst n2
      rfl
    rw [a1, a2]
    exact ⟨rfl, rfl, rfl, Or.inl rfl⟩
  · subst hcs hds
    rw [← hfl] at r2
    rw [raw_section_found junk name pre before rest ty payload crc k1 k3 r1,
      raw_section_found junk name pre2 before2 rest2 ty payload crc2 k1 k4 r2]
    refine ⟨rfl, rfl, rfl, Or.inr ⟨_, _, rest, rest2, rfl, rfl, ?_, ?_, ?_, hfr⟩⟩
    · simp only [List.length_append, hlen, hbl, rawChunk_length (ty, payload, crc) k1 k3,
        rawChunk_length (ty, payload, crc2) k1 k4]
    · simp [rawChunks_append, rawChunks_cons, List.append_assoc]
    · simp [rawChunks_append, rawChunks_cons, List.append_assoc]

/-- The IDAT loop of `getFromPNG` on two chunk streams that differ in CRC fields
only. -/
theorem raw_idat_sim (zl : Zlib) (fuel : Nat) (junk : Nat → Nat) :
    ∀ (n : Nat) (cs ds : List (List Nat × List Nat × List Nat)),
      List.Forall₂ CrcVariant cs ds →
      ∀ (pre pre2 : List Nat), pre.length = pre2.length →
      ∀ z : z_stream zl.IState,
        getFromPNG_idat zl fuel junk n ⟨pre ++ rawChunks cs, pre.length⟩ z
          = getFromPNG_idat zl fuel junk n ⟨pre2 ++ rawChunks ds, pre2.length⟩ z := by
  intro n
  induction n with
  | zero => intro cs ds _ pre pre2 _ z; rfl
  | succ n ih =>
    intro cs ds h pre pre2 hlen z
    obtain ⟨e1, e2, _, e4⟩ := raw_section_sim junk IDAT cs ds h pre pre2 hlen
    rw [getFromPNG_idat, getFromPNG_idat]
    rw [← e1, ← e2]
    by_cases hret : (read_pngsection junk ⟨pre ++ rawChunks cs, pre.length⟩ IDAT).ret = 0
    · simp only [hret, if_true]
    · rcases e4 with h0 | ⟨p, p2, rest, rest2, f1, f2, hl, _, _, hfr⟩
      · exact absurd h0 hret
      · simp only [hret, if_false]
        rw [f1, f2]
        cases zl_inflatePart zl fuel z
            ((read_pngsection junk ⟨pre ++ rawChunks cs, pre.length⟩ IDAT).data.getD []) with
        | none => rfl
        | some r =>
          obtain ⟨ok, z2⟩ := r
          simp only []
          rw [ih rest rest2 hfr p p2 hl z2]

theorem read_pngheader_first8 (sig rest : List Nat) (hsig : sig.length = 8) :
    read_pngheader ⟨sig ++ rest, 0⟩
      = (decide (sig = [0x89, 80, 78, 71, 13, 10, 0x1A, 10]), ⟨sig ++ rest, 8⟩) := by
  have hl : 8 ≤ ((⟨sig ++ rest, 0⟩ : FILE).data.drop (⟨sig ++ rest, 0⟩ : FILE).pos).length := by
    simp [hsig]
  have h1 := read_pngheader_fst ⟨sig ++ rest, 0⟩
  have h2 := read_pngheader_pos ⟨sig ++ rest, 0⟩ hl
  have ht : ((⟨sig ++ rest, 0⟩ : FILE).data.drop (⟨sig ++ rest, 0⟩ : FILE).pos).take 8 = sig := by
    simp only [List.drop_zero]
    rw [← hsig, List.take_left]
  rw [ht] at h1
  apply Prod.ext
  · simp only
    by_cases hs : sig = [0x89, 80, 78, 71, 13, 10, 0x1A, 10]
    · rw [h1.2 ⟨hl, hs⟩]; simp [hs]
    · have : (read_pngheader ⟨sig ++ rest, 0⟩).1 = false := by
        cases hb : (read_pngheader ⟨sig ++ rest, 0⟩).1
        · rfl
        · exact absurd (h1.1 hb).2 hs
      rw [this]; simp [hs]
  · simp only
    rw [h2]

/-- Loading two files that start with the same 8 bytes and continue with chunk
streams that differ in CRC fields only. -/
theorem raw_getFromPNG_sim (zl : Zlib) (fuel : Nat) (junk : Nat → Nat) (heap : Int → Nat)
    (sig : List Nat) (hsig : sig.length = 8)
    (cs ds : List (List Nat × List Nat × List Nat)) (h : List.Forall₂ CrcVariant cs ds) :
    getFromPNG zl fuel junk heap (some (sig ++ rawChunks cs))
      = getFromPNG zl fuel junk heap (some (sig ++ rawChunks ds)) := by
  have hfl : (sig ++ rawChunks ds).length = (sig ++ rawChunks cs).length := by
    rw [List.length_append, List.length_append, crcVariants_length cs ds h]
  obtain ⟨e1, e2, e3, e4⟩ := raw_section_sim junk IHDR cs ds h sig sig rfl
  rw [hsig] at e1 e2 e3 e4
  unfold getFromPNG
  simp only [read_pngheader_first8 sig _ hsig, hfl]
  rw [← e2, ← e3]
  by_cases hs : decide (sig = [0x89, 80, 78, 71, 13, 10, 0x1A, 10]) = false
  · simp only [hs, if_true]
  · simp only [hs, if_false]
    cases hd : (read_pngsection junk ⟨sig ++ rawChunks cs, 8⟩ IHDR).data with
    | none => rfl
    | some info =>
      simp only []
      rcases e4 with h0 | ⟨p, p2, rest, rest2, f1, f2, hl, _, _, hfr⟩
      · have := read_pngsection_ret_zero junk ⟨sig ++ rawChunks cs, 8⟩ IHDR h0
        rw [hd] at this
        exact absurd this (by simp)
      · rw [f1, f2]
        have hdec : ∀ n w hh bpp,
            getFromPNG_decode zl fuel junk heap n ⟨p ++ rawChunks rest, p.length⟩ w hh bpp
              = getFromPNG_decode zl fuel junk heap n ⟨p2 ++ rawChunks rest2, p2.length⟩ w hh
                  bpp := by
          intro n w hh bpp
          unfold getFromPNG_decode
          simp only [raw_idat_sim zl fuel junk n rest rest2 hfr p p2 hl]
        simp only [hdec]

/-- A chunk of the wanted type at the reading position, with any 4 bytes as its CRC
field: `read_pngsection` returns the payload and steps over the 4 bytes. -/
theorem raw_section_head (junk : Nat → Nat) (name : List Nat) (hname : name.length = 4)
    (hnz : ∀ b ∈ name, b ≠ 0) (pre payload crc tail : List Nat)
    (hlen : payload.length < 2 ^ 32 - 4) (hcrc : crc.length = 4) :
    read_pngsection junk ⟨pre ++ rawChunk (name, payload, crc) ++ tail, pre.length⟩ name
      = { ret := 1, data := some payload, length := payload.length,
          f := ⟨pre ++ rawChunk (name, payload, crc) ++ tail,
                pre.length + (payload.length + 12)⟩ } := by
  have hd : pre ++ rawChunk (name, payload, crc) ++ tail
      = (pre ++ be32 payload.length ++ name) ++ payload ++ (crc ++ tail) := by
    simp [rawChunk, List.append_assoc]
  have hs : strcmp_eq (name ++ [0]) name = true := by
    rw [strcmp_eq_type name name hname hname hnz]; simp
  unfold read_pngsection
  rw [scan_header name name _ ⟨pre ++ rawChunk (name, payload, crc) ++ tail, pre.length⟩ pre
    (payload ++ crc ++ tail) payload.length (by omega)
    (by simp [rawChunk, List.append_assoc]) rfl hname]
  simp only [hs, if_true]
  generalize pre ++ rawChunk (name, payload, crc) ++ tail = file at hd ⊢
  have h1 := fread_at ⟨file, pre.length + 8⟩
      (pre ++ be32 payload.length ++ name) payload (crc ++ tail) 1 payload.length
      hd (by simp [be32_length, hname]) (by simp) (by decide)
  have hd3 : file = (pre ++ be32 payload.length ++ name ++ payload) ++ crc ++ tail := by
    rw [hd]; simp only [List.append_assoc]
  have h2 := fread_at ⟨file, (pre ++ be32 payload.length ++ name).length + payload.length⟩
      (pre ++ be32 payload.length ++ name ++ payload) crc tail 4 1
      hd3 (by simp only [List.length_append]) (by simp [hcrc]) (by decide)
  simp only [h1, h2]
  simp only [Nat.sub_self, List.range_zero, List.map_nil, List.append_nil]
  congr 2
  simp [be32_length, hname, hcrc]
  omega

/-- Claim C18. Take two byte streams made of the same prefix followed by chunks that
have the same types and payloads and differ at most in the 4 bytes of their CRC
fields. Read from the start of the chunks, `read_pngsection` returns the same value,
the same payload and the same length on both, for every wanted type; with an 8-byte
prefix `getFromPNG` returns the same raster for both files. A chunk of the wanted
type is returned with its payload whatever its 4 CRC bytes are, the stream being left
`payload.length + 12` bytes further on. -/
theorem C18_crc_not_verified (zl : Zlib) (fuel : Nat) (junk : Nat → Nat) (heap : Int → Nat)
    (cs ds : List (List Nat × List Nat × List Nat)) (h : List.Forall₂ CrcVariant cs ds)
    (pre name sig : List Nat) (hsig : sig.length = 8) :
    (read_pngsection junk ⟨pre ++ rawChunks cs, pre.length⟩ name).ret
        = (read_pngsection junk ⟨pre ++ rawChunks ds, pre.length⟩ name).ret
    ∧ (read_pngsection junk ⟨pre ++ rawChunks cs, pre.length⟩ name).data
        = (read_pngsection junk ⟨pre ++ rawChunks ds, pre.length⟩ name).data
    ∧ (read_pngsection junk ⟨pre ++ rawChunks cs, pre.length⟩ name).length
        = (read_pngsection junk ⟨pre ++ rawChunks ds, pre.length⟩ name).length
    ∧ getFromPNG zl fuel junk heap (some (sig ++ rawChunks cs))
        = getFromPNG zl fuel junk heap (some (sig ++ rawChunks ds))
    ∧ (∀ payload crc tail : List Nat, name.length = 4 → (∀ b ∈ name, b ≠ 0) →
        payload.length < 2 ^ 32 - 4 → crc.length = 4 →
        read_pngsection junk ⟨pre ++ rawChunk (name, payload, crc) ++ tail, pre.length⟩ name
          = { ret := 1, data := some payload, length := payload.length,
              f := ⟨pre ++ rawChunk (name, payload, crc) ++ tail,
                    pre.length + (payload.length + 12)⟩ }) := by
  obtain ⟨e1, e2, e3, _⟩ := raw_section_sim junk name cs ds h pre pre rfl
  exact ⟨e1, e2, e3, raw_getFromPNG_sim zl fuel junk heap sig hsig cs ds h,
    fun payload crc tail hname hnz hlen hcrc =>
      raw_section_head junk name hname hnz pre payload crc tail hlen hcrc⟩

/-- The 1×1 RGBA file of the example codec with the CRC fields of IHDR, IDAT and IEND
all zero, against the same file with other bytes there: the same raster. -/
theorem C18_witness :
    (read_pngsection (fun _ => 0)
        ⟨pngSignature ++ rawChunks [(IHDR, [0, 0, 0, 1, 0, 0, 0, 1, 8, 6, 0, 0, 0], [0, 0, 0, 0]),
          (IDAT, [1, 0, 1, 10, 1, 20, 1, 30, 1, 40, 0], [0, 0, 0, 0]), (IEND, [], [0, 0, 0, 0])],
          pngSignature.length⟩ IDAT).ret
        = (read_pngsection (fun _ => 0)
        ⟨pngSignature ++ rawChunks [(IHDR, [0, 0, 0, 1, 0, 0, 0, 1, 8, 6, 0, 0, 0], [1, 2, 3, 4]),
          (IDAT, [1, 0, 1, 10, 1, 20, 1, 30, 1, 40, 0], [5, 6, 7, 8]), (IEND, [], [9, 9, 9, 9])],
          pngSignature.length⟩ IDAT).ret
    ∧ (read_pngsection (fun _ => 0)
        ⟨pngSignature ++ rawChunks [(IHDR, [0, 0, 0, 1, 0, 0, 0, 1, 8, 6, 0, 0, 0], [0, 0, 0, 0]),
          (IDAT, [1, 0, 1, 10, 1, 20, 1, 30, 1, 40, 0], [0, 0, 0, 0]), (IEND, [], [0, 0, 0, 0])],
          pngSignature.length⟩ IDAT).data
        = (read_pngsection (fun _ => 0)
        ⟨pngSignature ++ rawChunks [(IHDR, [0, 0, 0, 1, 0, 0, 0, 1, 8, 6, 0, 0, 0], [1, 2, 3, 4]),
          (IDAT, [1, 0, 1, 10, 1, 20, 1, 30, 1, 40, 0], [5, 6, 7, 8]), (IEND, [], [9, 9, 9, 9])],
          pngSignature.length⟩ IDAT).data
    ∧ (read_pngsection (fun _ => 0)
        ⟨pngSignature ++ rawChunks [(IHDR, [0, 0, 0, 1, 0, 0, 0, 1, 8, 6, 0, 0, 0], [0, 0, 0, 0]),
          (IDAT, [1, 0, 1, 10, 1, 20, 1, 30, 1, 40, 0], [0, 0, 0, 0]), (IEND, [], [0, 0, 0, 0])],
          pngSignature.length⟩ IDAT).length
        = (read_pngsection (fun _ => 0)
        ⟨pngSignature ++ rawChunks [(IHDR, [0, 0, 0, 1, 0, 0, 0, 1, 8, 6, 0, 0, 0], [1, 2, 3, 4]),
          (IDAT, [1, 0, 1, 10, 1, 20, 1, 30, 1, 40, 0], [5, 6, 7, 8]), (IEND, [], [9, 9, 9, 9])],
          pngSignature.length⟩ IDAT).length
    ∧ getFromPNG toyZlib 1 (fun _ => 0) (fun _ => 0)
        (some (pngSignature ++ rawChunks
          [(IHDR, [0, 0, 0, 1, 0, 0, 0, 1, 8, 6, 0, 0, 0], [0, 0, 0, 0]),
           (IDAT, [1, 0, 1, 10, 1, 20, 1, 30, 1, 40, 0], [0, 0, 0, 0]), (IEND, [], [0, 0, 0, 0])]))
        = getFromPNG toyZlib 1 (fun _ => 0) (fun _ => 0)
        (some (pngSignature ++ rawChunks
          [(IHDR, [0, 0, 0, 1, 0, 0, 0, 1, 8, 6, 0, 0, 0], [1, 2, 3, 4]),
           (IDAT, [1, 0, 1, 10, 1, 20, 1, 30, 1, 40, 0], [5, 6, 7, 8]), (IEND, [], [9, 9, 9, 9])])) :=
  have h := C18_crc_not_verified toyZlib 1 (fun _ => 0) (fun _ => 0)
    [(IHDR, [0, 0, 0, 1, 0, 0, 0, 1, 8, 6, 0, 0, 0], [0, 0, 0, 0]),
      (IDAT, [1, 0, 1, 10, 1, 20, 1, 30, 1, 40, 0], [0, 0, 0, 0]), (IEND, [], [0, 0, 0, 0])]
    [(IHDR, [0, 0, 0, 1, 0, 0, 0, 1, 8, 6, 0, 0, 0], [1, 2, 3, 4]),
      (IDAT, [1, 0, 1, 10, 1, 20, 1, 30, 1, 40, 0], [5, 6, 7, 8]), (IEND, [], [9, 9, 9, 9])]
    (List.Forall₂.cons (by unfold CrcVariant; decide)
      (List.Forall₂.cons (by unfold CrcVariant; decide)
        (List.Forall₂.cons (by unfold CrcVariant; decide) List.Forall₂.nil)))
    pngSignature IDAT pngSignature rfl
  ⟨h.1, h.2.1, h.2.2.1, h.2.2.2.1⟩
/-! ### An empty IDAT chunk -/

theorem chunkSpec_eq_raw (ty payload : List Nat) :
    chunkSpec ty payload = rawChunk (ty, payload, be32 (pngcrc (ty ++ payload))) := rfl

/-- When the part of `getFromPNG` after IHDR fails for all dimensions, `getFromPNG`
returns the empty raster. -/
theorem getFromPNG_empty_of_decode (zl : Zlib) (fuel : Nat) (junk : Nat → Nat)
    (heap : Int → Nat) (bytes : List Nat)
    (h : ∀ w h bpp, getFromPNG_decode zl fuel junk heap (bytes.length + 1)
        (read_pngsection junk (read_pngheader ⟨bytes, 0⟩).2 IHDR).f w h bpp
          = some ⟨0, 0, none⟩) :
    getFromPNG zl fuel junk heap (some bytes) = some ⟨0, 0, none⟩ := by
  unfold getFromPNG
  simp only [h]
  repeat' split
  all_goals rfl

/-- When the IDAT loop ends with a failed `zl_inflatePart`, the part of `getFromPNG`
after IHDR returns the empty raster. -/
theorem getFromPNG_decode_empty_of_idat (zl : Zlib) (fuel : Nat) (junk : Nat → Nat)
    (heap : Int → Nat) (n : Nat) (f : FILE) (w h bpp : Int)
    (hidat : ∀ z0, zl_initInflate zl ((w * bpp + 1) * h).toNat = some z0 →
      ∃ z, getFromPNG_idat zl fuel junk n f z0 = some (false, z)) :
    getFromPNG_decode zl fuel junk heap n f w h bpp = some ⟨0, 0, none⟩ := by
  unfold getFromPNG_decode
  simp only []
  split
  · rfl
  · cases hz : zl_initInflate zl ((w * bpp + 1) * h).toNat with
    | none => rfl
    | some z0 =>
      simp only []
      split
      · rfl
      · obtain ⟨z, hz1⟩ := hidat z0 hz
        rw [hz1]

/-- An empty piece handed to `zl_inflatePart` right after `zl_initInflate`, for a codec
that returns `Z_BUF_ERROR` when a call can make no progress. -/
theorem zl_inflatePart_empty (zl : Zlib) (fuel : Nat) (hfuel : 1 ≤ fuel) (size : Nat)
    (hbuf : ∀ s, zl.inflateInit = some s →
      ∀ avail, (zl.inflate s [] avail Z_NO_FLUSH).code = Z_BUF_ERROR)
    (z0 : z_stream zl.IState) (hz : zl_initInflate zl size = some z0) :
    ∃ z, zl_inflatePart zl fuel z0 [] = some (0, z) := by
  obtain ⟨n, rfl⟩ : ∃ n, fuel = n + 1 := ⟨fuel - 1, by omega⟩
  unfold zl_initInflate at hz
  cases hs : zl.inflateInit with
  | none => rw [hs] at hz; simp at hz
  | some s =>
    rw [hs] at hz
    simp only [Option.some.injEq] at hz
    subst hz
    unfold zl_inflatePart zl_inflatePart_loop
    simp only [hbuf s hs, Z_BUF_ERROR, Z_STREAM_END, Z_OK]
    exact ⟨_, by simp; rfl⟩

/-- Loading a file whose first IDAT chunk is empty. -/
theorem getFromPNG_empty_idat (zl : Zlib) (fuel : Nat) (hfuel : 1 ≤ fuel) (junk : Nat → Nat)
    (heap : Int → Nat)
    (hbuf : ∀ s, zl.inflateInit = some s →
      ∀ avail, (zl.inflate s [] avail Z_NO_FLUSH).code = Z_BUF_ERROR)
    (ihdr rest : List Nat) (hihdr : ihdr.length < 2 ^ 32 - 4) :
    getFromPNG zl fuel junk heap
        (some (pngSignature ++ chunkSpec IHDR ihdr ++ chunkSpec IDAT [] ++ rest))
      = some ⟨0, 0, none⟩ := by
  apply getFromPNG_empty_of_decode
  intro w h bpp
  have hhd := read_pngheader_signature (chunkSpec IHDR ihdr ++ chunkSpec IDAT [] ++ rest)
  simp only [← List.append_assoc] at hhd
  rw [hhd]
  have h1 := raw_section_head junk IHDR (by decide) (by decide) pngSignature ihdr
    (be32 (pngcrc (IHDR ++ ihdr))) (chunkSpec IDAT [] ++ rest) hihdr (be32_length _)
  rw [← chunkSpec_eq_raw, ← List.append_assoc] at h1
  have h8 : pngSignature.length = 8 := rfl
  rw [h8] at h1
  rw [h1]
  apply getFromPNG_decode_empty_of_idat
  intro z0 hz0
  obtain ⟨z, hz⟩ := zl_inflatePart_empty zl fuel hfuel _ hbuf z0 hz0
  refine ⟨z, ?_⟩
  have h2 := raw_section_head junk IDAT (by decide) (by decide)
    (pngSignature ++ chunkSpec IHDR ihdr) [] (be32 (pngcrc (IDAT ++ []))) rest (by decide)
    (be32_length _)
  rw [← chunkSpec_eq_raw] at h2
  have hp : (pngSignature ++ chunkSpec IHDR ihdr).length = 8 + (ihdr.length + 12) := by
    simp [chunkSpec, be32_length, IHDR, pngSignature]
    omega
  rw [hp] at h2
  rw [getFromPNG_idat]
  simp only [h2, Option.getD_some, hz]
  simp
theorem toy_no_progress : ∀ s, toyZlib.inflateInit = some s →
    ∀ avail, (toyZlib.inflate s [] avail Z_NO_FLUSH).code = Z_BUF_ERROR := by
  intro s hs avail
  have : s = (0 : Nat) := by
    have h0 : toyZlib.inflateInit = some (0 : Nat) := rfl
    rw [h0] at hs
    exact (Option.some.inj hs).symm
  subst this
  rfl

set_option maxRecDepth 1000000 in
/-- The stream `1,0, 1,10, 1,20, 1,30, 1,40, 0` of the example codec cut into the
pieces `1,0,1,10,1` and `20,1,30,1,40,0`, with a `tEXt` chunk between the two IDAT
chunks. -/
theorem getFromPNG_two_pieces_eval :
    getFromPNG toyZlib 1 (fun _ => 0) (fun _ => 0)
      (some (pngSignature ++ chunkSpec IHDR (be32 1 ++ be32 1 ++ [8, 6, 0, 0, 0])
        ++ chunkSpec IDAT [1, 0, 1, 10, 1] ++ chunkSpec [116, 69, 88, 116] [65, 0, 66]
        ++ chunkSpec IDAT [20, 1, 30, 1, 40, 0] ++ chunkSpec IEND []))
      = some ⟨1, 1, some [10, 20, 30, 40]⟩ := by
  decide

/-- Claim C16 (the code on an empty piece). For a codec that satisfies the round-trip
contract and, like zlib, returns `Z_BUF_ERROR` from a call that can make no progress:
the file that carries the compressed stream in one IDAT chunk loads to the raster,
while the file that carries the same stream cut into the pieces `[]` and the whole
stream (an empty IDAT chunk in front) loads to the empty raster, because
`zl_inflatePart` returns 0 on the empty piece. With the example codec, the stream cut
into two non-empty pieces around a `tEXt` chunk does load to the raster. -/
theorem C16_empty_piece_rejected (zl : Zlib) (compress : List Nat → List Nat)
    (hc : CodecRoundTrip zl compress)
    (hbuf : ∀ s, zl.inflateInit = some s →
      ∀ avail, (zl.inflate s [] avail Z_NO_FLUSH).code = Z_BUF_ERROR)
    (fuel : Nat) (hfuel : 1 ≤ fuel) (junk : Nat → Nat) (heap : Int → Nat)
    (w h : Nat) (hw1 : 1 ≤ w) (hw64 : w ≤ 64) (hh1 : 1 ≤ h) (hh64 : h ≤ 64)
    (data : List Nat) (hdata : data.length = w * h * 4) (hbytes : IsBytes data) :
    getFromPNG zl fuel junk heap (some (pngSignature
        ++ chunkSpec IHDR (be32 w ++ be32 h ++ [8, 6, 0, 0, 0])
        ++ chunkSpec IDAT (compress (scanlinesSpec w h data))
        ++ chunkSpec IEND []))
      = some ⟨w, h, some data⟩
    ∧ getFromPNG zl fuel junk heap (some (pngSignature
        ++ chunkSpec IHDR (be32 w ++ be32 h ++ [8, 6, 0, 0, 0])
        ++ chunkSpec IDAT []
        ++ (chunkSpec IDAT (compress (scanlinesSpec w h data)) ++ chunkSpec IEND [])))
      = some ⟨0, 0, none⟩
    ∧ getFromPNG toyZlib 1 (fun _ => 0) (fun _ => 0)
        (some (pngSignature ++ chunkSpec IHDR (be32 1 ++ be32 1 ++ [8, 6, 0, 0, 0])
          ++ chunkSpec IDAT [1, 0, 1, 10, 1] ++ chunkSpec [116, 69, 88, 116] [65, 0, 66]
          ++ chunkSpec IDAT [20, 1, 30, 1, 40, 0] ++ chunkSpec IEND []))
        = some ⟨1, 1, some [10, 20, 30, 40]⟩ :=
  ⟨getFromPNG_saved zl compress hc fuel hfuel junk heap w h hw1 hw64 hh1 hh64 data hdata hbytes,
   getFromPNG_empty_idat zl fuel hfuel junk heap hbuf _ _ (by simp [be32_length]),
   getFromPNG_two_pieces_eval⟩

/-- The 1×1 pixel `10, 20, 30, 40` with the example codec: one IDAT chunk against an
empty IDAT chunk followed by the same chunk. -/
theorem C16_witness :
    getFromPNG toyZlib 1 (fun _ => 0) (fun _ => 0) (some (pngSignature
        ++ chunkSpec IHDR (be32 1 ++ be32 1 ++ [8, 6, 0, 0, 0])
        ++ chunkSpec IDAT (toyCompress (scanlinesSpec 1 1 [10, 20, 30, 40]))
        ++ chunkSpec IEND []))
      = some ⟨(1 : Nat), (1 : Nat), some [10, 20, 30, 40]⟩
    ∧ getFromPNG toyZlib 1 (fun _ => 0) (fun _ => 0) (some (pngSignature
        ++ chunkSpec IHDR (be32 1 ++ be32 1 ++ [8, 6, 0, 0, 0])
        ++ chunkSpec IDAT []
        ++ (chunkSpec IDAT (toyCompress (scanlinesSpec 1 1 [10, 20, 30, 40]))
            ++ chunkSpec IEND [])))
      = some ⟨0, 0, none⟩ :=
  have h := C16_empty_piece_rejected toyZlib toyCompress toy_roundtrip toy_no_progress 1
    (by decide) (fun _ => 0) (fun _ => 0) 1 1 (by decide) (by decide) (by decide) (by decide)
    [10, 20, 30, 40] (by decide) (by decide)
  ⟨h.1, h.2.1⟩
/-! ### The example codec satisfies the inflate contract -/

theorem toyDecode_inv : ∀ (inp : List Nat) (st avail : Nat) (cin cout : List Nat),
    toyInv st cin cout →
      (toyDecode inp st avail).2.1 ≤ inp.length
      ∧ (toyDecode inp st avail).2.2.1.length ≤ avail
      ∧ toyInv (toyDecode inp st avail).1 (cin ++ inp.take (toyDecode inp st avail).2.1)
          (cout ++ (toyDecode inp st avail).2.2.1) := by
  intro inp
  induction inp with
  | nil =>
    intro st avail cin cout h
    simp only [toyDecode, List.take_nil, List.append_nil, List.length_nil]
    exact ⟨le_refl _, Nat.zero_le _, h⟩
  | cons b inp ih =>
    intro st avail cin cout h
    simp only [toyDecode]
    by_cases h2 : st = 2
    · simp only [h2, if_true, List.take_zero, List.append_nil, List.length_nil]
      exact ⟨Nat.zero_le _, Nat.zero_le _, h2 ▸ h⟩
    · rcases h with ⟨h2', _⟩ | ⟨hlt, hp⟩
      · exact absurd h2' h2
      · simp only [h2, if_false]
        by_cases h0 : st = 0
        · subst h0
          simp only [if_true]
          by_cases hb0 : b = 0
          · subst hb0
            simp only [if_true, List.take_succ_cons, List.take_zero, List.append_nil,
              List.length_nil, List.length_cons]
            refine ⟨by omega, Nat.zero_le _, Or.inl ⟨rfl, ?_⟩⟩
            intro t
            have := hp (0 :: t)
            simp only [toyParse, if_true, Option.map_some', List.append_nil] at this
            rw [List.append_assoc]
            exact this
          · simp only [hb0, if_false]
            by_cases hb1 : b = 1
            · subst hb1
              simp only [if_true]
              have hinv1 : toyInv 1 (cin ++ [1]) cout := by
                refine Or.inr ⟨by decide, ?_⟩
                intro t
                have := hp (1 :: t)
                simp only [toyParse, if_true, one_ne_zero, if_false] at this
                rw [List.append_assoc]
                exact this
              obtain ⟨i1, i2, i3⟩ := ih 1 avail (cin ++ [1]) cout hinv1
              refine ⟨by simp only [List.length_cons]; omega, i2, ?_⟩
              simp only [List.take_succ_cons]
              rw [List.append_assoc] at i3
              exact i3
            · simp only [hb1, if_false, List.take_zero, List.append_nil, List.length_nil]
              exact ⟨Nat.zero_le _, Nat.zero_le _, Or.inr ⟨hlt, hp⟩⟩
        · have h1 : st = 1 := by omega
          subst h1
          simp only [one_ne_zero, if_false]
          cases avail with
          | zero =>
            simp only [List.take_zero, List.append_nil, List.length_nil]
            exact ⟨Nat.zero_le _, Nat.zero_le _, Or.inr ⟨hlt, hp⟩⟩
          | succ a =>
            simp only []
            have hinv0 : toyInv 0 (cin ++ [b]) (cout ++ [b]) := by
              refine Or.inr ⟨by decide, ?_⟩
              intro t
              have := hp (b :: t)
              simp only [toyParse, Option.map_map] at this
              rw [List.append_assoc]
              simp only [List.singleton_append]
              rw [this]
              congr 1
              funext x
              simp
            obtain ⟨i1, i2, i3⟩ := ih 0 a (cin ++ [b]) (cout ++ [b]) hinv0
            refine ⟨by simp only [List.length_cons]; omega,
              by simp only [List.length_cons]; omega, ?_⟩
            simp only [List.take_succ_cons]
            rw [List.append_assoc, List.append_assoc] at i3
            exact i3

theorem toyDecode_bounds : ∀ (inp : List Nat) (st avail : Nat),
    (toyDecode inp st avail).2.1 ≤ inp.length
    ∧ (toyDecode inp st avail).2.2.1.length ≤ avail := by
  intro inp
  induction inp with
  | nil => intro st avail; simp [toyDecode]
  | cons b inp ih =>
    intro st avail
    simp only [toyDecode]
    split_ifs
    · simp
    · simp
    · obtain ⟨i1, i2⟩ := ih 1 avail
      exact ⟨by simp only [List.length_cons]; omega, i2⟩
    · simp
    · cases avail with
      | zero => simp
      | succ a =>
        obtain ⟨i1, i2⟩ := ih 0 a
        exact ⟨by simp only [List.length_cons]; omega, by simp only [List.length_cons]; omega⟩

theorem toy_contract : InflateContract toyZlib toyDecoded toyInv where
  init := by
    intro s hs
    have h0 : toyZlib.inflateInit = some (0 : Nat) := rfl
    rw [h0] at hs
    have : s = (0 : Nat) := (Option.some.inj hs).symm
    subst this
    refine Or.inr ⟨by decide, ?_⟩
    intro t
    simp only [List.nil_append]
    cases toyParse t 0 <;> rfl
  bounds := by
    intro s inp avail flush
    exact toyDecode_bounds inp s avail
  step := by
    intro s cin cout inp avail flush h
    exact (toyDecode_inv inp s avail cin cout h).2.2
  stream_end := by
    intro s cin cout inp avail flush h hcode t
    obtain ⟨_, _, h3⟩ := toyDecode_inv inp s avail cin cout h
    have hst : (toyDecode inp s avail).1 = 2 := by
      by_contra hne
      have hc : (toyZlib.inflate s inp avail flush).code
          = if (toyDecode inp s avail).2.2.2 then Z_DATA_ERROR
            else if (toyDecode inp s avail).1 = 2 then Z_STREAM_END
            else if ((toyDecode inp s avail).2.1 = 0 ∧ (toyDecode inp s avail).2.2.1.length = 0)
                ∨ flush = Z_FINISH then Z_BUF_ERROR
            else Z_OK := rfl
      rw [hc] at hcode
      simp only [hne, if_false] at hcode
      split_ifs at hcode <;> simp [Z_DATA_ERROR, Z_BUF_ERROR, Z_OK, Z_STREAM_END] at hcode
    rcases h3 with ⟨_, hp⟩ | ⟨hlt, _⟩
    · exact hp t
    · omega
  progress := by
    intro s inp avail flush hcode
    have hc : (toyZlib.inflate s inp avail flush).code
        = if (toyDecode inp s avail).2.2.2 then Z_DATA_ERROR
          else if (toyDecode inp s avail).1 = 2 then Z_STREAM_END
          else if ((toyDecode inp s avail).2.1 = 0 ∧ (toyDecode inp s avail).2.2.1.length = 0)
              ∨ flush = Z_FINISH then Z_BUF_ERROR
          else Z_OK := rfl
    have hcons : (toyZlib.inflate s inp avail flush).consumed = (toyDecode inp s avail).2.1 := rfl
    have hprod : (toyZlib.inflate s inp avail flush).produced = (toyDecode inp s avail).2.2.1 :=
      rfl
    rw [hc] at hcode
    rw [hcons, hprod]
    split_ifs at hcode with c1 c2 c3
    · simp [Z_DATA_ERROR, Z_OK] at hcode
    · simp [Z_STREAM_END, Z_OK] at hcode
    · simp [Z_BUF_ERROR, Z_OK] at hcode
    · push_neg at c3
      by_contra hle
      have h0 : (toyDecode inp s avail).2.1 = 0 := by omega
      have h1 := c3.1 h0
      omega
/-! ### A stream that decompresses to more than the scanline buffer holds -/

/-- The loop of `zl_inflatePart` inside a stream `c` whose decompressed data `x` is
longer than the bound `N` of the output window: it ends, and it returns 0 or has
consumed its whole input. -/
theorem inflatePart_overlong (zl : Zlib) (decoded : List Nat → Option (List Nat))
    (Inv : zl.IState → List Nat → List Nat → Prop) (hcon : InflateContract zl decoded Inv)
    (c x : List Nat) (N : Nat) (hx : decoded c = some x) (hover : N < x.length) :
    ∀ (fuel : Nat) (z : z_stream zl.IState) (cin t : List Nat),
      Inv z.state cin z.out → z.out.length + z.avail_out ≤ N →
      cin ++ z.next_in ++ t = c → z.next_in.length + z.avail_out < fuel →
      ∃ ok z2, zl_inflatePart_loop zl fuel z = some (ok, z2)
        ∧ (ok = 0 ∨ (Inv z2.state (cin ++ z.next_in) z2.out
              ∧ z2.out.length + z2.avail_out ≤ N ∧ z2.next_in = [])) := by
  intro fuel
  induction fuel with
  | zero => intro z cin t _ _ _ hf; omega
  | succ n ih =>
    intro z cin t hinv hwin hpre hf
    obtain ⟨s1, s2⟩ := hcon.bounds z.state z.next_in z.avail_out Z_NO_FLUSH
    have s3 := hcon.step z.state cin z.out z.next_in z.avail_out Z_NO_FLUSH hinv
    have hend := hcon.stream_end z.state cin z.out z.next_in z.avail_out Z_NO_FLUSH hinv
    have hprog := hcon.progress z.state z.next_in z.avail_out Z_NO_FLUSH
    rw [zl_inflatePart_loop]
    generalize zl.inflate z.state z.next_in z.avail_out Z_NO_FLUSH = r at s1 s2 s3 hend hprog ⊢
    have a1 : (z.after r).next_in = z.next_in.drop r.consumed := rfl
    have a2 : (z.after r).out = z.out ++ r.produced := rfl
    have a3 : (z.after r).avail_out = z.avail_out - r.produced.length := rfl
    have a4 : (z.after r).state = r.state := rfl
    have hwin2 : (z.after r).out.length + (z.after r).avail_out ≤ N := by
      rw [a2, a3, List.length_append]; omega
    by_cases hc1 : r.code = Z_STREAM_END
    · exfalso
      have := hend hc1 (z.next_in.drop r.consumed ++ t)
      rw [List.append_assoc, ← List.append_assoc (z.next_in.take r.consumed),
        List.take_append_drop, ← List.append_assoc, hpre, hx] at this
      have hxx : x = z.out ++ r.produced := Option.some.inj this
      rw [hxx, List.length_append] at hover
      omega
    · rw [if_neg hc1]
      by_cases hc2 : r.code ≠ Z_OK
      · rw [if_pos hc2]
        exact ⟨0, _, rfl, Or.inl rfl⟩
      · rw [if_neg hc2]
        have hok : r.code = Z_OK := by
          by_contra hne; exact hc2 hne
        by_cases hc3 : (z.after r).next_in.length = 0
        · rw [if_pos hc3]
          refine ⟨1, _, rfl, Or.inr ⟨?_, hwin2, List.length_eq_zero.mp hc3⟩⟩
          rw [a4, a2]
          have hall : z.next_in.take r.consumed = z.next_in := by
            apply List.take_of_length_le
            rw [a1, List.length_drop] at hc3
            omega
          rw [hall] at s3
          exact s3
        · rw [if_neg hc3]
          by_cases hc4 : (z.after r).avail_out = 0
          · rw [if_pos hc4]
            exact ⟨0, _, rfl, Or.inl rfl⟩
          · rw [if_neg hc4]
            have hp := hprog hok
            have hmeas : (z.after r).next_in.length + (z.after r).avail_out < n := by
              rw [a1, a3, List.length_drop]
              omega
            obtain ⟨ok, z2, hres, hcase⟩ := ih (z.after r) (cin ++ z.next_in.take r.consumed) t
              (by rw [a4, a2]; exact s3) hwin2
              (by rw [a1, List.append_assoc cin, List.take_append_drop]; exact hpre) hmeas
            refine ⟨ok, z2, hres, ?_⟩
            rcases hcase with h0 | ⟨i1, i2, i3⟩
            · exact Or.inl h0
            · refine Or.inr ⟨?_, i2, i3⟩
              rw [a1, List.append_assoc, List.take_append_drop] at i1
              exact i1

/-- With the same assumptions `zl_inflateFinish` ends and returns 0. -/
theorem inflateFinish_overlong (zl : Zlib) (decoded : List Nat → Option (List Nat))
    (Inv : zl.IState → List Nat → List Nat → Prop) (hcon : InflateContract zl decoded Inv)
    (c x : List Nat) (N : Nat) (hx : decoded c = some x) (hover : N < x.length) :
    ∀ (fuel : Nat) (z : z_stream zl.IState) (cin t : List Nat),
      Inv z.state cin z.out → z.out.length + z.avail_out ≤ N →
      cin ++ z.next_in ++ t = c → z.next_in.length + z.avail_out < fuel →
      ∃ z2, zl_inflateFinish zl fuel z = some (0, z2) := by
  intro fuel
  induction fuel with
  | zero => intro z cin t _ _ _ hf; omega
  | succ n ih =>
    intro z cin t hinv hwin hpre hf
    obtain ⟨s1, s2⟩ := hcon.bounds z.state z.next_in z.avail_out Z_FINISH
    have s3 := hcon.step z.state cin z.out z.next_in z.avail_out Z_FINISH hinv
    have hend := hcon.stream_end z.state cin z.out z.next_in z.avail_out Z_FINISH hinv
    have hprog := hcon.progress z.state z.next_in z.avail_out Z_FINISH
    rw [zl_inflateFinish]
    generalize zl.inflate z.state z.next_in z.avail_out Z_FINISH = r at s1 s2 s3 hend hprog ⊢
    have a1 : (z.after r).next_in = z.next_in.drop r.consumed := rfl
    have a2 : (z.after r).out = z.out ++ r.produced := rfl
    have a3 : (z.after r).avail_out = z.avail_out - r.produced.length := rfl
    have a4 : (z.after r).state = r.state := rfl
    have hwin2 : (z.after r).out.length + (z.after r).avail_out ≤ N := by
      rw [a2, a3, List.length_append]; omega
    by_cases hc1 : r.code = Z_STREAM_END
    · exfalso
      have := hend hc1 (z.next_in.drop r.consumed ++ t)
      rw [List.append_assoc, ← List.append_assoc (z.next_in.take r.consumed),
        List.take_append_drop, ← List.append_assoc, hpre, hx] at this
      have hxx : x = z.out ++ r.produced := Option.some.inj this
      rw [hxx, List.length_append] at hover
      omega
    · rw [if_neg hc1]
      by_cases hc2 : r.code ≠ Z_OK
      · rw [if_pos hc2]
        exact ⟨_, rfl⟩
      · rw [if_neg hc2]
        have hok : r.code = Z_OK := by
          by_contra hne; exact hc2 hne
        by_cases hc4 : (z.after r).avail_out = 0
        · rw [if_pos hc4]
          exact ⟨_, rfl⟩
        · rw [if_neg hc4]
          have hp := hprog hok
          have hmeas : (z.after r).next_in.length + (z.after r).avail_out < n := by
            rw [a1, a3, List.length_drop]
            omega
          exact ih (z.after r) (cin ++ z.next_in.take r.consumed) t
            (by rw [a4, a2]; exact s3) hwin2
            (by rw [a1, List.append_assoc cin, List.take_append_drop]; exact hpre) hmeas

theorem crcVariant_refl_all (cs : List (List Nat × List Nat × List Nat))
    (hok : ∀ c ∈ cs, WellFormedRaw c) : List.Forall₂ CrcVariant cs cs := by
  induction cs with
  | nil => exact List.Forall₂.nil
  | cons c cs ih =>
    obtain ⟨h1, h2, h3⟩ := hok c (List.mem_cons_self _ _)
    exact List.Forall₂.cons ⟨rfl, rfl, h1, h2, h3, h3⟩
      (ih (fun d hd => hok d (List.mem_cons_of_mem _ hd)))

theorem read_pngsection_of_scan_none (junk : Nat → Nat) (f : FILE) (name : List Nat)
    (h : (read_pngsection_scan name (f.data.length + 1) f).1 = none) :
    (read_pngsection junk f name).ret = 0 := by
  unfold read_pngsection
  rcases hs : read_pngsection_scan name (f.data.length + 1) f with ⟨r, f1⟩
  rw [hs] at h
  simp only at h
  subst h
  rfl

theorem idatStream_split (before rest : List (List Nat × List Nat × List Nat))
    (payload crc : List Nat) (hbef : ∀ c ∈ before, c.1 ≠ IDAT) :
    idatStream (before ++ (IDAT, payload, crc) :: rest) = payload ++ idatStream rest := by
  unfold idatStream
  have h0 : before.filter (fun c => decide (c.1 = IDAT)) = [] := by
    rw [List.filter_eq_nil_iff]
    intro c hc
    simpa using hbef c hc
  rw [List.filter_append, h0, List.nil_append, List.filter_cons]
  simp

theorem rawChunks_mem_length (cs : List (List Nat × List Nat × List Nat))
    (c : List Nat × List Nat × List Nat) (hc : c ∈ cs) :
    c.2.1.length ≤ (rawChunks cs).length := by
  obtain ⟨s, t, rfl⟩ := List.append_of_mem hc
  rw [rawChunks_append, rawChunks_cons]
  simp only [List.length_append, rawChunk]
  omega

/-- The IDAT loop of `getFromPNG` on a chunk stream whose IDAT payloads continue a
compressed stream `c` that decompresses to more than `N` bytes: the loop ends, with
`zl_inflatePart` having failed or with everything fed so far consumed. -/
theorem idat_overlong (zl : Zlib) (decoded : List Nat → Option (List Nat))
    (Inv : zl.IState → List Nat → List Nat → Prop) (hcon : InflateContract zl decoded Inv)
    (c x : List Nat) (N : Nat) (hx : decoded c = some x) (hover : N < x.length)
    (fuel : Nat) (junk : Nat → Nat) :
    ∀ (n : Nat) (cs : List (List Nat × List Nat × List Nat)),
      (∀ d ∈ cs, WellFormedRaw d) →
      ∀ (pre : List Nat) (z : z_stream zl.IState) (fed t : List Nat),
        Inv z.state fed z.out → z.out.length + z.avail_out ≤ N → z.next_in = [] →
        fed ++ idatStream cs ++ t = c →
        (pre ++ rawChunks cs).length + N < fuel →
        ∃ b z2, getFromPNG_idat zl fuel junk n ⟨pre ++ rawChunks cs, pre.length⟩ z = some (b, z2)
          ∧ (b = false ∨ ∃ fed2 t2, Inv z2.state fed2 z2.out
                ∧ z2.out.length + z2.avail_out ≤ N ∧ z2.next_in = [] ∧ fed2 ++ t2 = c) := by
  intro n
  induction n with
  | zero =>
    intro cs _ pre z fed t hinv hwin hnext hpre _
    exact ⟨true, z, rfl, Or.inr ⟨fed, idatStream cs ++ t, hinv, hwin, hnext,
      by rw [← List.append_assoc]; exact hpre⟩⟩
  | succ n ih =>
    intro cs hok pre z fed t hinv hwin hnext hpre hfuel
    rw [getFromPNG_idat]
    rcases raw_scan IDAT cs cs (crcVariant_refl_all cs hok) pre pre
        ((pre ++ rawChunks cs).length + 1) rfl with
      ⟨n1, _⟩ | ⟨before, _, ty, payload, crc, _, rest, _, hcs, _, _, k1, k2, k3, _, _, kty, kbef,
        r1, _⟩
    · have hret := read_pngsection_of_scan_none junk ⟨pre ++ rawChunks cs, pre.length⟩ IDAT n1
      simp only [hret, if_true]
      exact ⟨true, z, rfl, Or.inr ⟨fed, idatStream cs ++ t, hinv, hwin, hnext,
        by rw [← List.append_assoc]; exact hpre⟩⟩
    · subst hcs
      have hty : ty = IDAT := by
        rw [strcmp_eq_type ty IDAT k1 (by decide) (by decide)] at kty
        simpa using kty
      subst hty
      have hbef : ∀ d ∈ before, d.1 ≠ IDAT := by
        intro d hd
        have h4 := (hok d (List.mem_append_left _ hd)).1
        have := kbef d hd
        rw [strcmp_eq_type d.1 IDAT h4 (by decide) (by decide)] at this
        simpa using this
      rw [raw_section_found junk IDAT pre before rest IDAT payload crc k1 k3 r1]
      simp only [one_ne_zero, if_false, Option.getD_some]
      rw [idatStream_split before rest payload crc hbef] at hpre
      have hpl : payload.length ≤ (rawChunks (before ++ (IDAT, payload, crc) :: rest)).length :=
        rawChunks_mem_length _ (IDAT, payload, crc) (by simp)
      obtain ⟨ok, z2, hres, hcase⟩ := inflatePart_overlong zl decoded Inv hcon c x N hx hover
        fuel { z with next_in := payload } fed (idatStream rest ++ t) hinv hwin
        (by simp only [List.append_assoc] at hpre ⊢; exact hpre)
        (by simp only [List.length_append] at hfuel ⊢; omega)
      unfold zl_inflatePart
      rw [hres]
      simp only []
      by_cases hok0 : ok = 0
      · rw [if_pos hok0]
        exact ⟨false, z2, rfl, Or.inl rfl⟩
      · rw [if_neg hok0]
        rcases hcase with h0 | ⟨i1, i2, i3⟩
        · exact absurd h0 hok0
        · have hfl : ((pre ++ rawChunks before ++ rawChunk (IDAT, payload, crc))
              ++ rawChunks rest).length + N < fuel := by
            have : (pre ++ rawChunks before ++ rawChunk (IDAT, payload, crc)) ++ rawChunks rest
                = pre ++ rawChunks (before ++ (IDAT, payload, crc) :: rest) := by
              simp [rawChunks_append, rawChunks_cons, List.append_assoc]
            rw [this]
            exact hfuel
          exact ih rest (fun d hd => hok d (by simp [hd]))
            (pre ++ rawChunks before ++ rawChunk (IDAT, payload, crc)) z2 (fed ++ payload) t
            i1 i2 i3 (by simp only [List.append_assoc] at hpre ⊢; exact hpre) hfl

/-- The part of `getFromPNG` after IHDR on a chunk stream whose IDAT payloads form a
compressed stream that decompresses to more than `(w * bpp + 1) * h` bytes: it ends
and returns the empty raster. -/
theorem decode_overlong (zl : Zlib) (decoded : List Nat → Option (List Nat))
    (Inv : zl.IState → List Nat → List Nat → Prop) (hcon : InflateContract zl decoded Inv)
    (fuel : Nat) (junk : Nat → Nat) (heap : Int → Nat) (n : Nat)
    (cs : List (List Nat × List Nat × List Nat)) (hok : ∀ d ∈ cs, WellFormedRaw d)
    (pre x : List Nat) (w h bpp : Int)
    (hx : decoded (idatStream cs) = some x)
    (hover : ((w * bpp + 1) * h).toNat < x.length)
    (hfuel : (pre ++ rawChunks cs).length + ((w * bpp + 1) * h).toNat < fuel) :
    getFromPNG_decode zl fuel junk heap n ⟨pre ++ rawChunks cs, pre.length⟩ w h bpp
      = some ⟨0, 0, none⟩ := by
  unfold getFromPNG_decode
  simp only []
  split
  · rfl
  · cases hz : zl_initInflate zl ((w * bpp + 1) * h).toNat with
    | none => rfl
    | some z0 =>
      simp only []
      split
      · rfl
      · unfold zl_initInflate at hz
        cases hs : zl.inflateInit with
        | none => rw [hs] at hz; simp at hz
        | some s =>
          rw [hs] at hz
          simp only [Option.some.injEq] at hz
          subst hz
          have hwin0 : ([] : List Nat).length + ((w * bpp + 1) * h).toNat % 2 ^ 32
              ≤ ((w * bpp + 1) * h).toNat := by
            simp only [List.length_nil, Nat.zero_add]
            exact Nat.mod_le _ _
          obtain ⟨b, z2, hres, hcase⟩ := idat_overlong zl decoded Inv hcon (idatStream cs) x
            ((w * bpp + 1) * h).toNat hx hover fuel junk n cs hok pre
            { next_in := [], out := [], avail_out := ((w * bpp + 1) * h).toNat % 2 ^ 32, state := s }
            [] [] (hcon.init s hs) hwin0 rfl (by simp) hfuel
          rw [hres]
          rcases hcase with hb | ⟨fed2, t2, i1, i2, i3, i4⟩
          · subst hb; rfl
          · cases b with
            | false => rfl
            | true =>
              simp only []
              obtain ⟨z3, hfin⟩ := inflateFinish_overlong zl decoded Inv hcon (idatStream cs) x
                ((w * bpp + 1) * h).toNat hx hover fuel z2 fed2 t2 i1 i2
                (by rw [i3, List.append_nil]; exact i4)
                (by rw [i3]; simp only [List.length_nil, Nat.zero_add]; omega)
              rw [hfin]
              simp

theorem ihdr_fields_ct (w h ct : Nat) (hw : w < 2 ^ 31) (hh : h < 2 ^ 31) :
    toInt32 (ntohl ((be32 w ++ be32 h ++ [8, ct, 0, 0, 0]).take 4)) = (w : Int)
    ∧ toInt32 (ntohl (((be32 w ++ be32 h ++ [8, ct, 0, 0, 0]).drop 4).take 4)) = (h : Int)
    ∧ (be32 w ++ be32 h ++ [8, ct, 0, 0, 0]).getD 8 0 = 8
    ∧ (be32 w ++ be32 h ++ [8, ct, 0, 0, 0]).getD 9 0 = ct
    ∧ (be32 w ++ be32 h ++ [8, ct, 0, 0, 0]).length = 13 := by
  have e1 : (be32 w ++ be32 h ++ [8, ct, 0, 0, 0]).take 4 = be32 w := by simp [be32]
  have e2 : ((be32 w ++ be32 h ++ [8, ct, 0, 0, 0]).drop 4).take 4 = be32 h := by simp [be32]
  rw [e1, e2, ntohl_be32 w (by omega), ntohl_be32 h (by omega), toInt32_small w hw,
    toInt32_small h hh]
  refine ⟨rfl, rfl, ?_, ?_, ?_⟩ <;> simp [be32]

/-- Loading a file whose IHDR declares `w`, `h`, bit depth 8 and colour type `ct`, and
whose IDAT payloads form a stream that decompresses to more than `(w * bpp + 1) * h`
bytes. -/
theorem getFromPNG_overlong (zl : Zlib) (decoded : List Nat → Option (List Nat))
    (Inv : zl.IState → List Nat → List Nat → Prop) (hcon : InflateContract zl decoded Inv)
    (fuel : Nat) (junk : Nat → Nat) (heap : Int → Nat)
    (w h ct : Nat) (hw : w < 2 ^ 31) (hh : h < 2 ^ 31) (crc0 : List Nat) (hcrc0 : crc0.length = 4)
    (cs : List (List Nat × List Nat × List Nat)) (hok : ∀ d ∈ cs, WellFormedRaw d)
    (x : List Nat) (hx : decoded (idatStream cs) = some x)
    (hover : (w * (if ct = 6 then 4 else 3) + 1) * h < x.length)
    (hfuel : (pngSignature
        ++ rawChunks ((IHDR, be32 w ++ be32 h ++ [8, ct, 0, 0, 0], crc0) :: cs)).length
      + (w * (if ct = 6 then 4 else 3) + 1) * h < fuel) :
    getFromPNG zl fuel junk heap
        (some (pngSignature
          ++ rawChunks ((IHDR, be32 w ++ be32 h ++ [8, ct, 0, 0, 0], crc0) :: cs)))
      = some ⟨0, 0, none⟩ := by
  obtain ⟨f1, f2, f3, f4, f5⟩ := ihdr_fields_ct w h ct hw hh
  have hfile : pngSignature ++ rawChunks ((IHDR, be32 w ++ be32 h ++ [8, ct, 0, 0, 0], crc0) :: cs)
      = pngSignature ++ rawChunk (IHDR, be32 w ++ be32 h ++ [8, ct, 0, 0, 0], crc0)
          ++ rawChunks cs := by
    rw [rawChunks_cons, ← List.append_assoc]
  rw [hfile] at hfuel ⊢
  have hhd := read_pngheader_signature
    (rawChunk (IHDR, be32 w ++ be32 h ++ [8, ct, 0, 0, 0], crc0) ++ rawChunks cs)
  simp only [← List.append_assoc] at hhd
  have h1 := raw_section_head junk IHDR (by decide) (by decide) pngSignature
    (be32 w ++ be32 h ++ [8, ct, 0, 0, 0]) crc0 (rawChunks cs) (by rw [f5]; decide) hcrc0
  have hp : pngSignature.length + ((be32 w ++ be32 h ++ [8, ct, 0, 0, 0]).length + 12)
      = (pngSignature ++ rawChunk (IHDR, be32 w ++ be32 h ++ [8, ct, 0, 0, 0], crc0)).length := by
    have hl := rawChunk_length (IHDR, be32 w ++ be32 h ++ [8, ct, 0, 0, 0], crc0) rfl hcrc0
    rw [List.length_append pngSignature, hl]
  rw [hp] at h1
  have h8 : pngSignature.length = 8 := rfl
  rw [h8] at h1
  have hdec : ∀ bpp : Nat, bpp = (if ct = 6 then 4 else 3) →
      getFromPNG_decode zl fuel junk heap
        ((pngSignature ++ rawChunk (IHDR, be32 w ++ be32 h ++ [8, ct, 0, 0, 0], crc0)
          ++ rawChunks cs).length + 1)
        ⟨pngSignature ++ rawChunk (IHDR, be32 w ++ be32 h ++ [8, ct, 0, 0, 0], crc0)
          ++ rawChunks cs,
          (pngSignature ++ rawChunk (IHDR, be32 w ++ be32 h ++ [8, ct, 0, 0, 0], crc0)).length⟩
        (w : Int) (h : Int) (bpp : Int) = some ⟨0, 0, none⟩ := by
    intro bpp hbpp
    have e : (((w : Int) * (bpp : Int) + 1) * (h : Int)).toNat = (w * bpp + 1) * h := by
      have : ((w : Int) * (bpp : Int) + 1) * (h : Int) = (((w * bpp + 1) * h : Nat) : Int) := by
        push_cast; ring
      rw [this, Int.toNat_ofNat]
    exact decode_overlong zl decoded Inv hcon fuel junk heap _ cs hok _ x (w : Int) (h : Int)
      (bpp : Int) hx (by rw [e, hbpp]; exact hover) (by rw [e, hbpp]; exact hfuel)
  generalize pngSignature ++ rawChunk (IHDR, be32 w ++ be32 h ++ [8, ct, 0, 0, 0], crc0)
    ++ rawChunks cs = file at hhd h1 hdec ⊢
  generalize (pngSignature
    ++ rawChunk (IHDR, be32 w ++ be32 h ++ [8, ct, 0, 0, 0], crc0)).length = p at h1 hdec
  unfold getFromPNG
  simp only [hhd, h1, f1, f2, f3, f4, f5]
  by_cases h6 : ct = 6
  · have := hdec 4 (by simp [h6])
    simp only [Nat.cast_ofNat] at this
    simp [h6, this]
  · by_cases h2 : ct = 2
    · have := hdec 3 (by simp [h2])
      simp only [Nat.cast_ofNat] at this
      simp [h2, this]
    · simp [h6, h2]

/-! ### The three wrappers, for any codec -/

/-- The function `zl_inflatePart` returns 0 when the call of `inflate` returns `Z_OK`
with input left over and no output space left. -/
theorem inflatePart_no_space (zl : Zlib) (fuel : Nat) (z : z_stream zl.IState) (inp : List Nat)
    (hok : (zl.inflate z.state inp z.avail_out Z_NO_FLUSH).code = Z_OK)
    (hin : (zl.inflate z.state inp z.avail_out Z_NO_FLUSH).consumed < inp.length)
    (hout : z.avail_out ≤ (zl.inflate z.state inp z.avail_out Z_NO_FLUSH).produced.length) :
    ∃ z2, zl_inflatePart zl (fuel + 1) z inp = some (0, z2) := by
  unfold zl_inflatePart
  rw [zl_inflatePart_loop]
  simp only [hok]
  have a1 : ¬ (Z_OK = Z_STREAM_END) := by decide
  have a3 : ¬ (({ z with next_in := inp } : z_stream zl.IState).after
      (zl.inflate z.state inp z.avail_out Z_NO_FLUSH)).next_in.length = 0 := by
    show ¬ (inp.drop _).length = 0
    rw [List.length_drop]; omega
  have a4 : (({ z with next_in := inp } : z_stream zl.IState).after
      (zl.inflate z.state inp z.avail_out Z_NO_FLUSH)).avail_out = 0 := by
    show z.avail_out - _ = 0
    omega
  rw [if_neg a1, if_neg (by simp), if_neg a3, if_pos a4]
  exact ⟨_, rfl⟩

/-- The function `zl_inflateFinish` returns a value other than 0 only when a call of
`inflate` returned `Z_STREAM_END`, and then it returns 1. -/
theorem inflateFinish_nonzero (zl : Zlib) :
    ∀ (fuel : Nat) (z z2 : z_stream zl.IState) (ok : Int),
      zl_inflateFinish zl fuel z = some (ok, z2) → ok ≠ 0 →
      ok = 1 ∧ ∃ z1 : z_stream zl.IState,
        (zl.inflate z1.state z1.next_in z1.avail_out Z_FINISH).code = Z_STREAM_END
        ∧ z2 = z1.after (zl.inflate z1.state z1.next_in z1.avail_out Z_FINISH) := by
  intro fuel
  induction fuel with
  | zero => intro z z2 ok h _; simp [zl_inflateFinish] at h
  | succ n ih =>
    intro z z2 ok h hne
    rw [zl_inflateFinish] at h
    by_cases hc1 : (zl.inflate z.state z.next_in z.avail_out Z_FINISH).code = Z_STREAM_END
    · rw [if_pos hc1] at h
      simp only [Option.some.injEq, Prod.mk.injEq] at h
      exact ⟨h.1.symm, z, hc1, h.2.symm⟩
    · rw [if_neg hc1] at h
      split_ifs at h with c2 c4
      · simp only [Option.some.injEq, Prod.mk.injEq] at h
        exact absurd h.1.symm hne
      · simp only [Option.some.injEq, Prod.mk.injEq] at h
        exact absurd h.1.symm hne
      · exact ih _ z2 ok h hne

/-- The output window: with a codec that stores at most `avail_out` bytes per call,
the bytes stored so far plus `avail_out` never exceed the length bound by
`zl_initInflate`. -/
theorem inflatePart_window (zl : Zlib) (N : Nat)
    (hb : ∀ s inp avail flush, (zl.inflate s inp avail flush).produced.length ≤ avail) :
    ∀ (fuel : Nat) (z z2 : z_stream zl.IState) (ok : Int),
      z.out.length + z.avail_out ≤ N → zl_inflatePart_loop zl fuel z = some (ok, z2) →
      z2.out.length + z2.avail_out ≤ N := by
  intro fuel
  induction fuel with
  | zero => intro z z2 ok _ h; simp [zl_inflatePart_loop] at h
  | succ n ih =>
    intro z z2 ok hwin h
    rw [zl_inflatePart_loop] at h
    have hb1 := hb z.state z.next_in z.avail_out Z_NO_FLUSH
    have hwin2 : (z.after (zl.inflate z.state z.next_in z.avail_out Z_NO_FLUSH)).out.length
        + (z.after (zl.inflate z.state z.next_in z.avail_out Z_NO_FLUSH)).avail_out ≤ N := by
      show (z.out ++ _).length + (z.avail_out - _) ≤ N
      rw [List.length_append]; omega
    split_ifs at h
    all_goals first
      | (simp only [Option.some.injEq, Prod.mk.injEq] at h; rw [← h.2]; exact hwin2)
      | exact ih _ z2 ok hwin2 h

theorem inflateFinish_window (zl : Zlib) (N : Nat)
    (hb : ∀ s inp avail flush, (zl.inflate s inp avail flush).produced.length ≤ avail) :
    ∀ (fuel : Nat) (z z2 : z_stream zl.IState) (ok : Int),
      z.out.length + z.avail_out ≤ N → zl_inflateFinish zl fuel z = some (ok, z2) →
      z2.out.length + z2.avail_out ≤ N := by
  intro fuel
  induction fuel with
  | zero => intro z z2 ok _ h; simp [zl_inflateFinish] at h
  | succ n ih =>
    intro z z2 ok hwin h
    rw [zl_inflateFinish] at h
    have hb1 := hb z.state z.next_in z.avail_out Z_FINISH
    have hwin2 : (z.after (zl.inflate z.state z.next_in z.avail_out Z_FINISH)).out.length
        + (z.after (zl.inflate z.state z.next_in z.avail_out Z_FINISH)).avail_out ≤ N := by
      show (z.out ++ _).length + (z.avail_out - _) ≤ N
      rw [List.length_append]; omega
    split_ifs at h
    all_goals first
      | (simp only [Option.some.injEq, Prod.mk.injEq] at h; rw [← h.2]; exact hwin2)
      | exact ih _ z2 ok hwin2 h

theorem initInflate_window (zl : Zlib) (N : Nat) (z0 : z_stream zl.IState)
    (h : zl_initInflate zl N = some z0) : z0.out.length + z0.avail_out ≤ N := by
  unfold zl_initInflate at h
  cases hs : zl.inflateInit with
  | none => rw [hs] at h; simp at h
  | some s =>
    rw [hs] at h
    simp only [Option.some.injEq] at h
    subst h
    simp only [List.length_nil, Nat.zero_add]
    exact Nat.mod_le _ _

/-- Claim C15. For a codec under the inflate contract (a call stores at most
`avail_out` bytes and consumes at most its input, reports `Z_STREAM_END` only when
what it produced since `inflateInit` is the decompressed data of what it consumed,
and makes progress whenever it returns `Z_OK`):
* `zl_inflatePart` returns 0 when the call of `inflate` returns `Z_OK` with input left
  and no output space left;
* `zl_inflateFinish` returns a value other than 0 only after a call that returned
  `Z_STREAM_END`;
* the bytes stored so far plus `avail_out` never exceed the length `N` bound by
  `zl_initInflate`, so no call is given a window past the end of the buffer;
* for a file whose IHDR declares `w`, `h`, bit depth 8 and colour type `ct` and whose
  IDAT payloads form a stream that decompresses to more than `(w * bpp + 1) * h`
  bytes, `getFromPNG` ends (given enough `fuel`) and returns the empty raster. -/
theorem C15_overlong_stream_rejected (zl : Zlib) (decoded : List Nat → Option (List Nat))
    (Inv : zl.IState → List Nat → List Nat → Prop) (hcon : InflateContract zl decoded Inv)
    (fuel : Nat) (junk : Nat → Nat) (heap : Int → Nat)
    (w h ct : Nat) (hw : w < 2 ^ 31) (hh : h < 2 ^ 31) (crc0 : List Nat) (hcrc0 : crc0.length = 4)
    (cs : List (List Nat × List Nat × List Nat)) (hok : ∀ d ∈ cs, WellFormedRaw d)
    (x : List Nat) (hx : decoded (idatStream cs) = some x)
    (hover : (w * (if ct = 6 then 4 else 3) + 1) * h < x.length)
    (hfuel : (pngSignature
        ++ rawChunks ((IHDR, be32 w ++ be32 h ++ [8, ct, 0, 0, 0], crc0) :: cs)).length
      + (w * (if ct = 6 then 4 else 3) + 1) * h < fuel) :
    (∀ (n : Nat) (z : z_stream zl.IState) (inp : List Nat),
      (zl.inflate z.state inp z.avail_out Z_NO_FLUSH).code = Z_OK →
      (zl.inflate z.state inp z.avail_out Z_NO_FLUSH).consumed < inp.length →
      z.avail_out ≤ (zl.inflate z.state inp z.avail_out Z_NO_FLUSH).produced.length →
      ∃ z2, zl_inflatePart zl (n + 1) z inp = some (0, z2))
    ∧ (∀ (n : Nat) (z z2 : z_stream zl.IState) (ok : Int),
      zl_inflateFinish zl n z = some (ok, z2) → ok ≠ 0 →
      ok = 1 ∧ ∃ z1 : z_stream zl.IState,
        (zl.inflate z1.state z1.next_in z1.avail_out Z_FINISH).code = Z_STREAM_END
        ∧ z2 = z1.after (zl.inflate z1.state z1.next_in z1.avail_out Z_FINISH))
    ∧ (∀ N : Nat,
      (∀ z0, zl_initInflate zl N = some z0 → z0.out.length + z0.avail_out ≤ N)
      ∧ (∀ (n : Nat) (z z2 : z_stream zl.IState) (inp : List Nat) (ok : Int),
          z.out.length + z.avail_out ≤ N → zl_inflatePart zl n z inp = some (ok, z2) →
          z2.out.length + z2.avail_out ≤ N)
      ∧ (∀ (n : Nat) (z z2 : z_stream zl.IState) (ok : Int),
          z.out.length + z.avail_out ≤ N → zl_inflateFinish zl n z = some (ok, z2) →
          z2.out.length + z2.avail_out ≤ N))
    ∧ getFromPNG zl fuel junk heap
        (some (pngSignature
          ++ rawChunks ((IHDR, be32 w ++ be32 h ++ [8, ct, 0, 0, 0], crc0) :: cs)))
      = some ⟨0, 0, none⟩ := by
  have hb : ∀ s inp avail flush, (zl.inflate s inp avail flush).produced.length ≤ avail :=
    fun s inp avail flush => (hcon.bounds s inp avail flush).2
  refine ⟨fun n z inp h1 h2 h3 => inflatePart_no_space zl n z inp h1 h2 h3,
    fun n z z2 ok h hne => inflateFinish_nonzero zl n z z2 ok h hne,
    fun N => ⟨fun z0 h0 => initInflate_window zl N z0 h0,
      fun n z z2 inp ok hwin h => inflatePart_window zl N hb n { z with next_in := inp } z2 ok
        hwin h,
      fun n z z2 ok hwin h => inflateFinish_window zl N hb n z z2 ok hwin h⟩,
    getFromPNG_overlong zl decoded Inv hcon fuel junk heap w h ct hw hh crc0 hcrc0 cs hok x hx
      hover hfuel⟩

/-- A file that declares a 1×1 RGBA image (5 scanline bytes) and carries the example
codec's stream for the 6 bytes `0, 10, 20, 30, 40, 50`. -/
theorem C15_witness :
    getFromPNG toyZlib 100 (fun _ => 0) (fun _ => 0)
        (some (pngSignature
          ++ rawChunks ((IHDR, be32 1 ++ be32 1 ++ [8, 6, 0, 0, 0], [0, 0, 0, 0])
              :: [(IDAT, toyCompress [0, 10, 20, 30, 40, 50], [0, 0, 0, 0]),
                  (IEND, [], [0, 0, 0, 0])])))
      = some ⟨0, 0, none⟩ :=
  (C15_overlong_stream_rejected toyZlib toyDecoded toyInv toy_contract 100 (fun _ => 0)
    (fun _ => 0) 1 1 6 (by decide) (by decide) [0, 0, 0, 0] rfl
    [(IDAT, toyCompress [0, 10, 20, 30, 40, 50], [0, 0, 0, 0]), (IEND, [], [0, 0, 0, 0])]
    (by
      intro d hd
      simp only [List.mem_cons, List.mem_singleton, List.not_mem_nil, or_false] at hd
      rcases hd with rfl | rfl <;> (unfold WellFormedRaw; decide))
    [0, 10, 20, 30, 40, 50] (by decide) (by decide) (by decide)).2.2.2
/-! ### Saving: the compressed stream over any number of pages -/

theorem toy_deflate_contract : DeflateContract toyZlib toyCompress toyDInv where
  init := ⟨none, rfl, fun x => Or.inl ⟨rfl, rfl, rfl⟩⟩
  step := by
    intro s inp cout X avail h havail
    have key : ∀ pending : List Nat, cout ++ pending = toyCompress X →
        (pending.take avail).length ≤ avail
        ∧ toyDInv (some (pending.drop avail)) (inp.drop inp.length) (cout ++ pending.take avail) X
        ∧ ((if pending.length ≤ avail then Z_STREAM_END else Z_OK) = Z_STREAM_END →
            cout ++ pending.take avail = toyCompress X)
        ∧ ((if pending.length ≤ avail then Z_STREAM_END else Z_OK) ≠ Z_STREAM_END →
            (if pending.length ≤ avail then Z_STREAM_END else Z_OK) = Z_OK
            ∧ 0 < (pending.take avail).length
            ∧ (cout ++ pending.take avail).length < (toyCompress X).length) := by
      intro pending hp
      refine ⟨by rw [List.length_take]; omega, Or.inr ⟨_, rfl, ?_⟩, ?_, ?_⟩
      · rw [List.append_assoc, List.take_append_drop, hp]
      · intro hc
        by_cases hle : pending.length ≤ avail
        · rw [List.take_of_length_le hle, hp]
        · rw [if_neg hle] at hc
          exact absurd hc (by decide)
      · intro hc
        by_cases hle : pending.length ≤ avail
        · rw [if_pos hle] at hc
          exact absurd rfl hc
        · rw [if_neg hle]
          refine ⟨rfl, by rw [List.length_take]; omega, ?_⟩
          rw [← hp, List.length_append, List.length_append, List.length_take]
          omega
    rcases h with ⟨rfl, rfl, rfl⟩ | ⟨p, rfl, hp⟩
    · exact key (toyCompress inp) (by simp)
    · exact key p hp

/-- The loop of `zl_deflate` under the deflate contract: it ends and returns the whole
compressed stream, however many pages of `BUFFER_SIZE` bytes it takes. -/
theorem zl_deflate_loop_contract (zl : Zlib) (compress : List Nat → List Nat)
    (Inv : zl.DState → List Nat → List Nat → List Nat → Prop)
    (hcon : DeflateContract zl compress Inv) (X : List Nat) :
    ∀ (fuel : Nat) (z : z_stream zl.DState) (dat cout : List Nat),
      Inv z.state z.next_in cout X → dat ++ z.out = cout →
      z.out.length + z.avail_out = BUFFER_SIZE → 0 < z.avail_out →
      (compress X).length - cout.length < fuel →
      zl_deflate_loop zl fuel z dat = some (compress X) := by
  intro fuel
  induction fuel with
  | zero => intro z dat cout _ _ _ _ hf; omega
  | succ n ih =>
    intro z dat cout hinv hdat hpage havail hf
    obtain ⟨s1, s2, s3, s4⟩ := hcon.step z.state z.next_in cout X z.avail_out hinv havail
    rw [zl_deflate_loop]
    generalize zl.deflate z.state z.next_in z.avail_out Z_FINISH = r at s1 s2 s3 s4 ⊢
    have a1 : (z.after r).next_in = z.next_in.drop r.consumed := rfl
    have a2 : (z.after r).out = z.out ++ r.produced := rfl
    have a3 : (z.after r).avail_out = z.avail_out - r.produced.length := rfl
    have a4 : (z.after r).state = r.state := rfl
    have hpage2 : (z.after r).out.length + (z.after r).avail_out = BUFFER_SIZE := by
      rw [a2, a3, List.length_append]; omega
    have hdat2 : dat ++ (z.after r).out = cout ++ r.produced := by
      rw [a2, ← List.append_assoc, hdat]
    by_cases hc1 : r.code = Z_STREAM_END
    · rw [if_pos hc1]
      have : BUFFER_SIZE - (z.after r).avail_out = (z.after r).out.length := by omega
      rw [this, List.take_length]
      unfold bufstr_write
      rw [hdat2, s3 hc1]
    · rw [if_neg hc1]
      obtain ⟨hok, hprod, hshort⟩ := s4 hc1
      rw [if_neg (by simp [hok])]
      have hmeas : (compress X).length - (cout ++ r.produced).length < n := by
        rw [List.length_append] at hshort ⊢
        omega
      by_cases hc4 : (z.after r).avail_out = 0
      · rw [if_pos hc4]
        have hfull : (z.after r).out.length = BUFFER_SIZE := by omega
        have htake : (z.after r).out.take BUFFER_SIZE = (z.after r).out := by
          rw [← hfull, List.take_length]
        rw [htake]
        unfold bufstr_write
        exact ih { z.after r with out := [], avail_out := BUFFER_SIZE } (dat ++ (z.after r).out)
          (cout ++ r.produced) (by rw [← a1, ← a4] at s2; exact s2)
          (by rw [List.append_nil]; exact hdat2) (by simp)
          (by show 0 < BUFFER_SIZE; decide) hmeas
      · rw [if_neg hc4]
        exact ih (z.after r) dat (cout ++ r.produced) (by rw [a1, a4]; exact s2) hdat2 hpage2
          (by omega) hmeas

theorem zl_deflate_contract (zl : Zlib) (compress : List Nat → List Nat)
    (Inv : zl.DState → List Nat → List Nat → List Nat → Prop)
    (hcon : DeflateContract zl compress Inv) (fuel : Nat) (x : List Nat)
    (hfuel : (compress x).length < fuel) :
    zl_deflate zl fuel x = some (compress x) := by
  obtain ⟨s, hs, hinv⟩ := hcon.init
  unfold zl_deflate
  rw [hs]
  exact zl_deflate_loop_contract zl compress Inv hcon x fuel
    { next_in := x, out := [], avail_out := BUFFER_SIZE, state := s } [] [] (hinv x) rfl
    (by simp) (by show 0 < BUFFER_SIZE; decide) (by simpa using hfuel)

theorem alpha_row_tag0_buf (w h j : Int) (s : Bufs) (hw : 0 ≤ w)
    (h0 : s.buf (j * (w * 4 + 1)) = 0) : (pngTrueColorAlpha_row w h j s).buf = s.buf := by
  unfold pngTrueColorAlpha_row
  simp only []
  rw [if_pos h0, (memcpy_inv _ _ w s hw).2]

theorem rgb_row_tag0_buf (w h j : Int) (s : Bufs)
    (h0 : s.buf (j * (w * 3 + 1)) = 0) : (pngTrueColor_row w h j s).buf = s.buf := by
  unfold pngTrueColor_row
  simp only []
  rw [if_pos h0]
  exact forLoop_preserve (fun (t : Bufs) => t.buf = s.buf) 0 w _ s rfl
    (fun i t _ _ ht => ht)

/-- Output row `h-1-j` after `pngTrueColorAlpha`, for a scanline `j` with a tag in
`0..4`: its bytes are the bytes the function leaves in scanline `j`. -/
theorem alpha_image_place (imgbuf buf : Mem) (w h j : Int) (hw : 1 ≤ w) (hj0 : 0 ≤ j)
    (hjh : j < h) (htag : buf (j * (w * 4 + 1)) ≤ 4) :
    (∀ i k : Int, 0 ≤ i → i < w → 0 ≤ k → k < 4 →
      (pngTrueColorAlpha imgbuf buf w h).2.imgbuf (((h-1-j) * w + i) * 4 + k)
        = (pngTrueColorAlpha imgbuf buf w h).2.buf (j * (w * 4 + 1) + 1 + i * 4 + k))
    ∧ (buf (j * (w * 4 + 1)) = 0 → ∀ i k : Int, 0 ≤ i → i < w → 0 ≤ k → k < 4 →
      (pngTrueColorAlpha imgbuf buf w h).2.imgbuf (((h-1-j) * w + i) * 4 + k)
        = buf (j * (w * 4 + 1) + 1 + i * 4 + k)) := by
  obtain ⟨fb, fi⟩ := alpha_row_frame w h hw
  obtain ⟨t1, _, t3, t4⟩ := rows_trace (w * 4 + 1) (w * 4) h
    (fun j s => pngTrueColorAlpha_row w h j s) (by omega) (by omega) fb fi ⟨imgbuf, buf⟩ j hj0 hjh
  have htag2 : (forLoop 0 j (fun j s => pngTrueColorAlpha_row w h j s) ⟨imgbuf, buf⟩).buf
      (j * (w * 4 + 1)) ≤ 4 := by rw [t1 _ (le_refl _)]; exact htag
  obtain ⟨rp, _, _, _⟩ := alpha_row_inv w h j _ hw htag2
  rw [pngTrueColorAlpha_snd]
  have e1 : (h-1-j) * (w * 4) = (h-1-j) * w * 4 := by ring
  have key : ∀ i k : Int, 0 ≤ i → i < w → 0 ≤ k → k < 4 →
      (forLoop 0 h (fun j s => pngTrueColorAlpha_row w h j s) ⟨imgbuf, buf⟩).imgbuf
          (((h-1-j) * w + i) * 4 + k)
        = (forLoop 0 h (fun j s => pngTrueColorAlpha_row w h j s) ⟨imgbuf, buf⟩).buf
          (j * (w * 4 + 1) + 1 + i * 4 + k) := by
    intro i k hi0 hi hk0 hk
    have e : ((h-1-j) * w + i) * 4 + k = (h-1-j) * w * 4 + i * 4 + k := by ring
    rw [e, t4 _ (by omega), t3 _ (by omega)]
    exact rp i k hi0 hi hk0 hk
  refine ⟨key, ?_⟩
  intro h0 i k hi0 hi hk0 hk
  rw [key i k hi0 hi hk0 hk, t3 _ (by omega),
    alpha_row_tag0_buf w h j _ (by omega) (by rw [t1 _ (le_refl _)]; exact h0),
    t1 _ (by omega)]

/-- Output row `h-1-j` after `pngTrueColor`, for a scanline `j` with a tag in `0..4`:
bytes 0..2 of each pixel are the bytes the function leaves in scanline `j`, byte 3 is
`0xFF`. -/
theorem rgb_image_place (imgbuf buf : Mem) (w h j : Int) (hw : 1 ≤ w) (hj0 : 0 ≤ j)
    (hjh : j < h) (htag : buf (j * (w * 3 + 1)) ≤ 4) :
    (∀ i : Int, 0 ≤ i → i < w →
      (∀ k : Int, 0 ≤ k → k < 3 →
        (pngTrueColor imgbuf buf w h).2.imgbuf (((h-1-j) * w + i) * 4 + k)
          = (pngTrueColor imgbuf buf w h).2.buf (j * (w * 3 + 1) + 1 + i * 3 + k))
      ∧ (pngTrueColor imgbuf buf w h).2.imgbuf (((h-1-j) * w + i) * 4 + 3) = 0xFF)
    ∧ (buf (j * (w * 3 + 1)) = 0 → ∀ i k : Int, 0 ≤ i → i < w → 0 ≤ k → k < 3 →
      (pngTrueColor imgbuf buf w h).2.imgbuf (((h-1-j) * w + i) * 4 + k)
        = buf (j * (w * 3 + 1) + 1 + i * 3 + k)) := by
  obtain ⟨fb, fi⟩ := rgb_row_frame w h hw
  obtain ⟨t1, _, t3, t4⟩ := rows_trace (w * 3 + 1) (w * 4) h
    (fun j s => pngTrueColor_row w h j s) (by omega) (by omega) fb fi ⟨imgbuf, buf⟩ j hj0 hjh
  have htag2 : (forLoop 0 j (fun j s => pngTrueColor_row w h j s) ⟨imgbuf, buf⟩).buf
      (j * (w * 3 + 1)) ≤ 4 := by rw [t1 _ (le_refl _)]; exact htag
  obtain ⟨rp, ra, _, _⟩ := rgb_row_inv w h j _ hw htag2
  rw [pngTrueColor_snd]
  have e1 : (h-1-j) * (w * 4) = (h-1-j) * w * 4 := by ring
  have key : ∀ i k : Int, 0 ≤ i → i < w → 0 ≤ k → k < 3 →
      (forLoop 0 h (fun j s => pngTrueColor_row w h j s) ⟨imgbuf, buf⟩).imgbuf
          (((h-1-j) * w + i) * 4 + k)
        = (forLoop 0 h (fun j s => pngTrueColor_row w h j s) ⟨imgbuf, buf⟩).buf
          (j * (w * 3 + 1) + 1 + i * 3 + k) := by
    intro i k hi0 hi hk0 hk
    have e : ((h-1-j) * w + i) * 4 + k = (h-1-j) * w * 4 + i * 4 + k := by ring
    rw [e, t4 _ (by omega), t3 _ (by omega)]
    exact rp i k hi0 hi hk0 hk
  refine ⟨fun i hi0 hi => ⟨fun k hk0 hk => key i k hi0 hi hk0 hk, ?_⟩, ?_⟩
  · have e : ((h-1-j) * w + i) * 4 + 3 = (h-1-j) * w * 4 + i * 4 + 3 := by ring
    rw [e, t4 _ (by omega)]
    exact ra rfl i hi0 hi
  · intro h0 i k hi0 hi hk0 hk
    rw [key i k hi0 hi hk0 hk, t3 _ (by omega),
      rgb_row_tag0_buf w h j _ (by rw [t1 _ (le_refl _)]; exact h0), t1 _ (by omega)]

/-- Claim C9 (amended to rows with a tag in `0..4`). For `w ≥ 1` and every scanline
`j` of the image whose own tag byte is in `0..4`, whatever the tags of the other
rows: after `pngTrueColorAlpha` (4 bytes per pixel) byte `k` of pixel `i` of output
row `h-1-j`, at offset `((h-1-j)*w + i)*4 + k`, is the reconstructed byte `k` of pixel
`i` of scanline `j` (the byte the function leaves in the scanline buffer; for tag 0
the stored byte), for all four bytes in the order R,G,B,A; after `pngTrueColor`
(3 bytes per pixel) the same holds for the three bytes R,G,B and byte 3 of every
pixel of that output row is `0xFF`. -/
theorem C9_row_flip_and_layout (imgbuf buf : Mem) (w h j : Int) (hw : 1 ≤ w) (hj0 : 0 ≤ j)
    (hjh : j < h) :
    (buf (j * (w * 4 + 1)) ≤ 4 →
      (∀ i k : Int, 0 ≤ i → i < w → 0 ≤ k → k < 4 →
        (pngTrueColorAlpha imgbuf buf w h).2.imgbuf (((h-1-j) * w + i) * 4 + k)
          = (pngTrueColorAlpha imgbuf buf w h).2.buf (j * (w * 4 + 1) + 1 + i * 4 + k))
      ∧ (buf (j * (w * 4 + 1)) = 0 → ∀ i k : Int, 0 ≤ i → i < w → 0 ≤ k → k < 4 →
        (pngTrueColorAlpha imgbuf buf w h).2.imgbuf (((h-1-j) * w + i) * 4 + k)
          = buf (j * (w * 4 + 1) + 1 + i * 4 + k)))
    ∧ (buf (j * (w * 3 + 1)) ≤ 4 →
      (∀ i : Int, 0 ≤ i → i < w →
        (∀ k : Int, 0 ≤ k → k < 3 →
          (pngTrueColor imgbuf buf w h).2.imgbuf (((h-1-j) * w + i) * 4 + k)
            = (pngTrueColor imgbuf buf w h).2.buf (j * (w * 3 + 1) + 1 + i * 3 + k))
        ∧ (pngTrueColor imgbuf buf w h).2.imgbuf (((h-1-j) * w + i) * 4 + 3) = 0xFF)
      ∧ (buf (j * (w * 3 + 1)) = 0 → ∀ i k : Int, 0 ≤ i → i < w → 0 ≤ k → k < 3 →
        (pngTrueColor imgbuf buf w h).2.imgbuf (((h-1-j) * w + i) * 4 + k)
          = buf (j * (w * 3 + 1) + 1 + i * 3 + k))) :=
  ⟨fun htag => alpha_image_place imgbuf buf w h j hw hj0 hjh htag,
   fun htag => rgb_image_place imgbuf buf w h j hw hj0 hjh htag⟩

/-- A 1-wide, 2-high RGB buffer `9, 10, 20, 30, 2, 1, 2, 3`: scanline 0 carries the
tag 9, scanline 1 the tag 2 (Up); scanline 1 goes to output row 0 all the same. -/
theorem C9_witness :
    (pngTrueColor (fun _ => 0) (memOf [9, 10, 20, 30, 2, 1, 2, 3]) 1 2).2.imgbuf
        (((2 - 1 - 1) * 1 + 0) * 4 + 1)
      = (pngTrueColor (fun _ => 0) (memOf [9, 10, 20, 30, 2, 1, 2, 3]) 1 2).2.buf
        (1 * (1 * 3 + 1) + 1 + 0 * 3 + 1)
    ∧ (pngTrueColor (fun _ => 0) (memOf [9, 10, 20, 30, 2, 1, 2, 3]) 1 2).2.imgbuf
        (((2 - 1 - 1) * 1 + 0) * 4 + 3) = 0xFF :=
  have h := ((C9_row_flip_and_layout (fun _ => 0) (memOf [9, 10, 20, 30, 2, 1, 2, 3]) 1 2 1
    (by decide) (by decide) (by decide)).2 (by decide)).1 0 (by decide) (by decide)
  ⟨h.1 1 (by decide) (by decide), h.2⟩

/-- Claim C9 as worded (every filtered-scanline buffer) fails on a row whose tag is
outside `0..4`. Buffer `9, 10, 20, 30, 40, 0, 1, 2, 3, 4` of a 1-wide, 2-high RGBA
image, output raster holding 7 everywhere before the call: scanline 0 (tag 9) keeps
its bytes `10, 20, 30, 40`, but output row 1 is not written and still holds
`7, 7, 7, 7`; scanline 1 (tag 0) is written to output row 0. The same for the RGB
buffer `9, 10, 20, 30, 0, 1, 2, 3`: byte 3 of the pixel of output row 1 is 7, not
`0xFF`. -/
theorem C9_counterexample :
    [4, 5, 6, 7].map
        (pngTrueColorAlpha (fun _ => 7) (memOf [9, 10, 20, 30, 40, 0, 1, 2, 3, 4]) 1 2).2.imgbuf
      = [7, 7, 7, 7]
    ∧ [1, 2, 3, 4].map
        (pngTrueColorAlpha (fun _ => 7) (memOf [9, 10, 20, 30, 40, 0, 1, 2, 3, 4]) 1 2).2.buf
      = [10, 20, 30, 40]
    ∧ [0, 1, 2, 3].map
        (pngTrueColorAlpha (fun _ => 7) (memOf [9, 10, 20, 30, 40, 0, 1, 2, 3, 4]) 1 2).2.imgbuf
      = [1, 2, 3, 4]
    ∧ [4, 5, 6, 7].map
        (pngTrueColor (fun _ => 7) (memOf [9, 10, 20, 30, 0, 1, 2, 3]) 1 2).2.imgbuf
      = [7, 7, 7, 7]
    ∧ [0, 1, 2, 3].map
        (pngTrueColor (fun _ => 7) (memOf [9, 10, 20, 30, 0, 1, 2, 3]) 1 2).2.imgbuf
      = [1, 2, 3, 255] := by
  decide

/-- The example codec on 40000 zero bytes: the compressed stream is longer than one
page of `BUFFER_SIZE` bytes and `zl_deflate` returns all of it. -/
theorem zl_deflate_pages_example :
    BUFFER_SIZE < (toyCompress (List.replicate 40000 0)).length
    ∧ zl_deflate toyZlib 100000 (List.replicate 40000 0)
        = some (toyCompress (List.replicate 40000 0)) := by
  have hl : (toyCompress (List.replicate 40000 0)).length = 80001 := by
    rw [toyCompress_length, List.length_replicate]
  refine ⟨by rw [hl]; decide, ?_⟩
  exact zl_deflate_contract toyZlib toyCompress toyDInv toy_deflate_contract 100000 _
    (by rw [hl]; norm_num)
end PNG
